import Mathlib

/-!
# ibantos: the node store, the line editor and the command dispatcher

A shallow embedding of `src/boot/kernel.c`.

Conventions of the embedding.

* A `const char*` is the list of bytes found in memory from the pointer on; reading past the
  end of the list yields NUL.  The C string a pointer denotes is `cstr p`, the bytes before the
  first NUL.  Pointer arithmetic `p + k` is `p.drop k`.
* C arrays (`children`, `input_buffer`, `fs_edit_buffer`, `vga_buffer`) are functions from the
  index to the element, written with `Function.update`.
* A pointer into the arena `heap` is `some off` for `&heap[off]`, and `none` for NULL.  The nodes
  stored in the arena are read through `State.nodes`, the typed view of the arena at the offsets
  where `fs_create_node` placed a node.  A content buffer (`fs_node.data`) is kept as the bytes
  it holds.  Both views rely on the regions handed out by `kmalloc` not overlapping, which holds
  as long as the arena is not exhausted (the source does not check).
* Dereferencing NULL is not defined by C; the embedding reads a zeroed node there and drops a
  write.  No state reached after `fs_init` does it.
* Port I/O (`outb`, `inb`, `update_cursor`, `delay_ms`) has no effect on the modelled state.
* `Vga.out` is a ghost log: the characters passed to `vga_putc`, in order.
-/

namespace Ibantos

/-! ## Minimal string functions -/

/-- The NUL byte that terminates a C string. -/
def NUL : Char := Char.ofNat 0

/-- Byte `p[i]` of the memory a `char*` points to. -/
def charAt (p : List Char) (i : Nat) : Char := p.getD i NUL

/-- The C string a `char*` denotes: the bytes before the first NUL. -/
def cstr (p : List Char) : List Char := p.takeWhile (fun c => c != NUL)

/-- Source `strncmp`: compares at most `n` bytes, stops at the first difference or NUL. -/
def strncmp : List Char → List Char → Nat → Int
  | _, _, 0 => 0
  | s1, s2, n + 1 =>
    if charAt s1 0 ≠ charAt s2 0 ∨ charAt s1 0 = NUL ∨ charAt s2 0 = NUL then
      ((charAt s1 0).toNat : Int) - ((charAt s2 0).toNat : Int)
    else strncmp (s1.drop 1) (s2.drop 1) n

/-- Source `strcmp`. -/
def strcmp : List Char → List Char → Int
  | [], b => ((NUL).toNat : Int) - ((charAt b 0).toNat : Int)
  | c :: a, b =>
    if c ≠ NUL ∧ c = charAt b 0 then strcmp a (b.drop 1)
    else (c.toNat : Int) - ((charAt b 0).toNat : Int)

/-- The 32-bit two-complement value of an `int` computation (what the i386 target computes on
signed overflow). -/
def wrap32 (x : Int) : Int := (x + 2147483648) % 4294967296 - 2147483648

/-- Whether a byte is a decimal digit (`c >= '0' && c <= '9'`). -/
def isDigit (c : Char) : Bool := decide ('0'.toNat ≤ c.toNat) && decide (c.toNat ≤ '9'.toNat)

/-- The loop of source `atoi`, with the accumulator `res`. -/
def atoi_loop : List Char → Int → Int
  | [], res => res
  | c :: str, res =>
    if isDigit c then atoi_loop str (wrap32 (wrap32 (res * 10) + ((c.toNat : Int) - 48)))
    else res

/-- Source `atoi`. -/
def atoi (str : List Char) : Int := atoi_loop str 0

/-- The bytes source `strncpy` writes: `n` bytes, the string then NUL padding. -/
def strncpy_bytes : List Char → Nat → List Char
  | _, 0 => []
  | src, n + 1 =>
    if charAt src 0 ≠ NUL then charAt src 0 :: strncpy_bytes (src.drop 1) n
    else List.replicate (n + 1) NUL

/-- Source `strncpy`: the destination array after the call. -/
def strncpy (dst src : List Char) (n : Nat) : List Char := strncpy_bytes src n ++ dst.drop n

/-! ## Display -/

/-- The display globals: `cursor_x`, `cursor_y`, `sp8lf_mode`, `vga_color`, the cell array
`vga_buffer`, and the ghost log `out` of the characters passed to `vga_putc`. -/
structure Vga where
  cursor_x : Int
  cursor_y : Int
  sp8lf_mode : Int
  vga_color : Int
  vga_buffer : Int → Nat
  out : List Char

/-- Conversion of an `int` to `uint8_t`. -/
def u8 (x : Int) : Nat := (x % 256).toNat

/-- Conversion of a `char` (signed on the target) to `uint16_t`. -/
def u16_of_char (c : Char) : Nat :=
  if c.toNat % 256 < 128 then c.toNat % 256 else c.toNat % 256 + 65280

/-- Source `vga_entry`. -/
def vga_entry (c : Char) (color : Nat) : Nat := (u16_of_char c ||| (color <<< 8)) % 65536

/-- Source `vga_get_default_color`. -/
def vga_get_default_color (v : Vga) : Nat := if v.sp8lf_mode ≠ 0 then 112 else 7

/-- Source `vga_clear`. -/
def vga_clear (v : Vga) : Vga :=
  let default_color := vga_get_default_color v
  let buf := (List.range 25).foldl (fun b y =>
    (List.range 80).foldl (fun b x =>
      Function.update b ((y : Int) * 80 + (x : Int)) (vga_entry ' ' default_color)) b) v.vga_buffer
  { v with vga_buffer := buf, cursor_x := 0, cursor_y := 0 }

/-- Source `vga_scroll`. -/
def vga_scroll (v : Vga) : Vga :=
  let default_color := vga_get_default_color v
  let b1 := (List.range' 1 24).foldl (fun b y =>
    (List.range 80).foldl (fun b x =>
      Function.update b (((y : Int) - 1) * 80 + (x : Int)) (b ((y : Int) * 80 + (x : Int)))) b)
    v.vga_buffer
  let b2 := (List.range 80).foldl (fun b x =>
    Function.update b ((25 - 1) * 80 + (x : Int)) (vga_entry ' ' default_color)) b1
  { v with vga_buffer := b2, cursor_y := 25 - 1 }

/-- Source `vga_putc`. -/
def vga_putc (v : Vga) (c : Char) : Vga :=
  let v1 : Vga :=
    if c = '\n' then { v with cursor_x := 0, cursor_y := v.cursor_y + 1 }
    else { v with
      vga_buffer := Function.update v.vga_buffer (v.cursor_y * 80 + v.cursor_x)
        (vga_entry c (u8 v.vga_color))
      cursor_x := v.cursor_x + 1 }
  let v2 : Vga :=
    if v1.cursor_x ≥ 80 then { v1 with cursor_x := 0, cursor_y := v1.cursor_y + 1 } else v1
  let v3 : Vga := if v2.cursor_y ≥ 25 then vga_scroll v2 else v2
  { v3 with out := v3.out ++ [c] }

/-- Source `vga_write`: `vga_putc` on every byte up to the terminating NUL. -/
def vga_write : Vga → List Char → Vga
  | v, [] => v
  | v, c :: str => if c = NUL then v else vga_write (vga_putc v c) str

/-- Source `vga_set_color`, with `uint8_t` parameters. -/
def vga_set_color (v : Vga) (fg bg : Nat) : Vga :=
  { v with vga_color := ((fg % 256 ||| ((bg % 256) <<< 4) : Nat) : Int) }

/-- Source `testascii`. -/
def testascii (v : Vga) : Vga := vga_write v "test ascii nie istnieje.\n".toList

/-! ## The arena and the node store -/

/-- Source `struct fs_node`.  `children` is the array of `MAX_CHILDREN` node pointers, of which
the first `child_count` are listed; `data` holds the bytes of the content buffer it points to. -/
structure fs_node where
  name : List Char
  is_dir : Int
  parent : Option Nat
  children : Nat → Option Nat
  child_count : Nat
  data : Option (List Char)
  size : Nat

/-- Source `MAX_CHILDREN`. -/
def MAX_CHILDREN : Nat := 32

/-- Source `MAX_NAME_LEN`. -/
def MAX_NAME_LEN : Nat := 32

/-- Source `MAX_CMD_LEN`. -/
def MAX_CMD_LEN : Nat := 128

/-- The value of `sizeof(fs_node)` on the i386 target: 32 + 4 + 4 + 32 * 4 + 4 + 4 + 4. -/
def sizeof_fs_node : Nat := 180

/-- The value of `sizeof(fs_edit_buffer)`. -/
def sizeof_fs_edit_buffer : Nat := 1024

/-- The size of the arena `heap` in bytes. -/
def sizeof_heap : Nat := 64 * 1024

/-- The region of `size` bytes at offset `start` of the arena does not lie inside `heap`:
writing all of it leaves the array. -/
def past_heap (start size : Nat) : Bool := decide (sizeof_heap < start + size)

/-- A node after `memset(n, 0, sizeof(fs_node))`. -/
def fs_node_zero : fs_node :=
  { name := List.replicate MAX_NAME_LEN NUL, is_dir := 0, parent := none,
    children := fun _ => none, child_count := 0, data := none, size := 0 }

/-- The globals of the program, and the ghost flag `overrun`: a write has left the array
`heap` (the arena has no bounds check).  The program does not define what such a write hits,
so once the flag is set the other fields no longer describe the machine; they are carried on
as if the arena had no end. -/
structure State where
  vga : Vga
  input_buffer : Nat → Char
  input_pos : Nat
  heap_pos : Nat
  nodes : Nat → fs_node
  fs_edit_mode : Int
  fs_edit_file : Option Nat
  fs_edit_buffer : Nat → Char
  fs_edit_pos : Nat
  fs_root : Option Nat
  fs_cwd : Option Nat
  overrun : Bool

/-- The node a pointer refers to (`*p`). -/
def deref (s : State) (p : Option Nat) : fs_node :=
  match p with
  | some a => s.nodes a
  | none => fs_node_zero

/-- Assignment through a node pointer (`*p = nd`). -/
def store (s : State) (p : Option Nat) (nd : fs_node) : State :=
  match p with
  | some a => { s with nodes := Function.update s.nodes a nd }
  | none => s

/-- Source `kmalloc`: the offset of the region handed out, and the state after. -/
def kmalloc (s : State) (size : Nat) : Nat × State :=
  (s.heap_pos, { s with heap_pos := (s.heap_pos + size) % 4294967296 })

/-- Source `fs_create_node`: the offset of the new node, and the state after.  `memset` writes
the `sizeof(fs_node)` bytes at `n`; when they do not all lie inside `heap` the write leaves
the array and `overrun` is set. -/
def fs_create_node (s : State) (name : List Char) (is_dir : Int) : Nat × State :=
  let n := (kmalloc s sizeof_fs_node).1
  let s1 := (kmalloc s sizeof_fs_node).2
  let s2 := store { s1 with overrun := s1.overrun || past_heap n sizeof_fs_node } (some n)
    fs_node_zero
  let s3 := store s2 (some n)
    { deref s2 (some n) with name := strncpy (deref s2 (some n)).name name (MAX_NAME_LEN - 1) }
  let s4 := store s3 (some n) { deref s3 (some n) with is_dir := is_dir }
  (n, s4)

/-- Source `fs_init`. -/
def fs_init (s : State) : State :=
  let r := (fs_create_node s "~".toList 1).1
  let s1 := (fs_create_node s "~".toList 1).2
  let s2 := { s1 with fs_root := some r }
  let s3 := store s2 s2.fs_root { deref s2 s2.fs_root with parent := s2.fs_root }
  { s3 with fs_cwd := s3.fs_root }

/-- Source `fs_mkdir`. -/
def fs_mkdir (s : State) (name : List Char) : State :=
  if (deref s s.fs_cwd).child_count ≥ MAX_CHILDREN then
    { s with vga := vga_write s.vga "dir full\n".toList }
  else
    let d := (fs_create_node s name 1).1
    let s1 := (fs_create_node s name 1).2
    let s2 := store s1 (some d) { deref s1 (some d) with parent := s1.fs_cwd }
    let cwd := deref s2 s2.fs_cwd
    store s2 s2.fs_cwd
      { cwd with
        children := Function.update cwd.children cwd.child_count (some d)
        child_count := cwd.child_count + 1 }

/-- Source `fs_ls`. -/
def fs_ls (s : State) : State :=
  (List.range (deref s s.fs_cwd).child_count).foldl (fun st i =>
    let n := deref st ((deref st st.fs_cwd).children i)
    let v1 := vga_write st.vga
      (if n.is_dir ≠ 0 then "\n[FOLDERs] -> ".toList else "\n[FILES] -> ".toList)
    let v2 := vga_write v1 n.name
    { st with vga := vga_write v2 "\n".toList }) s

/-- The index of the first listed child of `dir` that satisfies `p`: the search loop shared by
`fs_cd`, `fs_delfile`, `fs_edfile_start` and `fs_rdfile`. -/
def find_child (s : State) (dir : Option Nat) (p : fs_node → Bool) : Option Nat :=
  (List.range (deref s dir).child_count).find? (fun i => p (deref s ((deref s dir).children i)))

/-- The test `n->is_dir && strcmp(n->name, name) == 0` of `fs_cd`. -/
def is_dir_named (name : List Char) (n : fs_node) : Bool :=
  decide (n.is_dir ≠ 0) && decide (strcmp n.name name = 0)

/-- The test `!n->is_dir && strcmp(n->name, name) == 0` of the file operations. -/
def is_file_named (name : List Char) (n : fs_node) : Bool :=
  decide (n.is_dir = 0) && decide (strcmp n.name name = 0)

/-- The name-reading loop of `fs_cd`: the bytes copied into `name` from index `i` on, and the
path that remains. -/
def fs_cd_name : List Char → Nat → List Char × List Char
  | [], _ => ([], [])
  | c :: path, i =>
    if c ≠ NUL ∧ c ≠ '/' ∧ i < MAX_NAME_LEN - 1 then
      ((c :: (fs_cd_name path (i + 1)).1), (fs_cd_name path (i + 1)).2)
    else ([], c :: path)

/-- How the segment loop of `fs_cd` ends: with the node reached, with an unresolved name, or
with the fuel of the embedding used up. -/
inductive Walk where
  | reached (cur : Option Nat)
  | missing
  | fuel_out
  deriving DecidableEq

/-- The statement `if (*path == '/') path++;`. -/
def skip_slash (path : List Char) : List Char :=
  if charAt path 0 = '/' then path.drop 1 else path

/-- The `while (*path)` loop of `fs_cd`; every iteration consumes at least one byte of `path`,
so fuel `path.length + 1` is enough. -/
def fs_cd_walk (s : State) : Nat → Option Nat → List Char → Walk
  | 0, _, _ => Walk.fuel_out
  | fuel + 1, cur, path =>
    if charAt path 0 = NUL then Walk.reached cur
    else if strncmp path "..".toList 2 = 0 then
      fs_cd_walk s fuel (deref s cur).parent (skip_slash (path.drop 2))
    else
      match find_child s cur (is_dir_named (fs_cd_name path 0).1) with
      | some j => fs_cd_walk s fuel ((deref s cur).children j) (skip_slash (fs_cd_name path 0).2)
      | none => Walk.missing

/-- Source `fs_cd`. -/
def fs_cd (s : State) (path : List Char) : State :=
  let cur := if strncmp path "~".toList 1 = 0 then s.fs_root else s.fs_cwd
  let path1 := if strncmp path "~".toList 1 = 0 then skip_slash (path.drop 1) else path
  match fs_cd_walk s (path1.length + 1) cur path1 with
  | Walk.reached c => { s with fs_cwd := c }
  | Walk.missing => { s with vga := vga_write s.vga "folder/dir doesnt exist\n".toList }
  | Walk.fuel_out => s

/-- Source `fs_dir_from`. -/
def fs_dir_from (s : State) (dir : Option Nat) : State :=
  (List.range (deref s dir).child_count).foldl (fun st i =>
    let n := deref st ((deref st dir).children i)
    if n.is_dir ≠ 0 then
      { st with vga := vga_write (vga_write st.vga n.name) "\n".toList }
    else st) s

/-- Source `fs_mkfile`. -/
def fs_mkfile (s : State) (name : List Char) : State :=
  if (deref s s.fs_cwd).child_count ≥ MAX_CHILDREN then
    { s with vga := vga_write s.vga "folder is full\n".toList }
  else
    let f := (fs_create_node s name 0).1
    let s1 := (fs_create_node s name 0).2
    let s2 := store s1 (some f) { deref s1 (some f) with parent := s1.fs_cwd }
    let cwd := deref s2 s2.fs_cwd
    let s3 := store s2 s2.fs_cwd
      { cwd with
        children := Function.update cwd.children cwd.child_count (some f)
        child_count := cwd.child_count + 1 }
    { s3 with
      vga := vga_write (vga_write (vga_write s3.vga "\nmade file: ".toList) name) "\n".toList }

/-- The loop of `fs_delfile` that shifts the children after index `i` one place to the left. -/
def shift_children (children : Nat → Option Nat) (i child_count : Nat) : Nat → Option Nat :=
  (List.range' i (child_count - 1 - i)).foldl (fun c j => Function.update c j (c (j + 1))) children

/-- Source `fs_delfile`. -/
def fs_delfile (s : State) (name : List Char) : State :=
  match find_child s s.fs_cwd (is_file_named name) with
  | some i =>
    let cwd := deref s s.fs_cwd
    let s1 := store s s.fs_cwd { cwd with children := shift_children cwd.children i cwd.child_count }
    let s2 := store s1 s1.fs_cwd
      { deref s1 s1.fs_cwd with child_count := (deref s1 s1.fs_cwd).child_count - 1 }
    { s2 with
      vga := vga_write (vga_write (vga_write s2.vga "\nmade file: ".toList) name) "\n".toList }
  | none => { s with vga := vga_write s.vga "file was not found\n".toList }

/-- Source `fs_edfile_start`. -/
def fs_edfile_start (s : State) (name : List Char) : State :=
  match find_child s s.fs_cwd (is_file_named name) with
  | some i =>
    let f := (deref s s.fs_cwd).children i
    let s1 := { s with fs_edit_mode := 1, fs_edit_file := f, fs_edit_pos := 0 }
    let s2 := { s1 with
      vga := vga_write (vga_write s1.vga "\n-- editing --\n".toList) "TAB = save & leave\n".toList }
    { s2 with fs_edit_mode := 1, fs_edit_file := f, fs_edit_pos := 0 }
  | none => { s with vga := vga_write s.vga "file was not found.\n".toList }

/-- Source `fs_rdfile`. -/
def fs_rdfile (s : State) (name : List Char) : State :=
  match find_child s s.fs_cwd (is_file_named name) with
  | some i =>
    let f := deref s ((deref s s.fs_cwd).children i)
    let v1 := match f.data with
      | some bytes => vga_write s.vga bytes
      | none => s.vga
    { s with vga := vga_write v1 "\n".toList }
  | none => { s with vga := vga_write s.vga "file was not found.\n".toList }

/-! ## The calculator -/

/-- The digit loop of `calc_command` (`while (r > 0)`), filling the buffer from the right; a
32-bit value has at most ten digits, so fuel 10 is enough. -/
def calc_digits : Nat → Int → List Char → List Char
  | 0, _, acc => acc
  | fuel + 1, r, acc =>
    if r > 0 then calc_digits fuel (r / 10) (Char.ofNat (48 + (r % 10).toNat) :: acc) else acc

/-- The text `&buf[i + 1]` that `calc_command` builds for `result`. -/
def calc_render (result : Int) : List Char :=
  let zero : List Char := if result = 0 then ['0'] else []
  let r : Int := if result < 0 then wrap32 (-result) else result
  let digits := calc_digits 10 r zero
  if result < 0 then '-' :: digits else digits

/-- Source `calc_command`. -/
def calc_command (v : Vga) (cmd : List Char) : Vga :=
  let cmd1 := cmd.drop 5
  let a := atoi cmd1
  let cmd2 := cmd1.dropWhile isDigit
  let cmd3 := cmd2.dropWhile (fun c => c == ' ')
  let op := charAt cmd3 0
  let cmd4 := (cmd3.drop 1).dropWhile (fun c => c == ' ')
  let b := atoi cmd4
  if op = '+' then
    vga_write (vga_write (vga_write v "= ".toList) (calc_render (wrap32 (a + b)))) "\n".toList
  else if op = '-' then
    vga_write (vga_write (vga_write v "= ".toList) (calc_render (wrap32 (a - b)))) "\n".toList
  else if op = '*' then
    vga_write (vga_write (vga_write v "= ".toList) (calc_render (wrap32 (a * b)))) "\n".toList
  else if op = '/' then
    if b = 0 then vga_write v "division by zero\n".toList
    else
      vga_write (vga_write (vga_write v "= ".toList) (calc_render (wrap32 (Int.tdiv a b))))
        "\n".toList
  else vga_write v "invalid operator\n".toList

/-! ## The command dispatcher -/

/-- How a call leaves: it returns to its caller, it hangs in the idle loop of `halt`, or it
passes control to `_start` (`reboot`), which never returns. -/
inductive Control where
  | returns
  | halts
  | restarts
  deriving DecidableEq

/-- The text written by the `help` command before the first key wait. -/
def help_text_1 : List (List Char) :=
  ["\nexisting commands:\n".toList,
   "help - list of all commands\ncalc <a> <operator> <b> - very easy and dumb calculator\n".toList,
   "clear - clear screen\n".toList,
   "about - about ibant-os\n".toList,
   "version - show version\n".toList,
   "halt - stop/halt CPU\n".toList,
   "reboot - go back to _start();\nclick any key to continue...\n".toList]

/-- The text written by the `help` command between the first and the second key wait. -/
def help_text_2 : List (List Char) :=
  ["bgcolor <0-15> - change background color\n".toList,
   "fgcolor <0-15> - change foreground color\n".toList,
   "echo <text> - echo your text!\n".toList,
   "mkdir <dirname> - make new folder/directory\n".toList]

/-- The text written by the `help` command between the second and the third key wait. -/
def help_text_3 : List Char :=
  ("mkfile <filename> - make new file\nedfile <filename> - edit your files contents\n" ++
   "rdfile <filename> - read file contents\ndelfile <filename> - delete file\n" ++
   "dir - show all continuing directories in your current directory\n" ++
   "dir ~ - show all directories\ncd <directroy> - change directory\nls - list everything").toList

/-- Source `handle_command`.  The three `get_char()` waits of `help` block for a key of the
external keyboard and discard it; they leave the modelled state as it is. -/
def handle_command (s : State) (cmd : List Char) : State × Control :=
  if strncmp cmd "help".toList 5 = 0 then
    let v1 := help_text_1.foldl vga_write s.vga
    let v2 := help_text_2.foldl vga_write v1
    ({ s with vga := vga_write v2 help_text_3 }, Control.returns)
  else if strncmp cmd "\n".toList 1 = 0 then
    ({ s with vga := vga_write s.vga [] }, Control.returns)
  else if strncmp cmd "vgatest".toList 8 = 0 then
    ({ s with vga := testascii s.vga }, Control.returns)
  else if strncmp cmd "edfile ".toList 7 = 0 then
    let s1 := { s with vga := vga_set_color s.vga 1 7 }
    let s2 := fs_edfile_start s1 (cmd.drop 7)
    ({ s2 with vga := vga_set_color s2.vga 0 7 }, Control.returns)
  else if strncmp cmd "cd ".toList 3 = 0 then
    let s1 := { s with vga := vga_set_color s.vga 14 7 }
    let s2 := fs_cd s1 (cmd.drop 3)
    ({ s2 with vga := vga_set_color s2.vga 1 7 }, Control.returns)
  else if strncmp cmd "ls".toList 2 = 0 then
    let s1 := { s with vga := vga_set_color s.vga 14 7 }
    let s2 := fs_ls s1
    ({ s2 with vga := vga_set_color s2.vga 1 7 }, Control.returns)
  else if strncmp cmd "mkfile ".toList 7 = 0 then
    let s1 := { s with vga := vga_set_color s.vga 14 7 }
    let s2 := fs_mkfile s1 (cmd.drop 7)
    let v1 := vga_write (vga_write s2.vga "\nMade new file: ".toList) (cmd.drop 7)
    let v2 := vga_write (vga_write v1 " in dir: ".toList) (deref s2 s2.fs_cwd).name
    ({ s2 with vga := vga_set_color (vga_write v2 "\n".toList) 1 7 }, Control.returns)
  else if strncmp cmd "mkdir ".toList 6 = 0 then
    let s1 := { s with vga := vga_set_color s.vga 14 7 }
    let s2 := fs_mkdir s1 (cmd.drop 6)
    let v1 := vga_write (vga_write s2.vga "\nMade new directory: ".toList) (cmd.drop 6)
    let v2 := vga_write (vga_write v1 " in dir: ".toList) (deref s2 s2.fs_cwd).name
    ({ s2 with vga := vga_set_color (vga_write v2 "\n".toList) 1 7 }, Control.returns)
  else if strncmp cmd "rdfile ".toList 7 = 0 then
    let s1 := { s with vga := vga_set_color s.vga 14 7 }
    let s2 := fs_rdfile s1 (cmd.drop 7)
    ({ s2 with vga := vga_set_color s2.vga 1 7 }, Control.returns)
  else if strncmp cmd "dir ~".toList 5 = 0 then
    let s1 := { s with vga := vga_set_color s.vga 14 7 }
    let s2 := fs_dir_from s1 s1.fs_root
    ({ s2 with vga := vga_set_color s2.vga 1 7 }, Control.returns)
  else if strncmp cmd "dir".toList 3 = 0 then
    (fs_dir_from s s.fs_cwd, Control.returns)
  else if strncmp cmd "delfile ".toList 8 = 0 then
    (fs_delfile s (cmd.drop 8), Control.returns)
  else if strncmp cmd "clear".toList 6 = 0 then
    ({ s with vga := vga_clear s.vga }, Control.returns)
  else if strncmp cmd "calc ".toList 5 = 0 then
    ({ s with vga := vga_set_color (calc_command (vga_set_color s.vga 10 0) cmd) 1 0 },
      Control.returns)
  else if strncmp cmd "about".toList 6 = 0 then
    let v1 := vga_write (vga_set_color s.vga 4 7) "\niBANT-OS: x86 aka: (i386) OS.\n".toList
    let v2 := vga_write (vga_write v1 "Made by Julian Dziubak.\n".toList) "Made in C\n".toList
    ({ s with vga := vga_set_color v2 1 0 }, Control.returns)
  else if strncmp cmd "version".toList 8 = 0 then
    ({ s with vga := vga_write s.vga "\niBANT-OS Version 1.6 ENGLISH\n".toList }, Control.returns)
  else if strncmp cmd "halt".toList 5 = 0 then
    (s, Control.halts)
  else if strncmp cmd "reboot".toList 7 = 0 then
    (s, Control.restarts)
  else if strncmp cmd "bgcolor".toList 8 = 0 then
    let bg := atoi (cmd.drop 9)
    if bg ≥ 0 ∧ bg ≤ 15 then
      ({ s with vga := vga_set_color s.vga (u8 (s.vga.vga_color % 16)) (u8 bg) }, Control.returns)
    else ({ s with vga := vga_write s.vga "\nInvalid color. Use 0-15.\n".toList }, Control.returns)
  else if strncmp cmd "fgcolor".toList 8 = 0 then
    let fg := atoi (cmd.drop 9)
    if fg ≥ 0 ∧ fg ≤ 15 then
      ({ s with vga := vga_set_color s.vga (u8 fg) (u8 (s.vga.vga_color / 16)) }, Control.returns)
    else ({ s with vga := vga_write s.vga "\nInvalid color. Use 0-15.\n".toList }, Control.returns)
  else if strncmp cmd "echo".toList 5 = 0 then
    let v1 := vga_write (vga_write s.vga "\n".toList) (cmd.drop 6)
    ({ s with vga := vga_write v1 "\n".toList }, Control.returns)
  else
    ({ s with vga := vga_write s.vga "\nUnknown command. Type help for commands.\n".toList },
      Control.returns)

/-! ## The line editor -/

/-- The bytes of a `char` array of `size` elements, as seen through a pointer to its start. -/
def array_bytes (buf : Nat → Char) (size : Nat) : List Char := (List.range size).map buf

/-- Source `read_input_char`.  On commit `memcpy` writes `fs_edit_pos + 1` bytes to the region
`kmalloc` returned; the node keeps them as the bytes of its content buffer, and when the
region does not lie inside `heap` the write leaves the array and `overrun` is set. -/
def read_input_char (s : State) (c : Char) : State × Control :=
  if s.fs_edit_mode ≠ 0 then
    if c = '\t' then
      let s1 := { s with fs_edit_buffer := Function.update s.fs_edit_buffer s.fs_edit_pos NUL }
      let p := (kmalloc s1 (s1.fs_edit_pos + 1)).1
      let s2 := { (kmalloc s1 (s1.fs_edit_pos + 1)).2 with
        overrun := s1.overrun || past_heap p (s1.fs_edit_pos + 1) }
      let s3 := store s2 s2.fs_edit_file
        { deref s2 s2.fs_edit_file with
          data := some (array_bytes s2.fs_edit_buffer (s2.fs_edit_pos + 1)) }
      let s4 := store s3 s3.fs_edit_file { deref s3 s3.fs_edit_file with size := s3.fs_edit_pos }
      let s5 := { s4 with fs_edit_mode := 0, fs_edit_file := none }
      ({ s5 with vga := vga_write (vga_write s5.vga "\n-- SAVED --\n".toList) "[ibant]> ".toList },
        Control.returns)
    else if c = '\x08' then
      if s.fs_edit_pos > 0 then
        let v1 := { s.vga with cursor_x := s.vga.cursor_x - 1 }
        let v2 := { v1 with
          vga_buffer := Function.update v1.vga_buffer (v1.cursor_y * 80 + v1.cursor_x)
            (vga_entry ' ' (u8 v1.vga_color)) }
        ({ s with fs_edit_pos := s.fs_edit_pos - 1, vga := v2 }, Control.returns)
      else (s, Control.returns)
    else if s.fs_edit_pos < sizeof_fs_edit_buffer - 1 then
      ({ s with
          fs_edit_buffer := Function.update s.fs_edit_buffer s.fs_edit_pos c
          fs_edit_pos := s.fs_edit_pos + 1
          vga := vga_putc s.vga c }, Control.returns)
    else (s, Control.returns)
  else if c = '\n' then
    let s1 := { s with input_buffer := Function.update s.input_buffer s.input_pos NUL }
    match handle_command s1 (array_bytes s1.input_buffer MAX_CMD_LEN) with
    | (s2, Control.returns) =>
      ({ s2 with input_pos := 0, vga := vga_write s2.vga "\n".toList }, Control.returns)
    | (s2, ctl) => (s2, ctl)
  else if c = '\x08' then
    if s.input_pos > 0 then
      let v1 := { s.vga with cursor_x := s.vga.cursor_x - 1 }
      let v2 := vga_putc v1 ' '
      ({ s with input_pos := s.input_pos - 1, vga := { v2 with cursor_x := v2.cursor_x - 1 } },
        Control.returns)
    else (s, Control.returns)
  else if s.input_pos < MAX_CMD_LEN - 1 then
    ({ s with
        input_buffer := Function.update s.input_buffer s.input_pos c
        input_pos := s.input_pos + 1
        vga := vga_putc s.vga c }, Control.returns)
  else (s, Control.returns)

/-- The globals as the program image initialises them: zeroed, except `vga_color = 0x0E`.  The
cells of the display memory are taken as zero. -/
def boot : State :=
  { vga := { cursor_x := 0, cursor_y := 0, sp8lf_mode := 0, vga_color := 14,
             vga_buffer := fun _ => 0, out := [] }
    input_buffer := fun _ => NUL
    input_pos := 0
    heap_pos := 0
    nodes := fun _ => fs_node_zero
    fs_edit_mode := 0
    fs_edit_file := none
    fs_edit_buffer := fun _ => NUL
    fs_edit_pos := 0
    fs_root := none
    fs_cwd := none
    overrun := false }

/-! ## Startup and the main loop -/

/-- Source `grublmao`. -/
def grublmao (v : Vga) : Vga :=
  vga_write v "RUNNING WITH GRUB!!!\n now, returning to _start...\n".toList

/-- One row of the boot logo: `|| ` in yellow on red, then the rest of the row in white on
red. -/
def logo_row (v : Vga) (row : List Char) : Vga :=
  vga_write (vga_set_color (vga_write (vga_set_color v 14 4) "|| ".toList) 7 4) row

/-- Source `bootimage`. -/
def bootimage (v : Vga) : Vga :=
  let v1 := vga_clear (vga_set_color (vga_clear v) 0 0)
  let v2 := (List.replicate 5 "\n".toList).foldl vga_write v1
  let v3 := vga_write (vga_write v2 "                 \n".toList) "                 \n".toList
  let v4 := vga_write (vga_write (vga_set_color v3 4 4) "                 \n".toList)
    "                 ".toList
  let v5 := logo_row v4 "|||||||        \n".toList
  let v6 := logo_row v5 "||    ||       \n".toList
  let v7 := logo_row v6 "|||||||        \n".toList
  let v8 := logo_row v7 "||     ||       \n".toList
  let v9 := logo_row v8 "||     ||       \n".toList
  let v10 := logo_row v9 "||||||||||      \n\n\n".toList
  let v11 := vga_write (vga_set_color v10 0 7)
    "(c) iBANT-DEV - Julian Dziubak\n2025-2026\n\nBooting..".toList
  vga_set_color v11 7 0

/-- The statements of source `_start` before its loop: the boot screens (the `delay_ms` waits
leave the modelled state as it is), `fs_init`, the banner and the first prompt. -/
def start_prologue (s : State) : State :=
  let v1 := vga_clear (vga_clear (bootimage (vga_clear (grublmao s.vga))))
  let s1 := fs_init { s with vga := v1 }
  let v2 := vga_write (vga_set_color s1.vga 7 1) "iBANT-OS 1.6 beta ENGLISH\n".toList
  let v3 := vga_write v2
    ("this is a unfished version of iBANT-OS so there may be errors. " ++
     "if you do find them, contact the creator (aka: me)").toList
  let v4 := vga_write (vga_set_color v3 14 4)
    "warning, if youre running this os please force PS/2 console!\n".toList
  let v5 := vga_write v4 "= = = welcome to iBANT-OS! = = =\n".toList
  let v6 := vga_write (vga_set_color v5 1 0) "write \x27help\x27 for help!\n\n".toList
  { s1 with vga := vga_write v6 "[ibant]> ".toList }

/-- The loop of source `_start`, run on the characters `get_char` returns one after the other:
each is passed to `read_input_char` and a prompt follows a newline.  The loop is left only by
`halt`; on `reboot` the nested call of `_start` runs its prologue and takes over the input. -/
def start_loop : State → List Char → State
  | s, [] => s
  | s, c :: cs =>
    match read_input_char s c with
    | (s1, Control.returns) =>
      start_loop (if c = '\n' then { s1 with vga := vga_write s1.vga "[ibant]> ".toList } else s1) cs
    | (s1, Control.halts) => s1
    | (s1, Control.restarts) => start_loop (start_prologue s1) cs

/-! ## Definitions used to state the properties -/

/-- The listed children of the current directory: the first `child_count` entries of its
`children` array. -/
def listed (s : State) : List (Option Nat) :=
  (List.range (deref s s.fs_cwd).child_count).map (deref s s.fs_cwd).children

/-- A store whose root directory holds 32 sub-directories, built by `fs_mkdir`. -/
def full_store : State :=
  (List.range 32).foldl (fun s _ => fs_mkdir s "d".toList) (fs_init boot)

/-- The node `fs_create_node name is_dir` leaves in the arena, before it is attached. -/
def created (name : List Char) (is_dir : Int) : fs_node :=
  { fs_node_zero with name := strncpy fs_node_zero.name name (MAX_NAME_LEN - 1), is_dir := is_dir }

/-- A directory node after the pointer `d` is appended to its children. -/
def with_child (dir : fs_node) (d : Nat) : fs_node :=
  { dir with
    children := Function.update dir.children dir.child_count (some d)
    child_count := dir.child_count + 1 }

/-- The text `fs_ls` writes for one node: the type tag, the stored name, a newline. -/
def ls_line (n : fs_node) : List Char :=
  (if n.is_dir ≠ 0 then "\n[FOLDERs] -> ".toList else "\n[FILES] -> ".toList) ++
    (cstr n.name ++ "\n".toList)

/-- The text `fs_ls` writes for a sequence of node pointers. -/
def ls_text (s : State) : List (Option Nat) → List Char
  | [] => []
  | p :: ps => ls_line (deref s p) ++ ls_text s ps

/-- A creation command: `mkdir name` or `mkfile name`. -/
inductive Create where
  | mkdir (name : List Char)
  | mkfile (name : List Char)

/-- Running a creation command. -/
def Create.run (s : State) : Create → State
  | Create.mkdir name => fs_mkdir s name
  | Create.mkfile name => fs_mkfile s name

/-- The listing entry expected for a creation command when `shown` is the name displayed. -/
def Create.entry (shown : List Char → List Char) : Create → List Char
  | Create.mkdir name => "\n[FOLDERs] -> ".toList ++ (shown name ++ "\n".toList)
  | Create.mkfile name => "\n[FILES] -> ".toList ++ (shown name ++ "\n".toList)

/-- The listing expected after a sequence of creation commands, in creation order. -/
def listing (shown : List Char → List Char) : List Create → List Char
  | [] => []
  | c :: cs => c.entry shown ++ listing shown cs

/-- A name of 32 characters, one more than a node stores. -/
def long_name : List Char := List.replicate 32 'a'

/-- The kind flag `fs_create_node` receives for a creation command. -/
def Create.kind : Create → Int
  | Create.mkdir _ => 1
  | Create.mkfile _ => 0

/-- The name given to a creation command. -/
def Create.name : Create → List Char
  | Create.mkdir name => name
  | Create.mkfile name => name

/-- The name a node stores for a given name: its first 31 characters. -/
def stored_name (name : List Char) : List Char := (cstr name).take 31

/-- The store after `k` creations in the directory at offset `h0`, with listing text `txt`: the
current directory is `h0`, the arena offset has advanced by `k + 1` nodes, and the `k` listed
children are nodes placed after `h0`. -/
def Filled (h0 : Nat) (s : State) (k : Nat) (txt : List Char) : Prop :=
  s.fs_cwd = some h0 ∧ s.heap_pos = h0 + sizeof_fs_node * (k + 1) ∧
  (s.nodes h0).child_count = k ∧
  (∀ i, i < k → ∃ a, (s.nodes h0).children i = some a ∧ a ≠ h0 ∧ a < s.heap_pos) ∧
  ls_text s (listed s) = txt

/-- The node the `i`-th entry of the children array of the current directory points to. -/
def child (s : State) (i : Nat) : fs_node := deref s ((deref s s.fs_cwd).children i)

/-- The `i`-th listed child of the current directory is a file whose stored name is `name`. -/
def file_at (s : State) (name : List Char) (i : Nat) : Prop :=
  i < (deref s s.fs_cwd).child_count ∧ (child s i).is_dir = 0 ∧ cstr (child s i).name = cstr name

/-- The `i`-th listed child is the first file of the current directory named `name`. -/
def first_file_at (s : State) (name : List Char) (i : Nat) : Prop :=
  file_at s name i ∧ ∀ j, j < i → ¬ file_at s name j

/-- The `i`-th listed child of the directory `dir` is a directory whose stored name is
`name`. -/
def dir_at (s : State) (dir : Option Nat) (name : List Char) (i : Nat) : Prop :=
  i < (deref s dir).child_count ∧ (deref s ((deref s dir).children i)).is_dir ≠ 0 ∧
    cstr (deref s ((deref s dir).children i)).name = cstr name

/-- The content `fs_rdfile` shows for a node: the string in its content buffer, nothing when
the node has no buffer. -/
def content (n : fs_node) : List Char :=
  match n.data with
  | some bytes => cstr bytes
  | none => []

instance (s : State) (name : List Char) (i : Nat) : Decidable (file_at s name i) := by
  unfold file_at
  infer_instance

instance (s : State) (dir : Option Nat) (name : List Char) (i : Nat) :
    Decidable (dir_at s dir name i) := by
  unfold dir_at
  infer_instance

/-- A store whose root lists the directory `d` and then the file `f`. -/
def sample_store : State := fs_mkfile (fs_mkdir (fs_init boot) "d".toList) "f".toList

/-- A store whose root lists two files, both named `a`. -/
def twin_store : State := fs_mkfile (fs_mkfile (fs_init boot) "a".toList) "a".toList

/-- A store whose root lists only the directory `d`. -/
def dir_store : State := fs_mkdir (fs_init boot) "d".toList

instance (s : State) (name : List Char) (i : Nat) : Decidable (first_file_at s name i) := by
  unfold first_file_at
  infer_instance

/-- A store whose root lists two files named `a`: the first was edited to hold `x`, the second
was created afterwards and never edited. -/
def edited_twin_store : State :=
  let s1 := fs_mkfile (fs_init boot) "a".toList
  let s2 := (handle_command s1 "edfile a".toList).1
  let s3 := (read_input_char s2 'x').1
  let s4 := (read_input_char s3 '\t').1
  fs_mkfile s4 "a".toList

/-- Feeding input characters one by one to `read_input_char`; `none` when a call does not
return (the commands `halt` and `reboot`). -/
def feed : State → List Char → Option State
  | s, [] => some s
  | s, c :: cs =>
    match read_input_char s c with
    | (s1, Control.returns) => feed s1 cs
    | _ => none

/-- A path prefix made of whole segments: empty, or ending in the separator. -/
def slash_ended (p : List Char) : Prop := p = [] ∨ p.getLast? = some '/'

/-- Continuing a walk: the second part of a path is walked from the node the first part
reached. -/
def Walk.andThen (w : Walk) (k : Option Nat → Walk) : Walk :=
  match w with
  | Walk.reached d => k d
  | Walk.missing => Walk.missing
  | Walk.fuel_out => Walk.fuel_out

/-- The node `fs_cd` starts from: the root for a path that begins with `~`, else the current
directory. -/
def cd_start (s : State) (path : List Char) : Option Nat :=
  if strncmp path "~".toList 1 = 0 then s.fs_root else s.fs_cwd

/-- The part of the path `fs_cd` walks: what follows the `~` anchor and one separator, or the
whole path. -/
def cd_body (path : List Char) : List Char :=
  if strncmp path "~".toList 1 = 0 then skip_slash (path.drop 1) else path

/-- A store whose root holds a directory with a name of 31 characters, which holds a directory
with a name of 9 characters; the current directory is the root. -/
def deep_store : State :=
  let s1 := fs_mkdir (fs_init boot) (List.replicate 31 'a')
  let s2 := fs_cd s1 (List.replicate 31 'a')
  let s3 := fs_mkdir s2 (List.replicate 9 'a')
  fs_cd s3 "~".toList

/-- A navigation command: `cd name` or `cd ..`. -/
inductive Nav where
  | down (name : List Char)
  | up
  deriving DecidableEq

/-- Running a navigation command. -/
def Nav.run (s : State) : Nav → State
  | Nav.down name => fs_cd s name
  | Nav.up => fs_cd s "..".toList

/-- The number of `cd ..` commands in a sequence. -/
def ups : List Nav → Nat
  | [] => 0
  | Nav.up :: l => ups l + 1
  | Nav.down _ :: l => ups l

/-- The number of `cd name` commands in a sequence. -/
def downs : List Nav → Nat
  | [] => 0
  | Nav.up :: l => downs l
  | Nav.down _ :: l => downs l + 1

/-- The parent pointer of the node a pointer refers to. -/
def parent_of (s : State) (p : Option Nat) : Option Nat := (deref s p).parent

/-- The `n`-th ancestor of a node: `n` steps along the parent pointers. -/
def ancestor (s : State) : Nat → Option Nat → Option Nat
  | 0, p => p
  | n + 1, p => ancestor s n (parent_of s p)

/-- The parent pointers agree with the children arrays: the root is its own parent, and every
listed child of a node has that node as its parent. -/
def Linked (s : State) : Prop :=
  parent_of s s.fs_root = s.fs_root ∧
  ∀ d j, j < (deref s d).child_count → parent_of s ((deref s d).children j) = d

/-- A store with the directories `x/y` and `x` in the root and `y` in `x`; the current
directory is the root. -/
def slash_store : State :=
  let s1 := fs_mkdir (fs_init boot) "x/y".toList
  let s2 := fs_mkdir s1 "x".toList
  let s3 := fs_cd s2 "x".toList
  let s4 := fs_mkdir s3 "y".toList
  fs_cd s4 "~".toList

/-- A non-negative integer written in decimal. -/
def dec (n : Nat) : List Char := Nat.toDigits 10 n

/-- An integer written in decimal, with a leading `-` when negative. -/
def render_int (r : Int) : List Char :=
  if r < 0 then '-' :: dec (-r).toNat else dec r.toNat

/-- The command line `calc a op b`. -/
def calc_line (a : Nat) (op : Char) (b : Nat) : List Char :=
  "calc ".toList ++ (dec a ++ ' ' :: op :: ' ' :: dec b)

/-- The exact integer result of `a op b`, division truncating. -/
def exact_result (a : Nat) (op : Char) (b : Nat) : Int :=
  if op = '+' then (a : Int) + b
  else if op = '-' then (a : Int) - b
  else if op = '*' then (a : Int) * b
  else ((a / b : Nat) : Int)

/-- The verbs of the command grammar. -/
def verbs : List (List Char) :=
  ["help".toList, "clear".toList, "about".toList, "version".toList, "halt".toList,
   "reboot".toList, "vgatest".toList, "echo".toList, "bgcolor".toList, "fgcolor".toList,
   "mkdir".toList, "mkfile".toList, "delfile".toList, "edfile".toList, "rdfile".toList,
   "cd".toList, "ls".toList, "dir".toList, "calc".toList]

/-- The command line `read_input_char` hands to `handle_command` on newline: the command
buffer, terminated at `input_pos`, seen through the pointer to its start. -/
def command_line (s : State) : List Char :=
  array_bytes (Function.update s.input_buffer s.input_pos NUL) MAX_CMD_LEN

/-- The sample store in file-edit mode on `f` for the second time: `f` was edited with the
text `ab` and committed, `edfile f` was dispatched again and `c` typed. -/
def reedit_store : State :=
  "edfile f\nab\tedfile f\nc".toList.foldl (fun s c => (read_input_char s c).1) sample_store

/-- The sample store with the arena offset one byte before the end of the arena. -/
def nearly_full_store : State := { sample_store with heap_pos := 65535 }

/-- The sample store with the arena offset at 65520 = 364 * 180: sixteen bytes are left, too
few for a node. -/
def no_room_store : State := { sample_store with heap_pos := 65520 }

/-- The second edit of `f` in the sample store, with the arena offset one byte before the end
of the arena. -/
def nearly_full_edit : State := { reedit_store with heap_pos := 65535 }

/-- The fresh store with the arena offset put back on the root: the current directory is not
a node below the offset. -/
def unallocated_cwd_store : State := { fs_init boot with heap_pos := 0 }

/-- The store after `n` rounds of `fs_mkdir("a")`, `fs_cd("a")` from the fresh store: a chain
of `n` nested directories, the current directory being the innermost. -/
def deep_chain : Nat → State
  | 0 => fs_init boot
  | n + 1 => fs_cd (fs_mkdir (deep_chain n) "a".toList) "a".toList

/-- The store after `n` rounds of the commands `mkdir a`, `cd a` dispatched on the fresh
store. -/
def typed_chain : Nat → State
  | 0 => fs_init boot
  | n + 1 => (handle_command (handle_command (typed_chain n) "mkdir a".toList).1 "cd a".toList).1

/-- The states reached from `fs_init` at startup through the operations of the file tree, the
start of an edit and the keys of file-edit mode (TAB being the commit), as long as no write
has left the arena. -/
inductive Reachable : State → Prop where
  | init (v : Vga) : Reachable (fs_init { boot with vga := v })
  | mkdir (s : State) (name : List Char) : Reachable s →
      (fs_mkdir s name).overrun = false → Reachable (fs_mkdir s name)
  | mkfile (s : State) (name : List Char) : Reachable s →
      (fs_mkfile s name).overrun = false → Reachable (fs_mkfile s name)
  | cd (s : State) (path : List Char) : Reachable s → Reachable (fs_cd s path)
  | delfile (s : State) (name : List Char) : Reachable s → Reachable (fs_delfile s name)
  | edfile (s : State) (name : List Char) : Reachable s → Reachable (fs_edfile_start s name)
  | key (s : State) (c : Char) : Reachable s → s.fs_edit_mode ≠ 0 →
      (read_input_char s c).1.overrun = false → Reachable (read_input_char s c).1

/-- Tree well-formedness, over every node `d` of the arena (the directories reachable from the
root among them): each listed child of `d` is a node whose parent is `d`; the listed children
of `d` are pairwise distinct; no node is listed under two directories; `child_count` is at
most 32; and the root is its own parent and the only node that is. -/
def WellFormed (s : State) : Prop :=
  (∀ d i, i < (s.nodes d).child_count →
    ∃ c, (s.nodes d).children i = some c ∧ (s.nodes c).parent = some d) ∧
  (∀ d i j, i < (s.nodes d).child_count → j < (s.nodes d).child_count →
    (s.nodes d).children i = (s.nodes d).children j → i = j) ∧
  (∀ d e i j, i < (s.nodes d).child_count → j < (s.nodes e).child_count →
    (s.nodes d).children i = (s.nodes e).children j → d = e) ∧
  (∀ d, (s.nodes d).child_count ≤ MAX_CHILDREN) ∧
  (∃ r, s.fs_root = some r ∧ (s.nodes r).parent = some r ∧
    ∀ a, (s.nodes a).parent = some a → a = r)

/-- The invariant behind tree well-formedness: besides the shape of the tree, every pointer of
the tree lies below the arena offset, which lies inside the arena. -/
structure Inv (s : State) : Prop where
  heap : s.heap_pos ≤ sizeof_heap
  root : ∃ r, s.fs_root = some r ∧ r < s.heap_pos ∧ (s.nodes r).parent = some r
  cwd : ∀ c, s.fs_cwd = some c → c < s.heap_pos
  parent : ∀ a p, (s.nodes a).parent = some p → p < s.heap_pos
  child : ∀ d i, i < (s.nodes d).child_count →
    ∃ c, (s.nodes d).children i = some c ∧ c < s.heap_pos ∧ (s.nodes c).parent = some d
  distinct : ∀ d i j, i < (s.nodes d).child_count → j < (s.nodes d).child_count →
    (s.nodes d).children i = (s.nodes d).children j → i = j
  count : ∀ d, (s.nodes d).child_count ≤ MAX_CHILDREN
  self : ∀ a, (s.nodes a).parent = some a → s.fs_root = some a

/-- The bytes of the arena region of `size` bytes that starts at offset `start`. -/
def region (start size : Nat) (k : Nat) : Prop := start ≤ k ∧ k < start + size

/-- The operations on the file tree and the editor a dispatcher command comes down to, the
writes to the display left aside; `skip` stands for the commands that only write the
display, stop or restart. -/
inductive Op where
  | skip
  | cd (path : List Char)
  | mkfile (name : List Char)
  | mkdir (name : List Char)
  | delfile (name : List Char)
  | edfile (name : List Char)

/-- The state after an operation. -/
def Op.run (s : State) : Op → State
  | Op.skip => s
  | Op.cd path => fs_cd s path
  | Op.mkfile name => fs_mkfile s name
  | Op.mkdir name => fs_mkdir s name
  | Op.delfile name => fs_delfile s name
  | Op.edfile name => fs_edfile_start s name

/-- The state `t` is `s` with other display globals. -/
def SameButVga (s t : State) : Prop := ∃ v, t = { s with vga := v }

/-- The nodes reachable from the root through listed children. -/
inductive InTree (s : State) : Nat → Prop where
  | root (r : Nat) : s.fs_root = some r → InTree s r
  | child (d i c : Nat) : InTree s d → i < (s.nodes d).child_count →
      (s.nodes d).children i = some c → InTree s c

/-- The states of a run of the program: `fs_init` at startup, then dispatcher commands (on any
command line), keys passed to `read_input_char` (which dispatches the typed line on newline),
writes to the display, and `fs_init` run again by the `_start` that `reboot` calls, as long
as no write has left the arena. -/
inductive Dispatched : State → Prop where
  | init (v : Vga) : Dispatched (fs_init { boot with vga := v })
  | display (s : State) (v : Vga) : Dispatched s → Dispatched { s with vga := v }
  | command (s : State) (cmd : List Char) : Dispatched s →
      (handle_command s cmd).1.overrun = false → Dispatched (handle_command s cmd).1
  | key (s : State) (c : Char) : Dispatched s →
      (read_input_char s c).1.overrun = false → Dispatched (read_input_char s c).1
  | restart (s : State) : Dispatched s → (fs_init s).overrun = false → Dispatched (fs_init s)

/-- The invariant behind "the current directory is a directory of the tree": the root and the
current directory are directories, the current directory is reachable from the root, every
listed child is an allocated node whose parent is the node that lists it, and a node that is
not a directory lists nothing. -/
structure DirInv (s : State) : Prop where
  root : ∃ r, s.fs_root = some r ∧ r < s.heap_pos ∧ (s.nodes r).is_dir ≠ 0 ∧
    (s.nodes r).parent = some r
  cwd : ∃ c, s.fs_cwd = some c ∧ (s.nodes c).is_dir ≠ 0 ∧ InTree s c
  child : ∀ d i, i < (s.nodes d).child_count →
    ∃ c, (s.nodes d).children i = some c ∧ c < s.heap_pos ∧ (s.nodes c).parent = some d
  file : ∀ a, (s.nodes a).is_dir = 0 → (s.nodes a).child_count = 0

/-- The store after the commands `mkdir d` and `cd d` were dispatched on the fresh store. -/
def entered_store : State :=
  (handle_command (handle_command (fs_init boot) "mkdir d".toList).1 "cd d".toList).1

/-! ## Output of the display functions -/

theorem vga_putc_out (v : Vga) (c : Char) : (vga_putc v c).out = v.out ++ [c] := by
  unfold vga_putc
  simp only
  split_ifs <;> rfl

theorem vga_write_out (v : Vga) (p : List Char) : (vga_write v p).out = v.out ++ cstr p := by
  induction p generalizing v with
  | nil => simp [vga_write, cstr]
  | cons c p ih =>
    unfold vga_write
    by_cases hc : c = NUL
    · simp [hc, cstr]
    · simp [hc, cstr, ih, vga_putc_out]

theorem cstr_of_no_nul (p : List Char) (h : NUL ∉ p) : cstr p = p := by
  unfold cstr
  rw [List.takeWhile_eq_self_iff]
  intro c hc
  simp
  rintro rfl
  exact h hc

/-- C2: when the current directory already has 32 children, `fs_mkdir` and `fs_mkfile` write
their directory-full message and change nothing else: the node table (so the child count and
the children of the directory), the arena offset and the current directory stay as they were. -/
theorem full_directory_rejects (s : State) (name : List Char)
    (hfull : (deref s s.fs_cwd).child_count = 32) :
    (fs_mkdir s name).vga.out = s.vga.out ++ "dir full\n".toList ∧
    (fs_mkfile s name).vga.out = s.vga.out ++ "folder is full\n".toList ∧
    (deref (fs_mkdir s name) (fs_mkdir s name).fs_cwd).child_count = 32 ∧
    (deref (fs_mkfile s name) (fs_mkfile s name).fs_cwd).child_count = 32 ∧
    listed (fs_mkdir s name) = listed s ∧ listed (fs_mkfile s name) = listed s ∧
    (fs_mkdir s name).nodes = s.nodes ∧ (fs_mkfile s name).nodes = s.nodes ∧
    (fs_mkdir s name).heap_pos = s.heap_pos ∧ (fs_mkfile s name).heap_pos = s.heap_pos ∧
    (fs_mkdir s name).fs_cwd = s.fs_cwd ∧ (fs_mkfile s name).fs_cwd = s.fs_cwd := by
  have hd : fs_mkdir s name = { s with vga := vga_write s.vga "dir full\n".toList } := by
    simp [fs_mkdir, hfull, MAX_CHILDREN]
  have hf : fs_mkfile s name = { s with vga := vga_write s.vga "folder is full\n".toList } := by
    simp [fs_mkfile, hfull, MAX_CHILDREN]
  have e1 : cstr "dir full\n".toList = "dir full\n".toList := by simp [cstr, NUL]
  have e2 : cstr "folder is full\n".toList = "folder is full\n".toList := by simp [cstr, NUL]
  rw [hd, hf]
  refine ⟨by rw [vga_write_out, e1], by rw [vga_write_out, e2], ?_, ?_, ?_, ?_,
    rfl, rfl, rfl, rfl, rfl, rfl⟩
  · simpa [deref] using hfull
  · simpa [deref] using hfull
  · simp [listed, deref]
  · simp [listed, deref]

set_option maxRecDepth 100000 in
/-- C2 (witness): a root directory filled with 32 sub-directories by `fs_mkdir`. -/
theorem full_directory_rejects_witness :
    (deref full_store full_store.fs_cwd).child_count = 32 ∧
    (fs_mkdir full_store "e".toList).vga.out = full_store.vga.out ++ "dir full\n".toList :=
  ⟨by decide, (full_directory_rejects full_store "e".toList (by decide)).1⟩

/-! ## C strings -/

@[simp] theorem charAt_nil (i : Nat) : charAt [] i = NUL := by simp [charAt]

@[simp] theorem charAt_cons_zero (c : Char) (p : List Char) : charAt (c :: p) 0 = c := by
  simp [charAt]

@[simp] theorem cstr_nil : cstr [] = [] := rfl

theorem cstr_cons (c : Char) (p : List Char) :
    cstr (c :: p) = if c = NUL then [] else c :: cstr p := by
  by_cases h : c = NUL <;> simp [cstr, h]

theorem cstr_no_nul (p : List Char) : NUL ∉ cstr p := by
  intro h
  have := List.mem_takeWhile_imp h
  simp at this

theorem cstr_idem (p : List Char) : cstr (cstr p) = cstr p :=
  cstr_of_no_nul _ (cstr_no_nul p)

theorem cstr_append_nul (p q : List Char) (h : NUL ∉ p) : cstr (p ++ NUL :: q) = p := by
  induction p with
  | nil => simp [cstr_cons]
  | cons c p ih =>
    have hc : c ≠ NUL := fun e => h (by simp [e])
    have hp : NUL ∉ p := fun e => h (by simp [e])
    simp [cstr_cons, hc, ih hp]

theorem cstr_strncpy_bytes (src : List Char) (n : Nat) (rest : List Char) :
    cstr (strncpy_bytes src n ++ NUL :: rest) = (cstr src).take n := by
  induction n generalizing src with
  | zero => simp [strncpy_bytes, cstr_cons]
  | succ n ih =>
    cases src with
    | nil => simp [strncpy_bytes, List.replicate_succ, cstr_cons]
    | cons c src =>
      by_cases hc : c = NUL
      · simp [strncpy_bytes, hc, List.replicate_succ, cstr_cons]
      · simp [strncpy_bytes, hc, cstr_cons, ih]

theorem cstr_name_of_created (name : List Char) :
    cstr (strncpy fs_node_zero.name name (MAX_NAME_LEN - 1)) = (cstr name).take 31 := by
  have h : List.drop (MAX_NAME_LEN - 1) fs_node_zero.name = NUL :: [] := by
    simp [fs_node_zero, MAX_NAME_LEN]
  unfold strncpy
  rw [h, cstr_strncpy_bytes]
  rfl

theorem char_toNat_inj (c d : Char) (h : c.toNat = d.toNat) : c = d :=
  Char.ext (UInt32.ext h)

theorem char_sub_eq_zero (c d : Char) : ((c.toNat : Int) - (d.toNat : Int) = 0) ↔ c = d := by
  constructor
  · intro h
    exact char_toNat_inj c d (by omega)
  · rintro rfl
    simp

/-- The C string comparison decides equality of the strings denoted. -/
theorem strcmp_eq_zero_iff (a b : List Char) : strcmp a b = 0 ↔ cstr a = cstr b := by
  induction a generalizing b with
  | nil =>
    cases b with
    | nil => simp [strcmp]
    | cons d b =>
      by_cases hd : d = NUL
      · simp [strcmp, cstr_cons, hd]
      · simp [strcmp, cstr_cons, hd, char_sub_eq_zero]
        exact fun h => hd h.symm
  | cons c a ih =>
    cases b with
    | nil =>
      by_cases hc : c = NUL
      · simp [strcmp, cstr_cons, hc]
      · simp [strcmp, cstr_cons, hc, char_sub_eq_zero]
    | cons d b =>
      by_cases hc : c = NUL
      · by_cases hd : d = NUL
        · simp [strcmp, cstr_cons, hc, hd]
        · simp [strcmp, cstr_cons, hc, hd, char_sub_eq_zero]
          exact fun h => hd h.symm
      · by_cases hcd : c = d
        · subst hcd
          simp [strcmp, cstr_cons, hc, ih]
        · by_cases hd : d = NUL
          · simp [strcmp, cstr_cons, hc, hd, hcd, char_sub_eq_zero]
          · simp [strcmp, cstr_cons, hc, hd, hcd, char_sub_eq_zero]

/-! ## The node store: what the operations do to the state -/

@[simp] theorem deref_some (s : State) (a : Nat) : deref s (some a) = s.nodes a := rfl

@[simp] theorem deref_none (s : State) : deref s none = fs_node_zero := rfl

@[simp] theorem deref_vga (s : State) (v : Vga) (p : Option Nat) :
    deref { s with vga := v } p = deref s p := by
  cases p <;> rfl

theorem fs_create_node_fst (s : State) (name : List Char) (k : Int) :
    (fs_create_node s name k).1 = s.heap_pos := rfl

theorem fs_create_node_snd (s : State) (name : List Char) (k : Int) :
    (fs_create_node s name k).2 =
      { s with
        heap_pos := (s.heap_pos + sizeof_fs_node) % 4294967296
        overrun := s.overrun || past_heap s.heap_pos sizeof_fs_node
        nodes := Function.update s.nodes s.heap_pos (created name k) } := by
  simp [fs_create_node, kmalloc, store, created]

/-- The effect of `fs_mkdir` on a directory with room, when the new node does not land on the
current directory. -/
theorem fs_mkdir_room (s : State) (name : List Char) (c : Nat) (hc : s.fs_cwd = some c)
    (hroom : (s.nodes c).child_count < 32) (hne : s.heap_pos ≠ c) :
    fs_mkdir s name =
      { s with
        heap_pos := (s.heap_pos + sizeof_fs_node) % 4294967296
        overrun := s.overrun || past_heap s.heap_pos sizeof_fs_node
        nodes := Function.update
          (Function.update s.nodes s.heap_pos { created name 1 with parent := some c })
          c (with_child (s.nodes c) s.heap_pos) } := by
  have h1 : ¬ (deref s s.fs_cwd).child_count ≥ MAX_CHILDREN := by
    simp [hc, MAX_CHILDREN]; omega
  unfold fs_mkdir
  rw [if_neg h1]
  simp [fs_create_node_fst, fs_create_node_snd, store, hc, with_child,
    Function.update_noteq (Ne.symm hne)]

/-- The effect of `fs_mkfile` on a directory with room, when the new node does not land on the
current directory. -/
theorem fs_mkfile_room (s : State) (name : List Char) (c : Nat) (hc : s.fs_cwd = some c)
    (hroom : (s.nodes c).child_count < 32) (hne : s.heap_pos ≠ c) :
    fs_mkfile s name =
      { s with
        heap_pos := (s.heap_pos + sizeof_fs_node) % 4294967296
        overrun := s.overrun || past_heap s.heap_pos sizeof_fs_node
        nodes := Function.update
          (Function.update s.nodes s.heap_pos { created name 0 with parent := some c })
          c (with_child (s.nodes c) s.heap_pos)
        vga := vga_write (vga_write (vga_write s.vga "\nmade file: ".toList) name) "\n".toList } := by
  have h1 : ¬ (deref s s.fs_cwd).child_count ≥ MAX_CHILDREN := by
    simp [hc, MAX_CHILDREN]; omega
  unfold fs_mkfile
  rw [if_neg h1]
  simp [fs_create_node_fst, fs_create_node_snd, store, hc, with_child,
    Function.update_noteq (Ne.symm hne)]

/-! ## Listing -/

theorem ls_text_append (s : State) (ps qs : List (Option Nat)) :
    ls_text s (ps ++ qs) = ls_text s ps ++ ls_text s qs := by
  induction ps with
  | nil => rfl
  | cons p ps ih => simp [ls_text, ih]

theorem fs_ls_fold (s : State) (l : List Nat) (v : Vga) :
    ∃ w : Vga, (l.foldl (fun st i =>
        let n := deref st ((deref st st.fs_cwd).children i)
        let v1 := vga_write st.vga
          (if n.is_dir ≠ 0 then "\n[FOLDERs] -> ".toList else "\n[FILES] -> ".toList)
        let v2 := vga_write v1 n.name
        { st with vga := vga_write v2 "\n".toList }) { s with vga := v }) = { s with vga := w } ∧
      w.out = v.out ++ ls_text s (l.map (deref s s.fs_cwd).children) := by
  induction l generalizing v with
  | nil => exact ⟨v, rfl, by simp [ls_text]⟩
  | cons i l ih =>
    simp only [List.foldl_cons, deref_vga, List.map_cons]
    obtain ⟨w, hw, hout⟩ := ih (vga_write (vga_write (vga_write v
      (if (deref s ((deref s s.fs_cwd).children i)).is_dir ≠ 0 then "\n[FOLDERs] -> ".toList
        else "\n[FILES] -> ".toList)) (deref s ((deref s s.fs_cwd).children i)).name) "\n".toList)
    refine ⟨w, hw, ?_⟩
    rw [hout]
    simp only [vga_write_out, ls_text, ls_line, List.append_assoc]
    have e1 : cstr "\n".toList = "\n".toList := by simp [cstr, NUL]
    have e2 : cstr "\n[FOLDERs] -> ".toList = "\n[FOLDERs] -> ".toList := by simp [cstr, NUL]
    have e3 : cstr "\n[FILES] -> ".toList = "\n[FILES] -> ".toList := by simp [cstr, NUL]
    rw [e1]
    split_ifs
    · rw [e2]
    · rw [e3]

/-- What `fs_ls` writes: one line per listed child, in the order of the `children` array. -/
theorem fs_ls_out (s : State) : (fs_ls s).vga.out = s.vga.out ++ ls_text s (listed s) := by
  obtain ⟨w, hw, hout⟩ := fs_ls_fold s (List.range (deref s s.fs_cwd).child_count) s.vga
  have : fs_ls s = { s with vga := w } := by
    rw [← hw]
    rfl
  rw [this]
  exact hout

/-! ## Creation commands from a fresh store -/

theorem fs_init_eq (s : State) :
    fs_init s =
      { s with
        heap_pos := (s.heap_pos + sizeof_fs_node) % 4294967296
        overrun := s.overrun || past_heap s.heap_pos sizeof_fs_node
        nodes := Function.update s.nodes s.heap_pos
          { created "~".toList 1 with parent := some s.heap_pos }
        fs_root := some s.heap_pos
        fs_cwd := some s.heap_pos } := by
  simp [fs_init, fs_create_node_fst, fs_create_node_snd, store]

theorem ls_text_congr (s t : State) (ps : List (Option Nat))
    (h : ∀ p, p ∈ ps → deref t p = deref s p) : ls_text t ps = ls_text s ps := by
  induction ps with
  | nil => rfl
  | cons p ps ih =>
    simp only [ls_text]
    rw [h p (by simp), ih (fun q hq => h q (by simp [hq]))]

/-- The node effects of a creation command on a directory with room. -/
theorem create_room (s : State) (cmd : Create) (c : Nat) (hc : s.fs_cwd = some c)
    (hroom : (s.nodes c).child_count < 32) (hne : s.heap_pos ≠ c) :
    (cmd.run s).fs_cwd = some c ∧
    (cmd.run s).heap_pos = (s.heap_pos + sizeof_fs_node) % 4294967296 ∧
    (cmd.run s).nodes = Function.update
      (Function.update s.nodes s.heap_pos { created cmd.name cmd.kind with parent := some c })
      c (with_child (s.nodes c) s.heap_pos) := by
  cases cmd with
  | mkdir name =>
    simp only [Create.run, Create.name, Create.kind]
    rw [fs_mkdir_room s name c hc hroom hne]
    exact ⟨hc, rfl, rfl⟩
  | mkfile name =>
    simp only [Create.run, Create.name, Create.kind]
    rw [fs_mkfile_room s name c hc hroom hne]
    exact ⟨hc, rfl, rfl⟩

theorem ls_line_created (cmd : Create) (p : Option Nat) :
    ls_line { created cmd.name cmd.kind with parent := p } = cmd.entry stored_name := by
  cases cmd with
  | mkdir name =>
    simp only [ls_line, Create.entry, Create.kind, Create.name, created, stored_name]
    rw [cstr_name_of_created]
    simp
  | mkfile name =>
    simp only [ls_line, Create.entry, Create.kind, Create.name, created, stored_name]
    rw [cstr_name_of_created]
    simp

theorem filled_step (h0 : Nat) (s : State) (k : Nat) (txt : List Char) (cmd : Create)
    (hinv : Filled h0 s k txt) (hk : k < 32)
    (hcap : h0 + sizeof_fs_node * (k + 2) ≤ 65536) :
    Filled h0 (cmd.run s) (k + 1) (txt ++ cmd.entry stored_name) := by
  obtain ⟨hc, hp, hcnt, hch, htxt⟩ := hinv
  have hsz : sizeof_fs_node = 180 := rfl
  have hne : s.heap_pos ≠ h0 := by rw [hp, hsz]; omega
  obtain ⟨e1, e2, e3⟩ := create_room s cmd h0 hc (by rw [hcnt]; exact hk) hne
  have hcnt2 : ((cmd.run s).nodes h0).child_count = k + 1 := by
    rw [e3]; simp [with_child, hcnt]
  have hch2 : ∀ i, ((cmd.run s).nodes h0).children i =
      if i = k then some s.heap_pos else (s.nodes h0).children i := by
    intro i
    rw [e3]
    simp [with_child, hcnt, Function.update_apply]
  have hlisted : listed (cmd.run s) = listed s ++ [some s.heap_pos] := by
    simp only [listed, e1, hc, deref_some, hcnt, hcnt2, List.range_succ, List.map_append,
      List.map_cons, List.map_nil]
    congr 1
    · apply List.map_congr_left
      intro i hi
      rw [hch2]
      have : i ≠ k := by
        have := List.mem_range.mp hi
        omega
      simp [this]
    · rw [hch2]; simp
  refine ⟨e1, ?_, hcnt2, ?_, ?_⟩
  · rw [e2, hp, hsz]; omega
  · intro i hi
    rw [hch2]
    by_cases hik : i = k
    · refine ⟨s.heap_pos, by simp [hik], hne, ?_⟩
      rw [e2, hp, hsz]; omega
    · obtain ⟨a, ha, hne2, hlt⟩ := hch i (by omega)
      refine ⟨a, by simp [hik, ha], hne2, ?_⟩
      rw [e2, hsz]
      rw [hp, hsz] at hlt ⊢
      omega
  · rw [hlisted, ls_text_append, ← htxt]
    congr 1
    · apply ls_text_congr
      intro p hp2
      simp only [listed, hc, deref_some, hcnt, List.mem_map, List.mem_range] at hp2
      obtain ⟨i, hi, rfl⟩ := hp2
      obtain ⟨a, ha, hne2, hlt⟩ := hch i hi
      rw [ha]
      simp only [deref_some, e3]
      rw [Function.update_noteq hne2, Function.update_noteq (by omega)]
    · simp only [ls_text, deref_some, e3, List.append_nil]
      rw [Function.update_noteq hne, Function.update_same]
      exact ls_line_created cmd (some h0)

theorem filled_run (h0 : Nat) (cs : List Create) (s : State) (k : Nat) (txt : List Char)
    (hinv : Filled h0 s k txt) (hk : k + cs.length ≤ 32)
    (hcap : h0 + sizeof_fs_node * 33 ≤ 65536) :
    Filled h0 (cs.foldl Create.run s) (k + cs.length) (txt ++ listing stored_name cs) := by
  induction cs generalizing s k txt with
  | nil => simpa [listing] using hinv
  | cons cmd cs ih =>
    have hsz : sizeof_fs_node = 180 := rfl
    simp only [List.length_cons] at hk
    have hstep := filled_step h0 s k txt cmd hinv (by omega) (by rw [hsz] at hcap ⊢; omega)
    have := ih (cmd.run s) (k + 1) (txt ++ cmd.entry stored_name) hstep (by omega)
    simp only [List.foldl_cons, List.length_cons, listing]
    rw [List.append_assoc] at this
    rw [show k + (cs.length + 1) = k + 1 + cs.length by omega]
    exact this

theorem filled_init (s0 : State) (hcap : s0.heap_pos + sizeof_fs_node * 33 ≤ 65536) :
    Filled s0.heap_pos (fs_init s0) 0 [] := by
  have hsz : sizeof_fs_node = 180 := rfl
  rw [fs_init_eq]
  refine ⟨rfl, ?_, ?_, ?_, ?_⟩
  · simp only [hsz] at hcap ⊢; omega
  · simp [created, fs_node_zero]
  · intro i hi; omega
  · simp [listed, created, fs_node_zero, ls_text]
theorem listing_congr (f g : List Char → List Char) (cs : List Create)
    (h : ∀ c, c ∈ cs → f c.name = g c.name) : listing f cs = listing g cs := by
  induction cs with
  | nil => rfl
  | cons c cs ih =>
    simp only [listing]
    rw [ih (fun d hd => h d (by simp [hd]))]
    congr 1
    have := h c (by simp)
    cases c <;> simpa [Create.entry, Create.name] using this

/-- C1 (amended): from a freshly initialised store with room in the arena for the root and 32
nodes, after at most 32 `mkdir`/`mkfile` commands `fs_ls` writes exactly one entry per command,
in creation order, with the tag `[FOLDERs]` for `mkdir` and `[FILES]` for `mkfile`, and with the
first 31 characters of the name given; when every name has at most 31 characters the entries
carry the names exactly as given. -/
theorem ls_lists_created (s0 : State) (cs : List Create)
    (hcap : s0.heap_pos + sizeof_fs_node * 33 ≤ 65536) (hlen : cs.length ≤ 32) :
    (fs_ls (cs.foldl Create.run (fs_init s0))).vga.out =
        (cs.foldl Create.run (fs_init s0)).vga.out ++ listing stored_name cs ∧
    ((∀ c, c ∈ cs → (cstr c.name).length ≤ 31) → listing stored_name cs = listing cstr cs) := by
  constructor
  · have h := filled_run s0.heap_pos cs (fs_init s0) 0 [] (filled_init s0 hcap)
      (by omega) hcap
    rw [fs_ls_out, h.2.2.2.2]
    simp
  · intro hshort
    apply listing_congr
    intro c hc
    exact List.take_of_length_le (hshort c hc)

set_option maxRecDepth 100000 in
/-- C1 (witness): `mkdir docs` then `mkfile notes` on the store left by `fs_init` on the boot
image. -/
theorem ls_lists_created_witness :
    boot.heap_pos + sizeof_fs_node * 33 ≤ 65536 ∧
    [Create.mkdir "docs".toList, Create.mkfile "notes".toList].length ≤ 32 ∧
    (fs_ls ([Create.mkdir "docs".toList, Create.mkfile "notes".toList].foldl Create.run
        (fs_init boot))).vga.out =
      ([Create.mkdir "docs".toList, Create.mkfile "notes".toList].foldl Create.run
        (fs_init boot)).vga.out ++ "\n[FOLDERs] -> docs\n\n[FILES] -> notes\n".toList :=
  ⟨by decide, by decide,
    (ls_lists_created boot [Create.mkdir "docs".toList, Create.mkfile "notes".toList]
      (by decide) (by decide)).1⟩

set_option maxRecDepth 100000 in
/-- C1 (counterexample): after `mkdir` with a name of 32 characters on the fresh store, `fs_ls`
does not show the name as it was given: the entry carries 31 characters. -/
theorem ls_truncates_long_name :
    (fs_ls ([Create.mkdir long_name].foldl Create.run (fs_init boot))).vga.out ≠
        ([Create.mkdir long_name].foldl Create.run (fs_init boot)).vga.out ++
          listing cstr [Create.mkdir long_name] ∧
    (fs_ls ([Create.mkdir long_name].foldl Create.run (fs_init boot))).vga.out =
        ([Create.mkdir long_name].foldl Create.run (fs_init boot)).vga.out ++
          ("\n[FOLDERs] -> ".toList ++ (List.replicate 31 'a' ++ "\n".toList)) := by
  decide

/-! ## Navigation -/

/-- The root of a freshly initialised store is its own parent, and is the current directory. -/
theorem fs_init_root (s0 : State) :
    (deref (fs_init s0) (fs_init s0).fs_root).parent = (fs_init s0).fs_root ∧
    (fs_init s0).fs_cwd = (fs_init s0).fs_root := by
  rw [fs_init_eq]
  simp

theorem fs_cd_dotdot (s : State) :
    fs_cd s "..".toList = { s with fs_cwd := (deref s s.fs_cwd).parent } := by
  have h1 : strncmp "..".toList "~".toList 1 ≠ 0 := by decide
  have h2 : strncmp "..".toList "..".toList 2 = 0 := by decide
  have h3 : charAt "..".toList 0 ≠ NUL := by decide
  unfold fs_cd
  simp only [if_neg h1]
  have : fs_cd_walk s ("..".toList.length + 1) s.fs_cwd "..".toList
      = Walk.reached (deref s s.fs_cwd).parent := by
    show fs_cd_walk s 3 s.fs_cwd "..".toList = _
    rw [fs_cd_walk, if_neg h3, if_pos h2]
    rfl
  rw [this]

/-- C5: when the current directory is the root and the root is its own parent, as `fs_init`
leaves it, `fs_cd("..")` changes nothing: the current directory is still the root and nothing is
written. -/
theorem cd_up_at_root (s : State) (hcwd : s.fs_cwd = s.fs_root)
    (hself : (deref s s.fs_root).parent = s.fs_root) :
    (fs_cd s "..".toList).fs_cwd = s.fs_root ∧
    (fs_cd s "..".toList).vga.out = s.vga.out ∧
    fs_cd s "..".toList = s := by
  rw [fs_cd_dotdot, hcwd, hself]
  refine ⟨rfl, rfl, ?_⟩
  cases s
  cases hcwd
  rfl

/-- C5 (witness): the store left by `fs_init` on the boot image. -/
theorem cd_up_at_root_witness :
    (fs_init boot).fs_cwd = (fs_init boot).fs_root ∧
    (deref (fs_init boot) (fs_init boot).fs_root).parent = (fs_init boot).fs_root ∧
    (fs_cd (fs_init boot) "..".toList).fs_cwd = (fs_init boot).fs_root :=
  ⟨(fs_init_root boot).2, (fs_init_root boot).1,
    (cd_up_at_root (fs_init boot) (fs_init_root boot).2 (fs_init_root boot).1).1⟩

/-! ## The search loop -/

theorem find_range_none (n : Nat) (p : Nat → Bool) :
    (List.range n).find? p = none ↔ ∀ j, j < n → p j = false := by
  simp [List.find?_eq_none]

theorem find_range_some (n : Nat) (p : Nat → Bool) (i : Nat) :
    (List.range n).find? p = some i ↔ i < n ∧ p i = true ∧ ∀ j, j < i → p j = false := by
  induction n generalizing i with
  | zero => simp
  | succ n ih =>
    rw [List.range_succ, List.find?_append]
    cases hfind : (List.range n).find? p with
    | some k =>
      rw [ih] at hfind
      obtain ⟨hk, hpk, hfirst⟩ := hfind
      simp only [Option.or, Option.some.injEq]
      constructor
      · rintro rfl
        exact ⟨by omega, hpk, hfirst⟩
      · rintro ⟨_, hpi, hfi⟩
        rcases Nat.lt_trichotomy k i with h | h | h
        · have := hfi k h
          simp [hpk] at this
        · exact h
        · have := hfirst i h
          simp [hpi] at this
    | none =>
      rw [find_range_none] at hfind
      simp only [Option.or]
      by_cases hpn : p n = true
      · simp only [List.find?_cons, hpn, Option.some.injEq]
        constructor
        · rintro rfl
          exact ⟨by omega, hpn, hfind⟩
        · rintro ⟨hi, hpi, hfi⟩
          rcases Nat.lt_trichotomy n i with h | h | h
          · omega
          · exact h
          · have := hfind i h
            simp [hpi] at this
      · simp only [List.find?_cons, hpn, List.find?_nil]
        constructor
        · intro h; cases h
        · rintro ⟨hi, hpi, _⟩
          have hin : i < n := by
            rcases Nat.lt_or_ge i n with h | h
            · exact h
            · have : i = n := by omega
              subst this
              exact absurd hpi hpn
          have := hfind i hin
          simp [hpi] at this

theorem is_file_named_iff (name : List Char) (n : fs_node) :
    is_file_named name n = true ↔ n.is_dir = 0 ∧ cstr n.name = cstr name := by
  simp [is_file_named, strcmp_eq_zero_iff]

theorem is_dir_named_iff (name : List Char) (n : fs_node) :
    is_dir_named name n = true ↔ n.is_dir ≠ 0 ∧ cstr n.name = cstr name := by
  simp [is_dir_named, strcmp_eq_zero_iff]

theorem find_file_some (s : State) (name : List Char) (i : Nat) :
    find_child s s.fs_cwd (is_file_named name) = some i ↔ first_file_at s name i := by
  unfold find_child first_file_at file_at child
  rw [find_range_some]
  simp only [is_file_named_iff]
  constructor
  · rintro ⟨h1, h2, h3⟩
    refine ⟨⟨h1, h2⟩, fun j hj hfile => ?_⟩
    have := h3 j hj
    rw [← Bool.not_eq_true, is_file_named_iff] at this
    exact this hfile.2
  · rintro ⟨⟨h1, h2⟩, h3⟩
    refine ⟨h1, h2, fun j hj => ?_⟩
    rw [← Bool.not_eq_true, is_file_named_iff]
    intro hfile
    exact h3 j hj ⟨by omega, hfile⟩

theorem find_file_none (s : State) (name : List Char) :
    find_child s s.fs_cwd (is_file_named name) = none ↔ ∀ j, ¬ file_at s name j := by
  unfold find_child file_at child
  rw [find_range_none]
  constructor
  · intro h j hfile
    have := h j hfile.1
    rw [← Bool.not_eq_true, is_file_named_iff] at this
    exact this hfile.2
  · intro h j hj
    rw [← Bool.not_eq_true, is_file_named_iff]
    intro hfile
    exact h j ⟨hj, hfile⟩

/-- A directory that lists a file has some file listed first. -/
theorem first_file_exists (s : State) (name : List Char) (h : ∃ j, file_at s name j) :
    ∃ i, first_file_at s name i := by
  cases hfind : find_child s s.fs_cwd (is_file_named name) with
  | some i => exact ⟨i, (find_file_some s name i).mp hfind⟩
  | none =>
    obtain ⟨j, hj⟩ := h
    exact absurd hj ((find_file_none s name).mp hfind j)

/-! ## Deleting a file -/

theorem shift_fold (ch : Nat → Option Nat) (i m k : Nat) :
    (List.range' i m).foldl (fun c j => Function.update c j (c (j + 1))) ch k =
      if i ≤ k ∧ k < i + m then ch (k + 1) else ch k := by
  induction m generalizing k with
  | zero =>
    simp only [List.range'_zero, List.foldl_nil]
    rw [if_neg (by omega)]
  | succ m ih =>
    rw [List.range'_concat, List.foldl_append]
    simp only [List.foldl_cons, List.foldl_nil, Nat.one_mul, Function.update_apply]
    rw [ih, ih]
    by_cases hk : k = i + m
    · subst hk
      have h1 : ¬ (i ≤ i + m + 1 ∧ i + m + 1 < i + m) := by omega
      have h2 : i ≤ i + m ∧ i + m < i + (m + 1) := by omega
      simp [h1, h2]
    · simp only [hk, if_false]
      by_cases h1 : i ≤ k ∧ k < i + m
      · have : i ≤ k ∧ k < i + (m + 1) := ⟨h1.1, by omega⟩
        simp [h1, this]
      · have : ¬ (i ≤ k ∧ k < i + (m + 1)) := by
          intro h
          exact h1 ⟨h.1, by omega⟩
        simp [h1, this]

theorem shift_children_apply (ch : Nat → Option Nat) (i n k : Nat) (hi : i < n) :
    shift_children ch i n k = if i ≤ k ∧ k < n - 1 then ch (k + 1) else ch k := by
  unfold shift_children
  rw [shift_fold]
  have : i + (n - 1 - i) = n - 1 := by omega
  rw [this]

theorem map_shift_eq_eraseIdx (ch : Nat → Option Nat) (i n : Nat) (hi : i < n) :
    (List.range (n - 1)).map (shift_children ch i n) = ((List.range n).map ch).eraseIdx i := by
  apply List.ext_getElem
  · rw [List.length_eraseIdx]
    simp [hi]
  · intro k h1 h2
    rw [List.getElem_eraseIdx]
    simp only [List.length_map, List.length_range] at h1
    simp only [List.getElem_map, List.getElem_range]
    rw [shift_children_apply ch i n k hi]
    by_cases hk : k < i
    · have : ¬ (i ≤ k ∧ k < n - 1) := by omega
      simp [hk, this]
    · have : i ≤ k ∧ k < n - 1 := by omega
      simp [hk, this]

theorem cwd_some_of_child (s : State) (i : Nat) (h : i < (deref s s.fs_cwd).child_count) :
    ∃ c, s.fs_cwd = some c := by
  cases hc : s.fs_cwd with
  | some c => exact ⟨c, rfl⟩
  | none =>
    rw [hc] at h
    simp [fs_node_zero] at h

/-- The effect of `fs_delfile` when the first file named `name` is the `i`-th child. -/
theorem fs_delfile_found (s : State) (name : List Char) (i c : Nat)
    (hfirst : first_file_at s name i) (hc : s.fs_cwd = some c) :
    fs_delfile s name =
      { s with
        nodes := Function.update s.nodes c
          { s.nodes c with
            children := shift_children (s.nodes c).children i (s.nodes c).child_count
            child_count := (s.nodes c).child_count - 1 }
        vga := vga_write (vga_write (vga_write s.vga "\nmade file: ".toList) name)
          "\n".toList } := by
  unfold fs_delfile
  rw [(find_file_some s name i).mpr hfirst]
  simp [store, hc]

/-- The effect of `fs_delfile` when the current directory lists no file named `name`. -/
theorem fs_delfile_missing (s : State) (name : List Char) (h : ∀ j, ¬ file_at s name j) :
    fs_delfile s name = { s with vga := vga_write s.vga "file was not found\n".toList } := by
  unfold fs_delfile
  rw [(find_file_none s name).mpr h]

/-- The children sequence after `fs_delfile` found the first file of the name at index `i`:
that entry is erased. -/
theorem fs_delfile_erases (s : State) (name : List Char) (i : Nat)
    (hfirst : first_file_at s name i) :
    (fs_delfile s name).fs_cwd = s.fs_cwd ∧
    listed (fs_delfile s name) = (listed s).eraseIdx i ∧
    (deref (fs_delfile s name) (fs_delfile s name).fs_cwd).child_count + 1 =
      (deref s s.fs_cwd).child_count ∧
    (∀ a, s.fs_cwd ≠ some a → (fs_delfile s name).nodes a = s.nodes a) := by
  obtain ⟨c, hc⟩ := cwd_some_of_child s i hfirst.1.1
  have hi : i < (s.nodes c).child_count := by
    have := hfirst.1.1
    rwa [hc] at this
  rw [fs_delfile_found s name i c hfirst hc]
  refine ⟨rfl, ?_, ?_, ?_⟩
  · simp only [listed, hc, deref_some, Function.update_same]
    exact map_shift_eq_eraseIdx _ i _ hi
  · simp only [hc, deref_some, Function.update_same]
    omega
  · intro a ha
    have : a ≠ c := fun e => ha (by rw [hc, e])
    simp [Function.update_noteq this]

/-- C8: if the current directory lists a file named `name`, then after `fs_delfile(name)` its
children sequence is the previous one with the first file of that name removed, the other
children keeping their order; `child_count` has decreased by exactly one and no node other
than the directory itself is changed. -/
theorem delfile_removes_first_file (s : State) (name : List Char)
    (hfile : ∃ j, file_at s name j) :
    ∃ i, first_file_at s name i ∧
      (fs_delfile s name).fs_cwd = s.fs_cwd ∧
      listed (fs_delfile s name) = (listed s).eraseIdx i ∧
      (deref (fs_delfile s name) (fs_delfile s name).fs_cwd).child_count + 1 =
        (deref s s.fs_cwd).child_count ∧
      (∀ a, s.fs_cwd ≠ some a → (fs_delfile s name).nodes a = s.nodes a) := by
  obtain ⟨i, hfirst⟩ := first_file_exists s name hfile
  obtain ⟨h1, h2, h3, h4⟩ := fs_delfile_erases s name i hfirst
  exact ⟨i, hfirst, h1, h2, h3, h4⟩

set_option maxRecDepth 100000 in
/-- C8 (witness): deleting the file `f` of the sample store. -/
theorem delfile_removes_first_file_witness :
    (∃ j, file_at sample_store "f".toList j) ∧
    ∃ i, first_file_at sample_store "f".toList i ∧
      (fs_delfile sample_store "f".toList).fs_cwd = sample_store.fs_cwd ∧
      listed (fs_delfile sample_store "f".toList) = (listed sample_store).eraseIdx i ∧
      (deref (fs_delfile sample_store "f".toList)
          (fs_delfile sample_store "f".toList).fs_cwd).child_count + 1 =
        (deref sample_store sample_store.fs_cwd).child_count ∧
      (∀ a, sample_store.fs_cwd ≠ some a →
        (fs_delfile sample_store "f".toList).nodes a = sample_store.nodes a) :=
  ⟨⟨1, by decide⟩, delfile_removes_first_file sample_store "f".toList ⟨1, by decide⟩⟩

/-- Deleting a file changes neither the kind nor the name of any node. -/
theorem fs_delfile_kind_name (s : State) (name : List Char) (p : Option Nat) :
    (deref (fs_delfile s name) p).is_dir = (deref s p).is_dir ∧
    (deref (fs_delfile s name) p).name = (deref s p).name := by
  cases hfind : find_child s s.fs_cwd (is_file_named name) with
  | none =>
    rw [fs_delfile_missing s name ((find_file_none s name).mp hfind)]
    simp
  | some i =>
    have hfirst := (find_file_some s name i).mp hfind
    obtain ⟨c, hc⟩ := cwd_some_of_child s i hfirst.1.1
    rw [fs_delfile_found s name i c hfirst hc]
    cases p with
    | none => simp
    | some a =>
      by_cases ha : a = c
      · subst ha; simp
      · simp [Function.update_noteq ha]

theorem filter_eraseIdx_of_not {α : Type} (l : List α) (P : α → Bool) (i : Nat)
    (hi : i < l.length) (h : P (l.get ⟨i, hi⟩) = false) :
    (l.eraseIdx i).filter P = l.filter P := by
  induction l generalizing i with
  | nil => simp
  | cons x l ih =>
    cases i with
    | zero =>
      simp only [List.get_eq_getElem, List.getElem_cons_zero] at h
      simp [List.filter_cons, h]
    | succ i =>
      simp only [List.length_cons, Nat.add_lt_add_iff_right] at hi
      simp only [List.eraseIdx_cons_succ, List.filter_cons]
      rw [ih i hi (by simpa using h)]

/-- C10: `fs_delfile` never removes a directory: the sub-sequence of directory children of the
current directory is the same after the call for every name, and when no file child bears the
name (the only children of that name are directories) it writes "file was not found" and leaves
the node table, so the child count and the children sequence, unchanged. -/
theorem delfile_keeps_directories (s : State) (name : List Char) :
    (listed (fs_delfile s name)).filter (fun p => decide ((deref (fs_delfile s name) p).is_dir ≠ 0))
      = (listed s).filter (fun p => decide ((deref s p).is_dir ≠ 0)) ∧
    ((∀ j, j < (deref s s.fs_cwd).child_count → cstr (child s j).name = cstr name →
        (child s j).is_dir ≠ 0) →
      (fs_delfile s name).vga.out = s.vga.out ++ "file was not found\n".toList ∧
      (fs_delfile s name).nodes = s.nodes ∧
      (fs_delfile s name).fs_cwd = s.fs_cwd ∧
      listed (fs_delfile s name) = listed s ∧
      (deref (fs_delfile s name) (fs_delfile s name).fs_cwd).child_count =
        (deref s s.fs_cwd).child_count) := by
  constructor
  · have hkind : (fun p => decide ((deref (fs_delfile s name) p).is_dir ≠ 0)) =
        (fun p => decide ((deref s p).is_dir ≠ 0)) := by
      funext p
      rw [(fs_delfile_kind_name s name p).1]
    rw [hkind]
    cases hfind : find_child s s.fs_cwd (is_file_named name) with
    | none =>
      rw [fs_delfile_missing s name ((find_file_none s name).mp hfind)]
      simp [listed]
    | some i =>
      have hfirst := (find_file_some s name i).mp hfind
      obtain ⟨_, hl, _, _⟩ := fs_delfile_erases s name i hfirst
      rw [hl]
      have hlen : i < (listed s).length := by
        simpa [listed] using hfirst.1.1
      apply filter_eraseIdx_of_not _ _ i hlen
      have hz := hfirst.1.2.1
      simp only [child] at hz
      simp [listed, hz]
  · intro honly
    have hnone : ∀ j, ¬ file_at s name j := fun j hj => honly j hj.1 hj.2.2 hj.2.1
    rw [fs_delfile_missing s name hnone]
    have e : cstr "file was not found\n".toList = "file was not found\n".toList := by
      simp [cstr, NUL]
    refine ⟨by rw [vga_write_out, e], rfl, rfl, ?_, ?_⟩
    · simp [listed]
    · simp

set_option maxRecDepth 100000 in
/-- C10 (witness): `delfile d` on a store whose only child named `d` is a directory. -/
theorem delfile_keeps_directories_witness :
    (∀ j, j < (deref dir_store dir_store.fs_cwd).child_count →
      cstr (child dir_store j).name = cstr "d".toList → (child dir_store j).is_dir ≠ 0) ∧
    (fs_delfile dir_store "d".toList).vga.out =
      dir_store.vga.out ++ "file was not found\n".toList ∧
    listed (fs_delfile dir_store "d".toList) = listed dir_store :=
  ⟨by decide,
    ((delfile_keeps_directories dir_store "d".toList).2 (by decide)).1,
    ((delfile_keeps_directories dir_store "d".toList).2 (by decide)).2.2.2.1⟩

/-! ## Reading a file -/

/-- The effect of `fs_rdfile` when the first file named `name` is the `i`-th child. -/
theorem fs_rdfile_found (s : State) (name : List Char) (i : Nat)
    (hfirst : first_file_at s name i) :
    (fs_rdfile s name).vga.out = s.vga.out ++ (content (child s i) ++ "\n".toList) ∧
    fs_rdfile s name = { s with vga := (fs_rdfile s name).vga } := by
  have e : cstr "\n".toList = "\n".toList := by simp [cstr, NUL]
  unfold fs_rdfile
  rw [(find_file_some s name i).mpr hfirst]
  refine ⟨?_, rfl⟩
  simp only [vga_write_out, e, content, child]
  cases (deref s ((deref s s.fs_cwd).children i)).data with
  | none => simp
  | some bytes => simp [vga_write_out]

/-- The effect of `fs_rdfile` when the current directory lists no file named `name`. -/
theorem fs_rdfile_missing (s : State) (name : List Char) (h : ∀ j, ¬ file_at s name j) :
    fs_rdfile s name = { s with vga := vga_write s.vga "file was not found.\n".toList } := by
  unfold fs_rdfile
  rw [(find_file_none s name).mpr h]

theorem file_at_after_delfile (s : State) (name : List Char) (i j : Nat)
    (hfirst : first_file_at s name i) (hj : file_at (fs_delfile s name) name j) :
    file_at s name (if j < i then j else j + 1) := by
  obtain ⟨c, hc⟩ := cwd_some_of_child s i hfirst.1.1
  have hi : i < (s.nodes c).child_count := by
    have := hfirst.1.1
    rwa [hc] at this
  obtain ⟨hj1, hj2, hj3⟩ := hj
  unfold child at hj2 hj3
  rw [(fs_delfile_kind_name s name _).1] at hj2
  rw [(fs_delfile_kind_name s name _).2] at hj3
  rw [fs_delfile_found s name i c hfirst hc] at hj1 hj2 hj3
  simp only [hc, deref_some, Function.update_same] at hj1 hj2 hj3
  rw [shift_children_apply _ i _ j hi] at hj2 hj3
  unfold file_at child
  simp only [hc, deref_some]
  by_cases hlt : j < i
  · have hn : ¬ (i ≤ j ∧ j < (s.nodes c).child_count - 1) := by omega
    rw [if_neg hn] at hj2 hj3
    rw [if_pos hlt]
    exact ⟨by omega, hj2, hj3⟩
  · have hy : i ≤ j ∧ j < (s.nodes c).child_count - 1 := by omega
    rw [if_pos hy] at hj2 hj3
    rw [if_neg hlt]
    exact ⟨by omega, hj2, hj3⟩

/-- C9 (amended): after a `fs_delfile(name)` that found and removed a file, when no other file
of the current directory bore that name, an immediately following `fs_rdfile(name)` and an
immediately following `fs_delfile(name)` each write their not-found message and change nothing
else. -/
theorem delfile_then_not_found (s : State) (name : List Char) (i : Nat)
    (hfirst : first_file_at s name i) (huniq : ∀ j, file_at s name j → j = i) :
    (fs_rdfile (fs_delfile s name) name).vga.out =
      (fs_delfile s name).vga.out ++ "file was not found.\n".toList ∧
    (fs_delfile (fs_delfile s name) name).vga.out =
      (fs_delfile s name).vga.out ++ "file was not found\n".toList ∧
    (fs_rdfile (fs_delfile s name) name).nodes = (fs_delfile s name).nodes ∧
    (fs_delfile (fs_delfile s name) name).nodes = (fs_delfile s name).nodes := by
  have hnone : ∀ j, ¬ file_at (fs_delfile s name) name j := by
    intro j hj
    have h := file_at_after_delfile s name i j hfirst hj
    have := huniq _ h
    by_cases hlt : j < i
    · rw [if_pos hlt] at this; omega
    · rw [if_neg hlt] at this; omega
  have e1 : cstr "file was not found.\n".toList = "file was not found.\n".toList := by
    simp [cstr, NUL]
  have e2 : cstr "file was not found\n".toList = "file was not found\n".toList := by
    simp [cstr, NUL]
  rw [fs_rdfile_missing _ name hnone, fs_delfile_missing _ name hnone]
  exact ⟨by rw [vga_write_out, e1], by rw [vga_write_out, e2], rfl, rfl⟩

set_option maxRecDepth 100000 in
/-- C9 (witness): the file `f` of the sample store is the only file of that name. -/
theorem delfile_then_not_found_witness :
    first_file_at sample_store "f".toList 1 ∧
    (∀ j, file_at sample_store "f".toList j → j = 1) ∧
    (fs_rdfile (fs_delfile sample_store "f".toList) "f".toList).vga.out =
      (fs_delfile sample_store "f".toList).vga.out ++ "file was not found.\n".toList :=
  have huniq : ∀ j, file_at sample_store "f".toList j → j = 1 := fun j hj =>
    match j, hj with
    | 0, h => absurd h (by decide)
    | 1, _ => rfl
    | j + 2, h => absurd h.1 (by
        have : (deref sample_store sample_store.fs_cwd).child_count = 2 := by decide
        rw [this]; omega)
  ⟨by decide, huniq,
    (delfile_then_not_found sample_store "f".toList 1 (by decide) huniq).1⟩

set_option maxRecDepth 100000 in
/-- C9 (counterexample): in a store whose root lists two files named `a`, `fs_delfile(a)`
finds and removes the first one, and a following `fs_rdfile(a)` or `fs_delfile(a)` finds the
second one instead of reporting that the file was not found. -/
theorem delfile_twin_still_found :
    first_file_at twin_store "a".toList 0 ∧
    (deref twin_store twin_store.fs_cwd).child_count = 2 ∧
    (deref (fs_delfile twin_store "a".toList)
      (fs_delfile twin_store "a".toList).fs_cwd).child_count = 1 ∧
    (fs_rdfile (fs_delfile twin_store "a".toList) "a".toList).vga.out =
      (fs_delfile twin_store "a".toList).vga.out ++ "\n".toList ∧
    (fs_rdfile (fs_delfile twin_store "a".toList) "a".toList).vga.out ≠
      (fs_delfile twin_store "a".toList).vga.out ++ "file was not found.\n".toList ∧
    (fs_delfile (fs_delfile twin_store "a".toList) "a".toList).vga.out =
      (fs_delfile twin_store "a".toList).vga.out ++ "\nmade file: a\n".toList ∧
    (fs_delfile (fs_delfile twin_store "a".toList) "a".toList).vga.out ≠
      (fs_delfile twin_store "a".toList).vga.out ++ "file was not found\n".toList := by
  decide

/-- A node fresh from `fs_create_node` has no content buffer. -/
theorem created_data_none (name : List Char) (k : Int) : (created name k).data = none := rfl

/-- C7 (amended): `fs_rdfile(name)` shows the first file of the current directory whose stored
name is `name`: for a file that has no content buffer (never committed from edit mode) it
writes only the newline, which is not the not-found message; in general it writes the content
of that first file and a newline; and when the current directory lists no file of that name
(directories of that name do not count) it writes "file was not found.". -/
theorem rdfile_outcome (s : State) (name : List Char) :
    (∀ i, first_file_at s name i → (child s i).data = none →
      (fs_rdfile s name).vga.out = s.vga.out ++ "\n".toList ∧
      (fs_rdfile s name).vga.out ≠ s.vga.out ++ "file was not found.\n".toList) ∧
    (∀ i, first_file_at s name i →
      (fs_rdfile s name).vga.out = s.vga.out ++ (content (child s i) ++ "\n".toList)) ∧
    ((∀ j, ¬ file_at s name j) →
      (fs_rdfile s name).vga.out = s.vga.out ++ "file was not found.\n".toList) := by
  refine ⟨fun i hfirst hdata => ?_, fun i hfirst => (fs_rdfile_found s name i hfirst).1,
    fun hnone => ?_⟩
  · have h := (fs_rdfile_found s name i hfirst).1
    simp only [content, hdata, List.nil_append] at h
    refine ⟨h, ?_⟩
    rw [h]
    intro heq
    have := List.append_cancel_left heq
    revert this
    decide
  · have e : cstr "file was not found.\n".toList = "file was not found.\n".toList := by
      simp [cstr, NUL]
    rw [fs_rdfile_missing s name hnone, vga_write_out, e]

set_option maxRecDepth 100000 in
/-- C7 (witness): the file `f` of the sample store was created by `fs_mkfile` and never
edited; the sample store lists no file named `d`, only a directory. -/
theorem rdfile_outcome_witness :
    first_file_at sample_store "f".toList 1 ∧ (child sample_store 1).data = none ∧
    (fs_rdfile sample_store "f".toList).vga.out = sample_store.vga.out ++ "\n".toList ∧
    (∀ j, ¬ file_at sample_store "d".toList j) ∧
    (fs_rdfile sample_store "d".toList).vga.out =
      sample_store.vga.out ++ "file was not found.\n".toList :=
  have hnone : ∀ j, ¬ file_at sample_store "d".toList j := fun j hj =>
    match j, hj with
    | 0, h => absurd h (by decide)
    | 1, h => absurd h (by decide)
    | j + 2, h => absurd h.1 (by
        have : (deref sample_store sample_store.fs_cwd).child_count = 2 := by decide
        rw [this]; omega)
  ⟨by decide, by decide,
    ((rdfile_outcome sample_store "f".toList).1 1 (by decide) (by decide)).1,
    hnone, (rdfile_outcome sample_store "d".toList).2.2 hnone⟩

set_option maxRecDepth 100000 in
/-- C7 (counterexample): the second child of this store is a file named `a` created by
`fs_mkfile` and never committed, yet `fs_rdfile(a)` writes `x`, the content of the earlier file
of the same name; and a file created with a name of 32 characters is not found under that
name. -/
theorem rdfile_shows_other_file :
    file_at edited_twin_store "a".toList 1 ∧ (child edited_twin_store 1).data = none ∧
    (fs_rdfile edited_twin_store "a".toList).vga.out =
      edited_twin_store.vga.out ++ "x\n".toList ∧
    (fs_rdfile edited_twin_store "a".toList).vga.out ≠
      edited_twin_store.vga.out ++ "\n".toList ∧
    (fs_rdfile (fs_mkfile (fs_init boot) long_name) long_name).vga.out =
      (fs_mkfile (fs_init boot) long_name).vga.out ++ "file was not found.\n".toList := by
  decide

/-! ## Editing a file -/

theorem handle_command_edfile (s : State) (f : List Char) :
    handle_command s ("edfile ".toList ++ f) =
      ({ fs_edfile_start { s with vga := vga_set_color s.vga 1 7 } f with
          vga := vga_set_color
            (fs_edfile_start { s with vga := vga_set_color s.vga 1 7 } f).vga 0 7 },
        Control.returns) := by
  have h1 : strncmp ("edfile ".toList ++ f) "help".toList 5 ≠ 0 := by
    simp [strncmp, NUL]
  have h2 : strncmp ("edfile ".toList ++ f) "\n".toList 1 ≠ 0 := by
    simp [strncmp, NUL]
  have h3 : strncmp ("edfile ".toList ++ f) "vgatest".toList 8 ≠ 0 := by
    simp [strncmp, NUL]
  have h4 : strncmp ("edfile ".toList ++ f) "edfile ".toList 7 = 0 := by
    simp [strncmp, NUL]
  have h5 : ("edfile ".toList ++ f).drop 7 = f := by simp
  unfold handle_command
  rw [if_neg h1, if_neg h2, if_neg h3, if_pos h4, h5]

/-- Two states that agree on the current directory and on the kind, name and children of
every node list the same files. -/
theorem file_at_congr (s t : State) (name : List Char) (hcwd : t.fs_cwd = s.fs_cwd)
    (h : ∀ p, (deref t p).is_dir = (deref s p).is_dir ∧ (deref t p).name = (deref s p).name ∧
      (deref t p).children = (deref s p).children ∧
      (deref t p).child_count = (deref s p).child_count) (i : Nat) :
    file_at t name i ↔ file_at s name i := by
  unfold file_at child
  rw [hcwd, (h s.fs_cwd).2.2.1, (h s.fs_cwd).2.2.2, (h _).1, (h _).2.1]

theorem first_file_at_congr (s t : State) (name : List Char) (hcwd : t.fs_cwd = s.fs_cwd)
    (h : ∀ p, (deref t p).is_dir = (deref s p).is_dir ∧ (deref t p).name = (deref s p).name ∧
      (deref t p).children = (deref s p).children ∧
      (deref t p).child_count = (deref s p).child_count) (i : Nat) :
    first_file_at t name i ↔ first_file_at s name i := by
  unfold first_file_at
  rw [file_at_congr s t name hcwd h i]
  constructor
  · rintro ⟨h1, h2⟩
    exact ⟨h1, fun j hj hf => h2 j hj ((file_at_congr s t name hcwd h j).mpr hf)⟩
  · rintro ⟨h1, h2⟩
    exact ⟨h1, fun j hj hf => h2 j hj ((file_at_congr s t name hcwd h j).mp hf)⟩

/-- The effect of `fs_edfile_start` when the first file named `name` is the `i`-th child. -/
theorem fs_edfile_start_found (s : State) (name : List Char) (i : Nat)
    (hfirst : first_file_at s name i) :
    fs_edfile_start s name =
      { s with
        fs_edit_mode := 1
        fs_edit_file := (deref s s.fs_cwd).children i
        fs_edit_pos := 0
        vga := vga_write (vga_write s.vga "\n-- editing --\n".toList)
          "TAB = save & leave\n".toList } := by
  unfold fs_edfile_start
  rw [(find_file_some s name i).mpr hfirst]

/-- An ordinary character in file-edit mode, with room in the edit buffer. -/
theorem read_edit_char (s : State) (c : Char) (hmode : s.fs_edit_mode ≠ 0)
    (htab : c ≠ '\t') (hbs : c ≠ '\x08') (hpos : s.fs_edit_pos < 1023) :
    read_input_char s c =
      ({ s with
          fs_edit_buffer := Function.update s.fs_edit_buffer s.fs_edit_pos c
          fs_edit_pos := s.fs_edit_pos + 1
          vga := vga_putc s.vga c }, Control.returns) := by
  have h : s.fs_edit_pos < sizeof_fs_edit_buffer - 1 := hpos
  unfold read_input_char
  rw [if_pos hmode, if_neg htab, if_neg hbs, if_pos h]

/-- The commit character in file-edit mode. -/
theorem read_edit_commit (s : State) (a : Nat) (hmode : s.fs_edit_mode ≠ 0)
    (hfile : s.fs_edit_file = some a) :
    read_input_char s '\t' =
      ({ s with
          fs_edit_buffer := Function.update s.fs_edit_buffer s.fs_edit_pos NUL
          heap_pos := (s.heap_pos + (s.fs_edit_pos + 1)) % 4294967296
          overrun := s.overrun || past_heap s.heap_pos (s.fs_edit_pos + 1)
          nodes := Function.update s.nodes a
            { s.nodes a with
              data := some (array_bytes (Function.update s.fs_edit_buffer s.fs_edit_pos NUL)
                (s.fs_edit_pos + 1))
              size := s.fs_edit_pos }
          fs_edit_mode := 0
          fs_edit_file := none
          vga := vga_write (vga_write s.vga "\n-- SAVED --\n".toList) "[ibant]> ".toList },
        Control.returns) := by
  unfold read_input_char
  rw [if_pos hmode]
  simp [kmalloc, store, hfile]

/-- Feeding ordinary characters in file-edit mode appends them to the edit buffer and touches
neither the node table nor the mode. -/
theorem feed_edit (text : List Char) (s : State) (hmode : s.fs_edit_mode ≠ 0)
    (hchars : ∀ c, c ∈ text → c ≠ '\t' ∧ c ≠ '\x08')
    (hlen : s.fs_edit_pos + text.length ≤ 1023) :
    ∃ t, feed s text = some t ∧ t.fs_edit_mode = s.fs_edit_mode ∧
      t.fs_edit_file = s.fs_edit_file ∧ t.fs_edit_pos = s.fs_edit_pos + text.length ∧
      t.nodes = s.nodes ∧ t.fs_cwd = s.fs_cwd ∧ t.heap_pos = s.heap_pos ∧
      t.vga.out = s.vga.out ++ text ∧
      (∀ k, k < s.fs_edit_pos → t.fs_edit_buffer k = s.fs_edit_buffer k) ∧
      (∀ k (h : k < text.length), t.fs_edit_buffer (s.fs_edit_pos + k) = text.get ⟨k, h⟩) := by
  induction text generalizing s with
  | nil =>
    exact ⟨s, rfl, rfl, rfl, rfl, rfl, rfl, rfl, by simp, fun _ _ => rfl,
      fun k h => absurd h (by simp)⟩
  | cons c text ih =>
    simp only [List.length_cons] at hlen
    have hc := hchars c (by simp)
    have hstep := read_edit_char s c hmode hc.1 hc.2 (by omega)
    obtain ⟨t, ht, h1, h2, h3, h4, h5, h6, h7, h8, h9⟩ :=
      ih (read_input_char s c).1 (by rw [hstep]; exact hmode)
        (fun d hd => hchars d (by simp [hd])) (by rw [hstep]; simp only; omega)
    rw [hstep] at ht h1 h2 h3 h4 h5 h6 h7 h8 h9
    simp only at h1 h2 h3 h4 h5 h6 h7 h8 h9
    refine ⟨t, ?_, h1, h2, ?_, h4, h5, h6, ?_, ?_, ?_⟩
    · simp only [feed, hstep]
      exact ht
    · rw [h3, List.length_cons]; omega
    · rw [h7, vga_putc_out]; simp
    · intro k hk
      rw [h8 k (by omega), Function.update_noteq (by omega)]
    · intro k hk
      cases k with
      | zero =>
        rw [Nat.add_zero, h8 _ (by omega), Function.update_same]
        rfl
      | succ k =>
        simp only [List.length_cons, Nat.add_lt_add_iff_right] at hk
        have := h9 k hk
        rw [show s.fs_edit_pos + (k + 1) = s.fs_edit_pos + 1 + k by omega, this]
        rfl

theorem array_bytes_terminated (buf : Nat → Char) (text : List Char)
    (h : ∀ k (hk : k < text.length), buf k = text.get ⟨k, hk⟩) :
    array_bytes (Function.update buf text.length NUL) (text.length + 1) = text ++ [NUL] := by
  unfold array_bytes
  rw [List.range_succ, List.map_append]
  congr 1
  · apply List.ext_getElem
    · simp
    · intro k h1 h2
      simp only [List.length_map, List.length_range] at h1
      have hne : k ≠ text.length := by omega
      simp [Function.update_apply, hne, h k h1]
  · simp

theorem past_heap_false (start size : Nat) (h : start + size ≤ sizeof_heap) :
    past_heap start size = false := by
  unfold past_heap
  exact decide_eq_false (Nat.not_lt_of_le h)

theorem past_heap_true (start size : Nat) (h : sizeof_heap < start + size) :
    past_heap start size = true := by
  unfold past_heap
  exact decide_eq_true h

/-- A region flagged by no overrun lies inside the arena. -/
theorem fits_of_no_overrun (b : Bool) (start size : Nat)
    (h : (b || past_heap start size) = false) : b = false ∧ start + size ≤ sizeof_heap := by
  rw [Bool.or_eq_false_iff] at h
  refine ⟨h.1, ?_⟩
  have h2 := h.2
  unfold past_heap at h2
  exact Nat.le_of_not_lt (of_decide_eq_false h2)

/-- Feeding ordinary characters in file-edit mode writes nothing to the arena. -/
theorem feed_edit_overrun (text : List Char) (s : State) (hmode : s.fs_edit_mode ≠ 0)
    (hchars : ∀ c, c ∈ text → c ≠ '\t' ∧ c ≠ '\x08')
    (hlen : s.fs_edit_pos + text.length ≤ 1023) (t : State) (ht : feed s text = some t) :
    t.overrun = s.overrun := by
  induction text generalizing s with
  | nil =>
    simp only [feed, Option.some.injEq] at ht
    rw [← ht]
  | cons c text ih =>
    simp only [List.length_cons] at hlen
    have hc := hchars c (by simp)
    have hstep := read_edit_char s c hmode hc.1 hc.2 (by omega)
    simp only [feed, hstep] at ht
    have := ih _ (by simpa using hmode) (fun d hd => hchars d (by simp [hd]))
      (by simp only; omega) ht
    rw [this]

/-- C6 (amended): edit/read round trip inside the arena.  For a file named `f` listed in the
current directory (every listed child pointer being a node) and a text of at most 1023
characters without NUL, TAB or backspace that fits with its terminator into what is left of
the arena: dispatching `edfile f` returns, feeding the text to `read_input_char` returns at
every character, feeding TAB returns with the editor back in command-entry mode,
`fs_rdfile(f)` then writes exactly the text followed by the newline, and no write has left
the arena. -/
theorem edit_read_round_trip (s : State) (f text : List Char)
    (hfile : ∃ j, file_at s f j)
    (hptr : ∀ j, j < (deref s s.fs_cwd).child_count → (deref s s.fs_cwd).children j ≠ none)
    (hlen : text.length ≤ 1023)
    (hchars : ∀ c, c ∈ text → c ≠ NUL ∧ c ≠ '\t' ∧ c ≠ '\x08')
    (hroom : s.heap_pos + (text.length + 1) ≤ sizeof_heap) :
    ∃ s1 s2 s3,
      handle_command s ("edfile ".toList ++ f) = (s1, Control.returns) ∧
      s1.fs_edit_mode = 1 ∧
      feed s1 text = some s2 ∧
      read_input_char s2 '\t' = (s3, Control.returns) ∧
      s3.fs_edit_mode = 0 ∧
      (fs_rdfile s3 f).vga.out = s3.vga.out ++ (text ++ "\n".toList) ∧
      s3.heap_pos = s.heap_pos + (text.length + 1) ∧
      s3.overrun = s.overrun := by
  obtain ⟨i, hfirst⟩ := first_file_exists s f hfile
  obtain ⟨a, ha⟩ := Option.ne_none_iff_exists'.mp (hptr i hfirst.1.1)
  have hfirst0 : first_file_at { s with vga := vga_set_color s.vga 1 7 } f i :=
    (first_file_at_congr s _ f rfl (fun p => by simp) i).mpr hfirst
  have hs1 := handle_command_edfile s f
  rw [fs_edfile_start_found _ f i hfirst0] at hs1
  simp only [deref_vga, ha] at hs1
  obtain ⟨s2, hfeed, h1, h2, h3, h4, h5, h6, _, _, h9⟩ := feed_edit text
    (handle_command s ("edfile ".toList ++ f)).1 (by rw [hs1]; simp)
    (fun c hc => (hchars c hc).2) (by rw [hs1]; simpa using hlen)
  have hov : s2.overrun = s.overrun := by
    rw [feed_edit_overrun text (handle_command s ("edfile ".toList ++ f)).1 (by rw [hs1]; simp)
      (fun c hc => (hchars c hc).2) (by rw [hs1]; simpa using hlen) s2 hfeed, hs1]
  rw [hs1] at hfeed h1 h2 h3 h4 h5 h6 h9
  simp only [Nat.zero_add] at h1 h2 h3 h4 h5 h6 h9
  have hcommit := read_edit_commit s2 a (by rw [h1]; decide) h2
  rw [h3, array_bytes_terminated s2.fs_edit_buffer text h9] at hcommit
  have hn : (read_input_char s2 '\t').1.nodes = Function.update s.nodes a
      { s.nodes a with data := some (text ++ [NUL]), size := text.length } := by
    rw [hcommit, h4]
  have hcw : (read_input_char s2 '\t').1.fs_cwd = s.fs_cwd := by rw [hcommit]; exact h5
  have hm : (read_input_char s2 '\t').1.fs_edit_mode = 0 := by rw [hcommit]
  have hret : read_input_char s2 '\t' = ((read_input_char s2 '\t').1, Control.returns) := by
    rw [hcommit]
  have hheap : (read_input_char s2 '\t').1.heap_pos = s.heap_pos + (text.length + 1) := by
    rw [hcommit]
    show (s2.heap_pos + (text.length + 1)) % 4294967296 = _
    rw [h6]
    exact Nat.mod_eq_of_lt (Nat.lt_of_le_of_lt hroom (by decide))
  have hover : (read_input_char s2 '\t').1.overrun = s.overrun := by
    rw [hcommit]
    show (s2.overrun || past_heap s2.heap_pos (text.length + 1)) = s.overrun
    rw [hov, h6, past_heap_false _ _ hroom, Bool.or_false]
  refine ⟨_, s2, (read_input_char s2 '\t').1, hs1, rfl, hfeed, hret, hm, ?_, hheap, hover⟩
  generalize (read_input_char s2 '\t').1 = s3 at hn hcw
  have hsame : ∀ p, (deref s3 p).is_dir = (deref s p).is_dir ∧
      (deref s3 p).name = (deref s p).name ∧ (deref s3 p).children = (deref s p).children ∧
      (deref s3 p).child_count = (deref s p).child_count := by
    intro p
    cases p with
    | none => simp
    | some b =>
      simp only [deref_some, hn]
      by_cases hb : b = a
      · subst hb; simp
      · simp [Function.update_noteq hb]
  have hfirst3 : first_file_at s3 f i := (first_file_at_congr s s3 f hcw hsame i).mpr hfirst
  rw [(fs_rdfile_found s3 f i hfirst3).1]
  congr 2
  simp only [child, hcw]
  rw [(hsame s.fs_cwd).2.2.1, ha]
  simp only [deref_some, hn, Function.update_same, content]
  exact cstr_append_nul text [] (fun h => (hchars NUL h).1 rfl)

set_option maxRecDepth 100000 in
/-- C6 (witness): editing the file `f` of the sample store with the text `hi`. -/
theorem edit_read_round_trip_witness :
    (∃ j, file_at sample_store "f".toList j) ∧
    (∀ j, j < (deref sample_store sample_store.fs_cwd).child_count →
      (deref sample_store sample_store.fs_cwd).children j ≠ none) ∧
    "hi".toList.length ≤ 1023 ∧
    (∀ c, c ∈ "hi".toList → c ≠ NUL ∧ c ≠ '\t' ∧ c ≠ '\x08') ∧
    sample_store.heap_pos + ("hi".toList.length + 1) ≤ sizeof_heap ∧
    ∃ s1 s2 s3,
      handle_command sample_store ("edfile ".toList ++ "f".toList) = (s1, Control.returns) ∧
      s1.fs_edit_mode = 1 ∧
      feed s1 "hi".toList = some s2 ∧
      read_input_char s2 '\t' = (s3, Control.returns) ∧
      s3.fs_edit_mode = 0 ∧
      (fs_rdfile s3 "f".toList).vga.out = s3.vga.out ++ ("hi".toList ++ "\n".toList) ∧
      s3.heap_pos = sample_store.heap_pos + ("hi".toList.length + 1) ∧
      s3.overrun = sample_store.overrun :=
  ⟨⟨1, by decide⟩, by decide, by decide, by decide, by decide,
    edit_read_round_trip sample_store "f".toList "hi".toList ⟨1, by decide⟩ (by decide)
      (by decide) (by decide) (by decide)⟩

set_option maxRecDepth 100000 in
/-- C6 (counterexample): the sample store with the arena offset at 65535, one byte before
the end of the arena.  The file `f` is listed and `hi` is an admissible text, but the
commit copies its three bytes to the offsets 65535 to 65537: the write leaves the arena. -/
theorem edit_past_arena :
    (∃ j, file_at nearly_full_store "f".toList j) ∧
    nearly_full_store.heap_pos = 65535 ∧ sizeof_heap = 65536 ∧
    nearly_full_store.overrun = false ∧
    (read_input_char
      ("hi".toList.foldl (fun s c => (read_input_char s c).1)
        (handle_command nearly_full_store "edfile f".toList).1) '\t').1.overrun = true :=
  ⟨⟨1, by decide⟩, by decide, by decide, by decide, by decide⟩

/-! ## The segment loop of `fs_cd` -/

theorem fs_cd_name_append (p : List Char) (i : Nat) :
    (fs_cd_name p i).1 ++ (fs_cd_name p i).2 = p := by
  induction p generalizing i with
  | nil => rfl
  | cons c p ih =>
    unfold fs_cd_name
    split_ifs
    · simp [ih]
    · rfl

theorem fs_cd_name_rest_length (p : List Char) (i : Nat) :
    (fs_cd_name p i).2.length ≤ p.length := by
  have h := congrArg List.length (fs_cd_name_append p i)
  simp only [List.length_append] at h
  omega

theorem skip_slash_length (p : List Char) : (skip_slash p).length ≤ p.length := by
  unfold skip_slash
  split_ifs <;> simp

theorem walk_up_shorter (path : List Char) (h : charAt path 0 ≠ NUL) :
    (skip_slash (path.drop 2)).length < path.length := by
  cases path with
  | nil => simp at h
  | cons c path =>
    have := skip_slash_length (List.drop 2 (c :: path))
    simp only [List.length_drop, List.length_cons] at this ⊢
    omega

theorem walk_name_shorter (path : List Char) (h : charAt path 0 ≠ NUL) :
    (skip_slash (fs_cd_name path 0).2).length < path.length := by
  cases path with
  | nil => simp at h
  | cons c path =>
    simp only [charAt_cons_zero] at h
    by_cases hs : c = '/'
    · subst hs
      simp [fs_cd_name, skip_slash]
    · have h31 : 0 < MAX_NAME_LEN - 1 := by decide
      have hrest : (fs_cd_name (c :: path) 0).2 = (fs_cd_name path (0 + 1)).2 := by
        simp [fs_cd_name, h, hs, h31]
      rw [hrest]
      have h1 := skip_slash_length (fs_cd_name path (0 + 1)).2
      have h2 := fs_cd_name_rest_length path (0 + 1)
      simp only [List.length_cons]
      omega

/-- With more fuel than the path is long, the result of the loop does not depend on the
fuel. -/
theorem walk_fuel (s : State) (n m : Nat) (cur : Option Nat) (path : List Char)
    (hn : path.length < n) (hm : path.length < m) :
    fs_cd_walk s n cur path = fs_cd_walk s m cur path := by
  induction n generalizing m cur path with
  | zero => omega
  | succ n ih =>
    cases m with
    | zero => omega
    | succ m =>
      unfold fs_cd_walk
      by_cases h0 : charAt path 0 = NUL
      · simp [h0]
      · simp only [if_neg h0]
        split_ifs
        · have := walk_up_shorter path h0
          exact ih m _ _ (by omega) (by omega)
        · have := walk_name_shorter path h0
          cases find_child s cur (is_dir_named (fs_cd_name path 0).1) with
          | none => rfl
          | some j => exact ih m _ _ (by omega) (by omega)

/-- The loop of `fs_cd` ends: with more fuel than the path is long, the fuel is not used up. -/
theorem walk_terminates (s : State) (n : Nat) (cur : Option Nat) (path : List Char)
    (hn : path.length < n) : fs_cd_walk s n cur path ≠ Walk.fuel_out := by
  induction n generalizing cur path with
  | zero => omega
  | succ n ih =>
    unfold fs_cd_walk
    by_cases h0 : charAt path 0 = NUL
    · simp [h0]
    · simp only [if_neg h0]
      split_ifs
      · have := walk_up_shorter path h0
        exact ih _ _ (by omega)
      · have := walk_name_shorter path h0
        cases find_child s cur (is_dir_named (fs_cd_name path 0).1) with
        | none => simp
        | some j => exact ih _ _ (by omega)
theorem slash_ended_suffix (p q : List Char) (hp : slash_ended p) (hq : q <:+ p) :
    slash_ended q := by
  cases q with
  | nil => exact Or.inl rfl
  | cons c q =>
    obtain ⟨x, rfl⟩ := hq
    rcases hp with hp | hp
    · simp at hp
    · right
      rw [List.getLast?_append] at hp
      cases h : (c :: q).getLast? with
      | none => simp at h
      | some d => rw [h] at hp; simpa using hp

theorem slash_mem_of_ended (p : List Char) (hp : slash_ended p) (hne : p ≠ []) : '/' ∈ p := by
  rcases hp with hp | hp
  · exact absurd hp hne
  · obtain ⟨ys, rfl⟩ := List.getLast?_eq_some_iff.mp hp
    simp

theorem skip_slash_suffix (p : List Char) : skip_slash p <:+ p := by
  unfold skip_slash
  split_ifs
  · exact List.drop_suffix 1 p
  · exact List.suffix_refl p

theorem skip_slash_append (p r : List Char) (hp : p ≠ []) :
    skip_slash (p ++ r) = skip_slash p ++ r := by
  cases p with
  | nil => exact absurd rfl hp
  | cons c p =>
    unfold skip_slash
    simp only [List.cons_append, charAt_cons_zero]
    split_ifs <;> simp

theorem fs_cd_name_suffix (p : List Char) (i : Nat) : (fs_cd_name p i).2 <:+ p :=
  ⟨(fs_cd_name p i).1, fs_cd_name_append p i⟩

/-- The name loop stops inside a prefix that contains a separator. -/
theorem fs_cd_name_prefix (p r : List Char) (i : Nat) (hp : '/' ∈ p) :
    fs_cd_name (p ++ r) i = ((fs_cd_name p i).1, (fs_cd_name p i).2 ++ r) ∧
    (fs_cd_name p i).2 ≠ [] := by
  induction p generalizing i with
  | nil => simp at hp
  | cons c p ih =>
    by_cases hc : c ≠ NUL ∧ c ≠ '/' ∧ i < MAX_NAME_LEN - 1
    · have hp2 : '/' ∈ p := by
        rcases List.mem_cons.mp hp with h | h
        · exact absurd h.symm hc.2.1
        · exact h
      obtain ⟨h1, h2⟩ := ih (i + 1) hp2
      simp only [List.cons_append, fs_cd_name, if_pos hc, List.append_eq]
      rw [h1]
      exact ⟨rfl, h2⟩
    · simp only [List.cons_append, fs_cd_name, if_neg hc, List.append_eq]
      exact ⟨trivial, by simp⟩

theorem strncmp_dotdot (p : List Char) :
    strncmp p "..".toList 2 = 0 ↔ ∃ q, p = '.' :: '.' :: q := by
  have hd : ('.' : Char) ≠ NUL := by decide
  cases p with
  | nil => simp [strncmp, NUL]
  | cons c p =>
    by_cases hc : c = '.'
    · subst hc
      cases p with
      | nil => simp [strncmp, NUL]
      | cons d p =>
        by_cases hd2 : d = '.'
        · subst hd2
          simp [strncmp, NUL]
        · have : ¬ ((d.toNat : Int) - ('.'.toNat : Int) = 0) :=
            fun h => hd2 ((char_sub_eq_zero d '.').mp h)
          simp [strncmp, NUL, hd2]
          exact this
    · have : ¬ ((c.toNat : Int) - ('.'.toNat : Int) = 0) :=
        fun h => hc ((char_sub_eq_zero c '.').mp h)
      simp [strncmp, hc]
      exact this
theorem walk_end (s : State) (n : Nat) (cur : Option Nat) (path : List Char)
    (h0 : charAt path 0 = NUL) : fs_cd_walk s (n + 1) cur path = Walk.reached cur := by
  rw [fs_cd_walk, if_pos h0]

theorem walk_step_up (s : State) (n : Nat) (cur : Option Nat) (path : List Char)
    (h0 : charAt path 0 ≠ NUL) (hup : strncmp path "..".toList 2 = 0) :
    fs_cd_walk s (n + 1) cur path =
      fs_cd_walk s n (deref s cur).parent (skip_slash (path.drop 2)) := by
  rw [fs_cd_walk, if_neg h0, if_pos hup]

theorem walk_step_found (s : State) (n : Nat) (cur : Option Nat) (path : List Char) (j : Nat)
    (h0 : charAt path 0 ≠ NUL) (hup : strncmp path "..".toList 2 ≠ 0)
    (hj : find_child s cur (is_dir_named (fs_cd_name path 0).1) = some j) :
    fs_cd_walk s (n + 1) cur path =
      fs_cd_walk s n ((deref s cur).children j) (skip_slash (fs_cd_name path 0).2) := by
  rw [fs_cd_walk, if_neg h0, if_neg hup, hj]

theorem walk_step_missing (s : State) (n : Nat) (cur : Option Nat) (path : List Char)
    (h0 : charAt path 0 ≠ NUL) (hup : strncmp path "..".toList 2 ≠ 0)
    (hj : find_child s cur (is_dir_named (fs_cd_name path 0).1) = none) :
    fs_cd_walk s (n + 1) cur path = Walk.missing := by
  rw [fs_cd_walk, if_neg h0, if_neg hup, hj]

/-- Walking a path that starts with whole segments: the segments are walked first, the rest of
the path from the node they reach. -/
theorem walk_append (s : State) (n : Nat) :
    ∀ (pre rest : List Char) (cur : Option Nat), pre.length ≤ n → slash_ended pre → NUL ∉ pre →
      fs_cd_walk s ((pre ++ rest).length + 1) cur (pre ++ rest) =
        (fs_cd_walk s (pre.length + 1) cur pre).andThen
          (fun d => fs_cd_walk s (rest.length + 1) d rest) := by
  induction n with
  | zero =>
    intro pre rest cur hlen _ _
    have : pre = [] := List.length_eq_zero.mp (by omega)
    subst this
    simp [walk_end, Walk.andThen]
  | succ n ih =>
    intro pre rest cur hlen hend hnul
    cases hpre : pre with
    | nil => simp [walk_end, Walk.andThen]
    | cons c p =>
      rw [← hpre]
      have hne : pre ≠ [] := by rw [hpre]; simp
      have hc : c ≠ NUL := fun e => hnul (by rw [hpre, e]; simp)
      have h0 : charAt pre 0 ≠ NUL := by rw [hpre]; simpa using hc
      have h0' : charAt (pre ++ rest) 0 ≠ NUL := by rw [hpre]; simpa using hc
      have hlast : pre.getLast? = some '/' := hend.resolve_left hne
      by_cases hup : strncmp pre "..".toList 2 = 0
      · obtain ⟨q, hq⟩ := (strncmp_dotdot pre).mp hup
        have hup' : strncmp (pre ++ rest) "..".toList 2 = 0 :=
          (strncmp_dotdot _).mpr ⟨q ++ rest, by rw [hq]; rfl⟩
        have hqne : q ≠ [] := by
          intro e
          rw [hq, e] at hlast
          revert hlast
          decide
        have hsuf : skip_slash q <:+ pre :=
          (skip_slash_suffix q).trans ⟨['.', '.'], by rw [hq]; rfl⟩
        have hq2 : (skip_slash q).length < pre.length := by
          have := (skip_slash_suffix q).length_le
          rw [hq]
          simp only [List.length_cons]
          omega
        rw [walk_step_up s _ cur (pre ++ rest) h0' hup', walk_step_up s _ cur pre h0 hup]
        have hd1 : List.drop 2 (pre ++ rest) = q ++ rest := by rw [hq]; rfl
        have hd2 : List.drop 2 pre = q := by rw [hq]; rfl
        rw [hd1, hd2, skip_slash_append q rest hqne]
        rw [walk_fuel s (pre ++ rest).length ((skip_slash q ++ rest).length + 1) _ _
          (by simp only [List.length_append]; omega) (by omega)]
        rw [walk_fuel s pre.length ((skip_slash q).length + 1) _ _ hq2 (by omega)]
        exact ih (skip_slash q) rest _ (by omega) (slash_ended_suffix pre _ hend hsuf)
          (fun h => hnul (hsuf.subset h))
      · have hup' : strncmp (pre ++ rest) "..".toList 2 ≠ 0 := by
          intro h
          obtain ⟨q, hq⟩ := (strncmp_dotdot _).mp h
          apply hup
          rw [strncmp_dotdot]
          cases p with
          | nil =>
            rw [hpre] at hlast hq
            simp only [List.getLast?_singleton, Option.some.injEq] at hlast
            simp only [List.singleton_append, List.cons.injEq] at hq
            rw [hlast] at hq
            exact absurd hq.1 (by decide)
          | cons d p =>
            rw [hpre] at hq ⊢
            simp only [List.cons_append, List.cons.injEq] at hq
            exact ⟨p, by rw [hq.1, hq.2.1]⟩
        obtain ⟨hnm, hrest⟩ := fs_cd_name_prefix pre rest 0 (slash_mem_of_ended pre hend hne)
        have hsuf : skip_slash (fs_cd_name pre 0).2 <:+ pre :=
          (skip_slash_suffix _).trans (fs_cd_name_suffix pre 0)
        have hq2 := walk_name_shorter pre h0
        cases hfind : find_child s cur (is_dir_named (fs_cd_name pre 0).1) with
        | none =>
          rw [walk_step_missing s _ cur (pre ++ rest) h0' hup' (by rw [hnm]; exact hfind),
            walk_step_missing s _ cur pre h0 hup hfind]
          rfl
        | some j =>
          rw [walk_step_found s _ cur (pre ++ rest) j h0' hup' (by rw [hnm]; exact hfind),
            walk_step_found s _ cur pre j h0 hup hfind]
          rw [hnm]
          simp only
          rw [skip_slash_append _ rest hrest]
          rw [walk_fuel s (pre ++ rest).length
            ((skip_slash (fs_cd_name pre 0).2 ++ rest).length + 1) _ _
            (by simp only [List.length_append]; omega) (by omega)]
          rw [walk_fuel s pre.length ((skip_slash (fs_cd_name pre 0).2).length + 1) _ _ hq2
            (by omega)]
          exact ih _ rest _ (by omega) (slash_ended_suffix pre _ hend hsuf)
            (fun h => hnul (hsuf.subset h))
theorem fs_cd_eq (s : State) (path : List Char) :
    fs_cd s path =
      match fs_cd_walk s ((cd_body path).length + 1) (cd_start s path) (cd_body path) with
      | Walk.reached c => { s with fs_cwd := c }
      | Walk.missing => { s with vga := vga_write s.vga "folder/dir doesnt exist\n".toList }
      | Walk.fuel_out => s := rfl

theorem strncmp_tilde (p : List Char) :
    strncmp p "~".toList 1 = 0 ↔ ∃ q, p = '~' :: q := by
  cases p with
  | nil => simp [strncmp, NUL]
  | cons c p =>
    by_cases hc : c = '~'
    · subst hc
      simp [strncmp, NUL]
    · have : ¬ ((c.toNat : Int) - ('~'.toNat : Int) = 0) :=
        fun h => hc ((char_sub_eq_zero c '~').mp h)
      simp [strncmp, hc]
      exact this

theorem find_dir_none (s : State) (dir : Option Nat) (name : List Char) :
    find_child s dir (is_dir_named name) = none ↔ ∀ j, ¬ dir_at s dir name j := by
  unfold find_child dir_at
  rw [find_range_none]
  constructor
  · intro h j hdir
    have := h j hdir.1
    rw [← Bool.not_eq_true, is_dir_named_iff] at this
    exact this hdir.2
  · intro h j hj
    rw [← Bool.not_eq_true, is_dir_named_iff]
    intro hdir
    exact h j ⟨hj, hdir⟩

theorem find_dir_some (s : State) (dir : Option Nat) (name : List Char) (i : Nat) :
    find_child s dir (is_dir_named name) = some i ↔
      dir_at s dir name i ∧ ∀ j, j < i → ¬ dir_at s dir name j := by
  unfold find_child dir_at
  rw [find_range_some]
  simp only [is_dir_named_iff]
  constructor
  · rintro ⟨h1, h2, h3⟩
    refine ⟨⟨h1, h2⟩, fun j hj hdir => ?_⟩
    have := h3 j hj
    rw [← Bool.not_eq_true, is_dir_named_iff] at this
    exact this hdir.2
  · rintro ⟨⟨h1, h2⟩, h3⟩
    refine ⟨h1, h2, fun j hj => ?_⟩
    rw [← Bool.not_eq_true, is_dir_named_iff]
    intro hdir
    exact h3 j hj ⟨by omega, hdir⟩

/-- The name loop reads a whole segment of at most 31 characters. -/
theorem fs_cd_name_exact (name post : List Char) (i : Nat)
    (hplain : ∀ c, c ∈ name → c ≠ NUL ∧ c ≠ '/') (hlen : name.length + i ≤ 31)
    (hpost : post = [] ∨ post.head? = some '/' ∨ post.head? = some NUL) :
    fs_cd_name (name ++ post) i = (name, post) := by
  induction name generalizing i with
  | nil =>
    cases post with
    | nil => rfl
    | cons c post =>
      have hc : ¬ (c ≠ NUL ∧ c ≠ '/' ∧ i < MAX_NAME_LEN - 1) := by
        rcases hpost with h | h | h
        · simp at h
        · simp only [List.head?_cons, Option.some.injEq] at h
          simp [h]
        · simp only [List.head?_cons, Option.some.injEq] at h
          simp [h]
      simp only [List.nil_append, fs_cd_name, if_neg hc]
  | cons c name ih =>
    simp only [List.length_cons] at hlen
    have hc : c ≠ NUL ∧ c ≠ '/' ∧ i < MAX_NAME_LEN - 1 :=
      ⟨(hplain c (by simp)).1, (hplain c (by simp)).2, by
        show i < 31
        omega⟩
    have := ih (i + 1) (fun d hd => hplain d (by simp [hd])) (by omega)
    simp only [List.cons_append, fs_cd_name, if_pos hc, List.append_eq]
    rw [this]

/-- A plain name that no sub-directory of `d` bears stops the walk. -/
theorem walk_unresolved (s : State) (d : Option Nat) (name post : List Char)
    (hne : name ≠ []) (hlen : name.length ≤ 31)
    (hplain : ∀ c, c ∈ name → c ≠ NUL ∧ c ≠ '/')
    (hdots : name.take 2 ≠ "..".toList)
    (hpost : post = [] ∨ post.head? = some '/' ∨ post.head? = some NUL)
    (hmiss : ∀ j, ¬ dir_at s d name j) :
    fs_cd_walk s ((name ++ post).length + 1) d (name ++ post) = Walk.missing := by
  cases hname : name with
  | nil => exact absurd hname hne
  | cons c p =>
    rw [← hname]
    have h0 : charAt (name ++ post) 0 ≠ NUL := by
      rw [hname]
      simpa using (hplain c (by rw [hname]; simp)).1
    have hup : strncmp (name ++ post) "..".toList 2 ≠ 0 := by
      intro h
      obtain ⟨q, hq⟩ := (strncmp_dotdot _).mp h
      cases p with
      | nil =>
        rw [hname] at hq
        simp only [List.singleton_append, List.cons.injEq] at hq
        rcases hpost with h | h | h
        · rw [h] at hq; simp at hq
        · cases post with
          | nil => simp at hq
          | cons e post =>
            simp only [List.head?_cons, Option.some.injEq] at h
            simp only [List.cons.injEq] at hq
            rw [h] at hq
            exact absurd hq.2.1 (by decide)
        · cases post with
          | nil => simp at hq
          | cons e post =>
            simp only [List.head?_cons, Option.some.injEq] at h
            simp only [List.cons.injEq] at hq
            rw [h] at hq
            exact absurd hq.2.1 (by decide)
      | cons e p =>
        rw [hname] at hq hdots
        simp only [List.cons_append, List.cons.injEq] at hq
        apply hdots
        rw [hq.1, hq.2.1]
        rfl
    have hnm := fs_cd_name_exact name post 0 hplain (by omega) hpost
    apply walk_step_missing s _ d _ h0 hup
    rw [hnm]
    exact (find_dir_none s d name).mpr hmiss

/-- The anchor of a path is decided by its leading whole segments. -/
theorem cd_split (s : State) (pre rest : List Char) (hpre : slash_ended pre)
    (hnul : NUL ∉ pre) (hrel : pre = [] → rest.head? ≠ some '~') :
    cd_start s (pre ++ rest) = cd_start s pre ∧ cd_body (pre ++ rest) = cd_body pre ++ rest ∧
    slash_ended (cd_body pre) ∧ NUL ∉ cd_body pre := by
  cases hp : pre with
  | nil =>
    have h1 : strncmp rest "~".toList 1 ≠ 0 := by
      intro h
      obtain ⟨q, hq⟩ := (strncmp_tilde rest).mp h
      exact hrel hp (by rw [hq]; rfl)
    have h2 : strncmp [] "~".toList 1 ≠ 0 := by
      intro h
      obtain ⟨q, hq⟩ := (strncmp_tilde []).mp h
      cases hq
    simp only [List.nil_append, cd_start, cd_body, if_neg h1, if_neg h2]
    exact ⟨trivial, trivial, Or.inl rfl, by simp⟩
  | cons c p =>
    rw [← hp]
    by_cases hc : c = '~'
    · have h1 : strncmp (pre ++ rest) "~".toList 1 = 0 :=
        (strncmp_tilde _).mpr ⟨p ++ rest, by rw [hp, hc]; rfl⟩
      have h2 : strncmp pre "~".toList 1 = 0 := (strncmp_tilde _).mpr ⟨p, by rw [hp, hc]⟩
      have hpne : p ≠ [] := by
        intro e
        rcases hpre with h | h
        · rw [hp] at h; cases h
        · rw [hp, e, hc] at h
          revert h
          decide
      have hd1 : List.drop 1 (pre ++ rest) = p ++ rest := by rw [hp]; rfl
      have hd2 : List.drop 1 pre = p := by rw [hp]; rfl
      have hsuf : skip_slash p <:+ pre := (skip_slash_suffix p).trans ⟨[c], by rw [hp]; rfl⟩
      simp only [cd_start, cd_body, if_pos h1, if_pos h2, hd1, hd2]
      exact ⟨trivial, skip_slash_append p rest hpne, slash_ended_suffix pre _ hpre hsuf,
        fun h => hnul (hsuf.subset h)⟩
    · have h1 : strncmp (pre ++ rest) "~".toList 1 ≠ 0 := by
        intro h
        obtain ⟨q, hq⟩ := (strncmp_tilde _).mp h
        rw [hp] at hq
        simp only [List.cons_append, List.cons.injEq] at hq
        exact hc hq.1
      have h2 : strncmp pre "~".toList 1 ≠ 0 := by
        intro h
        obtain ⟨q, hq⟩ := (strncmp_tilde _).mp h
        rw [hp] at hq
        simp only [List.cons.injEq] at hq
        exact hc hq.1
      simp only [cd_start, cd_body, if_neg h1, if_neg h2]
      exact ⟨trivial, trivial, hpre, hnul⟩

/-- When `fs_cd` writes nothing, its walk reached the node that becomes the current
directory. -/
theorem fs_cd_silent (s : State) (path : List Char)
    (h : (fs_cd s path).vga.out = s.vga.out) :
    fs_cd_walk s ((cd_body path).length + 1) (cd_start s path) (cd_body path) =
      Walk.reached (fs_cd s path).fs_cwd := by
  rw [fs_cd_eq] at h ⊢
  cases hw : fs_cd_walk s ((cd_body path).length + 1) (cd_start s path) (cd_body path) with
  | reached d => rfl
  | missing =>
    rw [hw] at h
    simp only [vga_write_out] at h
    have : cstr "folder/dir doesnt exist\n".toList = [] := List.append_right_eq_self.mp h
    revert this
    simp [cstr, NUL]
  | fuel_out => exact absurd hw (walk_terminates s _ _ _ (by omega))

/-- C3 (amended): let a path consist of leading whole segments `pre` that `fs_cd` resolves
without complaint, then a plain-name segment `name` (non-empty, at most 31 characters, without
separator, not beginning with `..` nor, at the start of the path, with `~`), then the rest of
the path.  If no sub-directory of the directory reached by `pre` bears that name, `fs_cd`
leaves the current directory and the node table as they were and writes
"folder/dir doesnt exist". -/
theorem cd_unresolved_segment (s : State) (pre name post : List Char)
    (hpre : slash_ended pre) (hnul : NUL ∉ pre)
    (hres : (fs_cd s pre).vga.out = s.vga.out)
    (hne : name ≠ []) (hlen : name.length ≤ 31)
    (hplain : ∀ c, c ∈ name → c ≠ NUL ∧ c ≠ '/')
    (hdots : name.take 2 ≠ "..".toList)
    (htilde : pre = [] → name.head? ≠ some '~')
    (hpost : post = [] ∨ post.head? = some '/' ∨ post.head? = some NUL)
    (hmiss : ∀ j, ¬ dir_at s (fs_cd s pre).fs_cwd name j) :
    (fs_cd s (pre ++ name ++ post)).fs_cwd = s.fs_cwd ∧
    (fs_cd s (pre ++ name ++ post)).vga.out =
      s.vga.out ++ "folder/dir doesnt exist\n".toList ∧
    (fs_cd s (pre ++ name ++ post)).nodes = s.nodes := by
  have hrel : pre = [] → (name ++ post).head? ≠ some '~' := by
    intro hp
    have := htilde hp
    cases name with
    | nil => exact absurd rfl hne
    | cons c name => simpa using this
  obtain ⟨h1, h2, h3, h4⟩ := cd_split s pre (name ++ post) hpre hnul hrel
  have hwalk : fs_cd_walk s ((cd_body (pre ++ (name ++ post))).length + 1)
      (cd_start s (pre ++ (name ++ post))) (cd_body (pre ++ (name ++ post))) = Walk.missing := by
    rw [h1, h2, walk_append s (cd_body pre).length (cd_body pre) (name ++ post) _
      (Nat.le_refl _) h3 h4, fs_cd_silent s pre hres]
    exact walk_unresolved s _ name post hne hlen hplain hdots hpost hmiss
  have e : cstr "folder/dir doesnt exist\n".toList = "folder/dir doesnt exist\n".toList := by
    simp [cstr, NUL]
  rw [List.append_assoc, fs_cd_eq, hwalk]
  exact ⟨rfl, by rw [vga_write_out, e], rfl⟩

set_option maxRecDepth 100000 in
/-- C3 (witness): `cd d/x/y` on a store whose directory `d` is empty. -/
theorem cd_unresolved_segment_witness :
    slash_ended "d/".toList ∧
    (fs_cd dir_store "d/".toList).vga.out = dir_store.vga.out ∧
    (∀ j, ¬ dir_at dir_store (fs_cd dir_store "d/".toList).fs_cwd "x".toList j) ∧
    (fs_cd dir_store ("d/".toList ++ "x".toList ++ "/y".toList)).fs_cwd = dir_store.fs_cwd ∧
    (fs_cd dir_store ("d/".toList ++ "x".toList ++ "/y".toList)).vga.out =
      dir_store.vga.out ++ "folder/dir doesnt exist\n".toList :=
  have hmiss : ∀ j, ¬ dir_at dir_store (fs_cd dir_store "d/".toList).fs_cwd "x".toList j :=
    fun j h => absurd h.1 (by
      have : (deref dir_store (fs_cd dir_store "d/".toList).fs_cwd).child_count = 0 := by
        decide
      rw [this]; omega)
  have h := cd_unresolved_segment dir_store "d/".toList "x".toList "/y".toList
    (Or.inr (by decide)) (by decide) (by decide) (by decide) (by decide) (by decide)
    (by decide) (fun _ => by decide) (Or.inr (Or.inl (by decide))) hmiss
  ⟨Or.inr (by decide), by decide, hmiss, h.1, h.2.1⟩

set_option maxRecDepth 100000 in
/-- C3 (counterexample): a segment of 40 characters names no sub-directory of the root of this
store, yet `fs_cd` resolves it, as a name of 31 characters followed by a name of 9, moves the
current directory and writes nothing; likewise the segment `..d` names no sub-directory, yet
`fs_cd` takes it as `..` followed by `d` and moves into `d`. -/
theorem cd_resolves_unnamed_segment :
    (∀ j, j < (deref deep_store deep_store.fs_cwd).child_count →
      cstr (child deep_store j).name ≠ List.replicate 40 'a') ∧
    (fs_cd deep_store (List.replicate 40 'a')).fs_cwd ≠ deep_store.fs_cwd ∧
    (fs_cd deep_store (List.replicate 40 'a')).vga.out = deep_store.vga.out ∧
    (∀ j, j < (deref dir_store dir_store.fs_cwd).child_count →
      cstr (child dir_store j).name ≠ "..d".toList) ∧
    (fs_cd dir_store "..d".toList).fs_cwd ≠ dir_store.fs_cwd ∧
    (fs_cd dir_store "..d".toList).vga.out = dir_store.vga.out := by
  decide

/-! ## Going down and up -/

theorem ancestor_succ (s : State) (n : Nat) (p : Option Nat) :
    ancestor s (n + 1) p = parent_of s (ancestor s n p) := by
  induction n generalizing p with
  | zero => rfl
  | succ n ih =>
    show ancestor s (n + 1) (parent_of s p) = _
    rw [ih]
    rfl

theorem ancestor_root (s : State) (hl : Linked s) (n : Nat) :
    ancestor s n s.fs_root = s.fs_root := by
  induction n with
  | zero => rfl
  | succ n ih => rw [ancestor_succ, ih, hl.1]

theorem cstr_append_rest (p : List Char) :
    ∃ post, p = cstr p ++ post ∧ (post = [] ∨ post.head? = some NUL) := by
  induction p with
  | nil => exact ⟨[], rfl, Or.inl rfl⟩
  | cons c p ih =>
    by_cases hc : c = NUL
    · exact ⟨c :: p, by simp [cstr_cons, hc], Or.inr (by simp [hc])⟩
    · obtain ⟨post, h1, h2⟩ := ih
      refine ⟨post, ?_, h2⟩
      rw [cstr_cons, if_neg hc, List.cons_append, ← h1]

theorem cstr_length_le (p : List Char) : (cstr p).length ≤ p.length := by
  obtain ⟨post, h1, _⟩ := cstr_append_rest p
  have := congrArg List.length h1
  simp only [List.length_append] at this
  omega

theorem cstr_subset (p : List Char) (c : Char) (h : c ∈ cstr p) : c ∈ p :=
  (List.takeWhile_prefix _).subset h

/-- Walking a path without separator of at most 31 characters from a node at depth at most
`n` ends at depth at most `n + 1`. -/
theorem walk_depth (s : State) (hl : Linked s) (n fuel : Nat) :
    ∀ (cur : Option Nat) (path : List Char), '/' ∉ path → path.length ≤ 31 →
      ancestor s n cur = s.fs_root →
      ∀ c, fs_cd_walk s fuel cur path = Walk.reached c → ancestor s (n + 1) c = s.fs_root := by
  induction fuel with
  | zero =>
    intro cur path _ _ _ c h
    simp [fs_cd_walk] at h
  | succ fuel ih =>
    intro cur path hslash hlen hanc c h
    by_cases h0 : charAt path 0 = NUL
    · rw [walk_end s fuel cur path h0] at h
      cases h
      rw [ancestor_succ, hanc, hl.1]
    · by_cases hup : strncmp path "..".toList 2 = 0
      · rw [walk_step_up s fuel cur path h0 hup] at h
        have hsuf : skip_slash (path.drop 2) <:+ path :=
          (skip_slash_suffix _).trans (List.drop_suffix 2 path)
        refine ih (deref s cur).parent _ (fun hm => hslash (hsuf.subset hm))
          (le_trans hsuf.length_le hlen) ?_ c h
        show ancestor s (n + 1) cur = s.fs_root
        rw [ancestor_succ, hanc, hl.1]
      · obtain ⟨post, hp1, hp2⟩ := cstr_append_rest path
        have hnm : fs_cd_name path 0 = (cstr path, post) := by
          have := fs_cd_name_exact (cstr path) post 0
            (fun d hd => ⟨fun e => cstr_no_nul path (e ▸ hd),
              fun e => hslash (e ▸ cstr_subset path d hd)⟩)
            (by have := cstr_length_le path; omega)
            (hp2.imp_right Or.inr)
          rw [← hp1] at this
          exact this
        cases hfind : find_child s cur (is_dir_named (fs_cd_name path 0).1) with
        | none =>
          rw [walk_step_missing s fuel cur path h0 hup hfind] at h
          cases h
        | some j =>
          rw [walk_step_found s fuel cur path j h0 hup hfind, hnm] at h
          have hj := ((find_dir_some s cur _ j).mp hfind).1.1
          have hpar := hl.2 cur j hj
          have hend : charAt (skip_slash post) 0 = NUL := by
            rcases hp2 with e | e
            · rw [e]; rfl
            · cases post with
              | nil => rfl
              | cons d post =>
                simp only [List.head?_cons, Option.some.injEq] at e
                rw [e]
                rfl
          cases fuel with
          | zero => simp [fs_cd_walk] at h
          | succ fuel =>
            rw [walk_end s fuel _ _ hend] at h
            cases h
            show ancestor s n (parent_of s ((deref s cur).children j)) = s.fs_root
            rw [hpar, hanc]
theorem fs_cd_frame (s : State) (path : List Char) :
    (fs_cd s path).nodes = s.nodes ∧ (fs_cd s path).fs_root = s.fs_root := by
  rw [fs_cd_eq]
  cases fs_cd_walk s ((cd_body path).length + 1) (cd_start s path) (cd_body path) <;>
    exact ⟨rfl, rfl⟩

theorem deref_congr (s t : State) (h : t.nodes = s.nodes) (p : Option Nat) :
    deref t p = deref s p := by
  cases p with
  | none => rfl
  | some a => simp [h]

theorem ancestor_congr (s t : State) (h : t.nodes = s.nodes) (n : Nat) (p : Option Nat) :
    ancestor t n p = ancestor s n p := by
  induction n generalizing p with
  | zero => rfl
  | succ n ih =>
    show ancestor t n (parent_of t p) = ancestor s n (parent_of s p)
    rw [ih]
    unfold parent_of
    rw [deref_congr s t h]

theorem linked_congr (s t : State) (h : t.nodes = s.nodes) (hr : t.fs_root = s.fs_root)
    (hl : Linked s) : Linked t := by
  unfold Linked parent_of at hl ⊢
  simp only [deref_congr s t h, hr]
  exact hl

theorem fs_cd_tilde (s : State) : fs_cd s "~".toList = { s with fs_cwd := s.fs_root } := by
  have h1 : strncmp "~".toList "~".toList 1 = 0 := by decide
  have h2 : cd_body "~".toList = [] := by decide
  rw [fs_cd_eq, h2]
  simp only [cd_start, if_pos h1]
  have h3 : fs_cd_walk s (([] : List Char).length + 1) s.fs_root [] = Walk.reached s.fs_root :=
    walk_end s 0 _ [] rfl
  rw [h3]

/-- A `cd` with a name without separator descends at most one level. -/
theorem cd_down_depth (s : State) (hl : Linked s) (name : List Char) (n : Nat)
    (hslash : '/' ∉ name) (hlen : name.length ≤ 31)
    (hanc : ancestor s n s.fs_cwd = s.fs_root) :
    ancestor s (n + 1) (fs_cd s name).fs_cwd = s.fs_root := by
  have hstay : ancestor s (n + 1) s.fs_cwd = s.fs_root := by
    rw [ancestor_succ, hanc, hl.1]
  rw [fs_cd_eq]
  cases hw : fs_cd_walk s ((cd_body name).length + 1) (cd_start s name) (cd_body name) with
  | missing => exact hstay
  | fuel_out => exact hstay
  | reached c =>
    have hsuf : cd_body name <:+ name := by
      unfold cd_body
      split_ifs
      · exact (skip_slash_suffix _).trans (List.drop_suffix 1 name)
      · exact List.suffix_refl name
    have hstart : ancestor s n (cd_start s name) = s.fs_root := by
      unfold cd_start
      split_ifs
      · exact ancestor_root s hl n
      · exact hanc
    exact walk_depth s hl n _ _ _ (fun hm => hslash (hsuf.subset hm))
      (le_trans hsuf.length_le hlen) hstart c hw

/-- A `cd ..` ascends one level. -/
theorem cd_up_depth (s : State) (n : Nat) (hanc : ancestor s (n + 1) s.fs_cwd = s.fs_root) :
    ancestor s n (fs_cd s "..".toList).fs_cwd = s.fs_root := by
  rw [fs_cd_dotdot]
  exact hanc

/-- A sequence of navigation commands that never has more `cd ..` than `cd name` commands in
an initial part ends at depth at most the surplus of `cd name` commands. -/
theorem nav_depth (seq : List Nav) :
    ∀ (s : State) (n : Nat), Linked s →
      (∀ name, Nav.down name ∈ seq → '/' ∉ name ∧ name.length ≤ 31) →
      ancestor s n s.fs_cwd = s.fs_root →
      (∀ k, ups (seq.take k) ≤ n + downs (seq.take k)) →
      (seq.foldl Nav.run s).nodes = s.nodes ∧ (seq.foldl Nav.run s).fs_root = s.fs_root ∧
      ancestor s (n + downs seq - ups seq) (seq.foldl Nav.run s).fs_cwd = s.fs_root := by
  induction seq with
  | nil =>
    intro s n _ _ hanc _
    exact ⟨rfl, rfl, by simpa [ups, downs] using hanc⟩
  | cons cmd seq ih =>
    intro s n hl hnames hanc hpre
    cases cmd with
    | down name =>
      obtain ⟨hslash, hlen⟩ := hnames name (by simp)
      obtain ⟨hn, hr⟩ := fs_cd_frame s name
      have hl2 : Linked (fs_cd s name) := linked_congr s _ hn hr hl
      have hanc2 : ancestor (fs_cd s name) (n + 1) (fs_cd s name).fs_cwd
          = (fs_cd s name).fs_root := by
        rw [ancestor_congr s _ hn, hr]
        exact cd_down_depth s hl name n hslash hlen hanc
      obtain ⟨h1, h2, h3⟩ := ih (fs_cd s name) (n + 1) hl2
        (fun nm hnm => hnames nm (by simp [hnm])) hanc2 (fun k => by
          have := hpre (k + 1)
          simp only [List.take_succ_cons, ups, downs] at this
          omega)
      simp only [List.foldl_cons, Nav.run, ups, downs]
      refine ⟨h1.trans hn, h2.trans hr, ?_⟩
      rw [ancestor_congr s _ hn, hr] at h3
      rw [show n + (downs seq + 1) - ups seq = n + 1 + downs seq - ups seq by omega]
      exact h3
    | up =>
      have hn1 : 1 ≤ n := by
        have := hpre 1
        simpa [ups, downs] using this
      obtain ⟨m, rfl⟩ : ∃ m, n = m + 1 := ⟨n - 1, by omega⟩
      obtain ⟨hn, hr⟩ := fs_cd_frame s "..".toList
      have hl2 : Linked (fs_cd s "..".toList) := linked_congr s _ hn hr hl
      have hanc2 : ancestor (fs_cd s "..".toList) m (fs_cd s "..".toList).fs_cwd
          = (fs_cd s "..".toList).fs_root := by
        rw [ancestor_congr s _ hn, hr]
        exact cd_up_depth s m hanc
      obtain ⟨h1, h2, h3⟩ := ih (fs_cd s "..".toList) m hl2
        (fun nm hnm => hnames nm (by simp [hnm])) hanc2 (fun k => by
          have := hpre (k + 1)
          simp only [List.take_succ_cons, ups, downs] at this
          omega)
      simp only [List.foldl_cons, Nav.run, ups, downs]
      refine ⟨h1.trans hn, h2.trans hr, ?_⟩
      rw [ancestor_congr s _ hn, hr] at h3
      rw [show m + 1 + downs seq - (ups seq + 1) = m + downs seq - ups seq by omega]
      exact h3

/-- C4 (amended): in a store whose parent pointers agree with the children arrays, after
`cd ~`, every sequence of `cd name` commands (names of at most 31 characters without
separator, such as the name of an existing sub-directory) and `cd ..` commands in which the
number of `cd ..` equals the number of `cd name` commands, and in which no initial part has
more `cd ..` than `cd name` commands, ends with the root as the current directory. -/
theorem nav_returns_to_root (s : State) (seq : List Nav) (hl : Linked s)
    (hnames : ∀ name, Nav.down name ∈ seq → '/' ∉ name ∧ name.length ≤ 31)
    (hinit : ∀ k, ups (seq.take k) ≤ downs (seq.take k))
    (hbal : ups seq = downs seq) :
    (seq.foldl Nav.run (fs_cd s "~".toList)).fs_cwd = s.fs_root := by
  have hl0 : Linked (fs_cd s "~".toList) :=
    linked_congr s _ (fs_cd_frame s _).1 (fs_cd_frame s _).2 hl
  have hcwd : (fs_cd s "~".toList).fs_cwd = (fs_cd s "~".toList).fs_root := by
    rw [fs_cd_tilde]
  obtain ⟨_, _, h3⟩ := nav_depth seq (fs_cd s "~".toList) 0 hl0 hnames hcwd
    (fun k => by have := hinit k; omega)
  rw [show 0 + downs seq - ups seq = 0 by omega] at h3
  rw [(fs_cd_frame s _).2] at h3
  exact h3

set_option maxRecDepth 100000 in
theorem dir_store_other (a : Nat) (h0 : a ≠ 0) (h180 : a ≠ 180) :
    dir_store.nodes a = fs_node_zero := by
  have h : dir_store.nodes =
      Function.update (Function.update (Function.update (fun _ => fs_node_zero) 0
        { created "~".toList 1 with parent := some 0 }) 180
        { created "d".toList 1 with parent := some 0 }) 0
        (with_child { created "~".toList 1 with parent := some 0 } 180) := by
    unfold dir_store
    rw [fs_mkdir_room (fs_init boot) "d".toList 0 (by decide) (by decide) (by decide), fs_init_eq]
    rfl
  rw [h, Function.update_noteq h0, Function.update_noteq h180, Function.update_noteq h0]

set_option maxRecDepth 100000 in
theorem linked_dir_store : Linked dir_store := by
  refine ⟨by decide, ?_⟩
  intro d j hj
  cases d with
  | none => exact absurd hj (by simp [fs_node_zero])
  | some a =>
    by_cases h0 : a = 0
    · subst h0
      have hc : (deref dir_store (some 0)).child_count = 1 := by decide
      rw [hc] at hj
      have : j = 0 := by omega
      subst this
      decide
    · by_cases h180 : a = 180
      · subst h180
        have hc : (deref dir_store (some 180)).child_count = 0 := by decide
        rw [hc] at hj
        omega
      · rw [deref_some, dir_store_other a h0 h180] at hj
        exact absurd hj (by simp [fs_node_zero])

set_option maxRecDepth 100000 in
/-- C4 (witness): going down into `d` and up again in a store whose root holds `d`. -/
theorem nav_returns_to_root_witness :
    Linked dir_store ∧
    (∀ k, ups ([Nav.down "d".toList, Nav.up].take k) ≤
      downs ([Nav.down "d".toList, Nav.up].take k)) ∧
    ups [Nav.down "d".toList, Nav.up] = downs [Nav.down "d".toList, Nav.up] ∧
    ([Nav.down "d".toList].foldl Nav.run (fs_cd dir_store "~".toList)).fs_cwd = some 180 ∧
    ([Nav.down "d".toList, Nav.up].foldl Nav.run (fs_cd dir_store "~".toList)).fs_cwd =
      dir_store.fs_root :=
  have hinit : ∀ k, ups ([Nav.down "d".toList, Nav.up].take k) ≤
      downs ([Nav.down "d".toList, Nav.up].take k) := fun k =>
    match k with
    | 0 => by decide
    | 1 => by decide
    | k + 2 => by simp [ups, downs]
  ⟨linked_dir_store, hinit, by decide, by decide,
    nav_returns_to_root dir_store [Nav.down "d".toList, Nav.up] linked_dir_store
      (fun name hname => by
        have : name = "d".toList := by simpa using hname
        subst this
        decide)
      hinit (by decide)⟩

set_option maxRecDepth 100000 in
/-- C4 (counterexample): after `cd ~` in a store whose root holds `d`, the sequence `cd ..`,
`cd d` has as many ascents as descents and ends in `d`, not in the root; and in a store with
the directories `x/y` and `x` in the root and `y` in `x`, the sequence `cd x/y`, `cd ..` names
an existing sub-directory of the root, is balanced, and ends in `x`. -/
theorem nav_balanced_not_at_root :
    ups [Nav.up, Nav.down "d".toList] = downs [Nav.up, Nav.down "d".toList] ∧
    dir_at dir_store dir_store.fs_root "d".toList 0 ∧
    ([Nav.up, Nav.down "d".toList].foldl Nav.run (fs_cd dir_store "~".toList)).fs_cwd ≠
      dir_store.fs_root ∧
    ups [Nav.down "x/y".toList, Nav.up] = downs [Nav.down "x/y".toList, Nav.up] ∧
    dir_at slash_store slash_store.fs_root "x/y".toList 0 ∧
    ([Nav.down "x/y".toList, Nav.up].foldl Nav.run (fs_cd slash_store "~".toList)).fs_cwd ≠
      slash_store.fs_root := by
  decide
/-! ## Backspace on an empty buffer -/

/-- C16: in command-entry mode with an empty command buffer, and in file-edit mode with an
empty edit buffer, `read_input_char` on backspace returns with the whole state unchanged:
positions, cursor, screen cells, node table and mode are as before, and nothing is
dispatched. -/
theorem backspace_on_empty (s : State) :
    (s.fs_edit_mode = 0 → s.input_pos = 0 →
      read_input_char s '\x08' = (s, Control.returns)) ∧
    (s.fs_edit_mode ≠ 0 → s.fs_edit_pos = 0 →
      read_input_char s '\x08' = (s, Control.returns)) := by
  have h1 : ('\x08' : Char) ≠ '\n' := by decide
  have h2 : ('\x08' : Char) ≠ '\t' := by decide
  constructor
  · intro hmode hpos
    unfold read_input_char
    rw [if_neg (by simp [hmode]), if_neg h1, if_pos rfl, if_neg (by omega)]
  · intro hmode hpos
    unfold read_input_char
    rw [if_pos hmode, if_neg h2, if_pos rfl, if_neg (by omega)]

/-- C16 (witness): backspace as the first key after startup, and as the first key after
`edfile f` on a store that holds the file `f`. -/
theorem backspace_on_empty_witness :
    (start_prologue boot).fs_edit_mode = 0 ∧ (start_prologue boot).input_pos = 0 ∧
    read_input_char (start_prologue boot) '\x08' = (start_prologue boot, Control.returns) ∧
    (fs_edfile_start sample_store "f".toList).fs_edit_mode ≠ 0 ∧
    (fs_edfile_start sample_store "f".toList).fs_edit_pos = 0 ∧
    read_input_char (fs_edfile_start sample_store "f".toList) '\x08' =
      (fs_edfile_start sample_store "f".toList, Control.returns) :=
  ⟨rfl, rfl, (backspace_on_empty (start_prologue boot)).1 rfl rfl,
    by decide, by decide,
    (backspace_on_empty (fs_edfile_start sample_store "f".toList)).2 (by decide) (by decide)⟩
/-! ## Verbs compared together with their terminator -/

/-- The dispatcher on a line `echo <text>`: no verb matches, since `strncmp(cmd, "echo", 5)`
also compares the terminator of `"echo"` with the space of the line. -/
theorem echo_text_unknown (s : State) (text : List Char) :
    handle_command s ("echo ".toList ++ text) =
      ({ s with vga := vga_write s.vga "\nUnknown command. Type help for commands.\n".toList },
        Control.returns) := by
  have h0 : strncmp ("echo ".toList ++ text) "help".toList 5 ≠ 0 := by
    simp [strncmp, NUL]
  have h1 : strncmp ("echo ".toList ++ text) "\n".toList 1 ≠ 0 := by
    simp [strncmp, NUL]
  have h2 : strncmp ("echo ".toList ++ text) "vgatest".toList 8 ≠ 0 := by
    simp [strncmp, NUL]
  have h3 : strncmp ("echo ".toList ++ text) "edfile ".toList 7 ≠ 0 := by
    simp [strncmp, NUL]
  have h4 : strncmp ("echo ".toList ++ text) "cd ".toList 3 ≠ 0 := by
    simp [strncmp, NUL]
  have h5 : strncmp ("echo ".toList ++ text) "ls".toList 2 ≠ 0 := by
    simp [strncmp, NUL]
  have h6 : strncmp ("echo ".toList ++ text) "mkfile ".toList 7 ≠ 0 := by
    simp [strncmp, NUL]
  have h7 : strncmp ("echo ".toList ++ text) "mkdir ".toList 6 ≠ 0 := by
    simp [strncmp, NUL]
  have h8 : strncmp ("echo ".toList ++ text) "rdfile ".toList 7 ≠ 0 := by
    simp [strncmp, NUL]
  have h9 : strncmp ("echo ".toList ++ text) "dir ~".toList 5 ≠ 0 := by
    simp [strncmp, NUL]
  have h10 : strncmp ("echo ".toList ++ text) "dir".toList 3 ≠ 0 := by
    simp [strncmp, NUL]
  have h11 : strncmp ("echo ".toList ++ text) "delfile ".toList 8 ≠ 0 := by
    simp [strncmp, NUL]
  have h12 : strncmp ("echo ".toList ++ text) "clear".toList 6 ≠ 0 := by
    simp [strncmp, NUL]
  have h13 : strncmp ("echo ".toList ++ text) "calc ".toList 5 ≠ 0 := by
    simp [strncmp, NUL]
  have h14 : strncmp ("echo ".toList ++ text) "about".toList 6 ≠ 0 := by
    simp [strncmp, NUL]
  have h15 : strncmp ("echo ".toList ++ text) "version".toList 8 ≠ 0 := by
    simp [strncmp, NUL]
  have h16 : strncmp ("echo ".toList ++ text) "halt".toList 5 ≠ 0 := by
    simp [strncmp, NUL]
  have h17 : strncmp ("echo ".toList ++ text) "reboot".toList 7 ≠ 0 := by
    simp [strncmp, NUL]
  have h18 : strncmp ("echo ".toList ++ text) "bgcolor".toList 8 ≠ 0 := by
    simp [strncmp, NUL]
  have h19 : strncmp ("echo ".toList ++ text) "fgcolor".toList 8 ≠ 0 := by
    simp [strncmp, NUL]
  have h20 : strncmp ("echo ".toList ++ text) "echo".toList 5 ≠ 0 := by
    simp [strncmp, NUL]
  unfold handle_command
  rw [if_neg h0, if_neg h1, if_neg h2, if_neg h3, if_neg h4, if_neg h5, if_neg h6, if_neg h7, if_neg h8, if_neg h9, if_neg h10, if_neg h11, if_neg h12, if_neg h13, if_neg h14, if_neg h15, if_neg h16, if_neg h17, if_neg h18, if_neg h19, if_neg h20]

/-- The dispatcher on a line `bgcolor <text>`: no verb matches, since
`strncmp(cmd, "bgcolor", 8)` also compares the terminator of `"bgcolor"` with the space. -/
theorem bgcolor_text_unknown (s : State) (text : List Char) :
    handle_command s ("bgcolor ".toList ++ text) =
      ({ s with vga := vga_write s.vga "\nUnknown command. Type help for commands.\n".toList },
        Control.returns) := by
  have h0 : strncmp ("bgcolor ".toList ++ text) "help".toList 5 ≠ 0 := by
    simp [strncmp, NUL]
  have h1 : strncmp ("bgcolor ".toList ++ text) "\n".toList 1 ≠ 0 := by
    simp [strncmp, NUL]
  have h2 : strncmp ("bgcolor ".toList ++ text) "vgatest".toList 8 ≠ 0 := by
    simp [strncmp, NUL]
  have h3 : strncmp ("bgcolor ".toList ++ text) "edfile ".toList 7 ≠ 0 := by
    simp [strncmp, NUL]
  have h4 : strncmp ("bgcolor ".toList ++ text) "cd ".toList 3 ≠ 0 := by
    simp [strncmp, NUL]
  have h5 : strncmp ("bgcolor ".toList ++ text) "ls".toList 2 ≠ 0 := by
    simp [strncmp, NUL]
  have h6 : strncmp ("bgcolor ".toList ++ text) "mkfile ".toList 7 ≠ 0 := by
    simp [strncmp, NUL]
  have h7 : strncmp ("bgcolor ".toList ++ text) "mkdir ".toList 6 ≠ 0 := by
    simp [strncmp, NUL]
  have h8 : strncmp ("bgcolor ".toList ++ text) "rdfile ".toList 7 ≠ 0 := by
    simp [strncmp, NUL]
  have h9 : strncmp ("bgcolor ".toList ++ text) "dir ~".toList 5 ≠ 0 := by
    simp [strncmp, NUL]
  have h10 : strncmp ("bgcolor ".toList ++ text) "dir".toList 3 ≠ 0 := by
    simp [strncmp, NUL]
  have h11 : strncmp ("bgcolor ".toList ++ text) "delfile ".toList 8 ≠ 0 := by
    simp [strncmp, NUL]
  have h12 : strncmp ("bgcolor ".toList ++ text) "clear".toList 6 ≠ 0 := by
    simp [strncmp, NUL]
  have h13 : strncmp ("bgcolor ".toList ++ text) "calc ".toList 5 ≠ 0 := by
    simp [strncmp, NUL]
  have h14 : strncmp ("bgcolor ".toList ++ text) "about".toList 6 ≠ 0 := by
    simp [strncmp, NUL]
  have h15 : strncmp ("bgcolor ".toList ++ text) "version".toList 8 ≠ 0 := by
    simp [strncmp, NUL]
  have h16 : strncmp ("bgcolor ".toList ++ text) "halt".toList 5 ≠ 0 := by
    simp [strncmp, NUL]
  have h17 : strncmp ("bgcolor ".toList ++ text) "reboot".toList 7 ≠ 0 := by
    simp [strncmp, NUL]
  have h18 : strncmp ("bgcolor ".toList ++ text) "bgcolor".toList 8 ≠ 0 := by
    simp [strncmp, NUL]
  have h19 : strncmp ("bgcolor ".toList ++ text) "fgcolor".toList 8 ≠ 0 := by
    simp [strncmp, NUL]
  have h20 : strncmp ("bgcolor ".toList ++ text) "echo".toList 5 ≠ 0 := by
    simp [strncmp, NUL]
  unfold handle_command
  rw [if_neg h0, if_neg h1, if_neg h2, if_neg h3, if_neg h4, if_neg h5, if_neg h6, if_neg h7, if_neg h8, if_neg h9, if_neg h10, if_neg h11, if_neg h12, if_neg h13, if_neg h14, if_neg h15, if_neg h16, if_neg h17, if_neg h18, if_neg h19, if_neg h20]

/-- The dispatcher on a line `fgcolor <text>`: no verb matches, since
`strncmp(cmd, "fgcolor", 8)` also compares the terminator of `"fgcolor"` with the space. -/
theorem fgcolor_text_unknown (s : State) (text : List Char) :
    handle_command s ("fgcolor ".toList ++ text) =
      ({ s with vga := vga_write s.vga "\nUnknown command. Type help for commands.\n".toList },
        Control.returns) := by
  have h0 : strncmp ("fgcolor ".toList ++ text) "help".toList 5 ≠ 0 := by
    simp [strncmp, NUL]
  have h1 : strncmp ("fgcolor ".toList ++ text) "\n".toList 1 ≠ 0 := by
    simp [strncmp, NUL]
  have h2 : strncmp ("fgcolor ".toList ++ text) "vgatest".toList 8 ≠ 0 := by
    simp [strncmp, NUL]
  have h3 : strncmp ("fgcolor ".toList ++ text) "edfile ".toList 7 ≠ 0 := by
    simp [strncmp, NUL]
  have h4 : strncmp ("fgcolor ".toList ++ text) "cd ".toList 3 ≠ 0 := by
    simp [strncmp, NUL]
  have h5 : strncmp ("fgcolor ".toList ++ text) "ls".toList 2 ≠ 0 := by
    simp [strncmp, NUL]
  have h6 : strncmp ("fgcolor ".toList ++ text) "mkfile ".toList 7 ≠ 0 := by
    simp [strncmp, NUL]
  have h7 : strncmp ("fgcolor ".toList ++ text) "mkdir ".toList 6 ≠ 0 := by
    simp [strncmp, NUL]
  have h8 : strncmp ("fgcolor ".toList ++ text) "rdfile ".toList 7 ≠ 0 := by
    simp [strncmp, NUL]
  have h9 : strncmp ("fgcolor ".toList ++ text) "dir ~".toList 5 ≠ 0 := by
    simp [strncmp, NUL]
  have h10 : strncmp ("fgcolor ".toList ++ text) "dir".toList 3 ≠ 0 := by
    simp [strncmp, NUL]
  have h11 : strncmp ("fgcolor ".toList ++ text) "delfile ".toList 8 ≠ 0 := by
    simp [strncmp, NUL]
  have h12 : strncmp ("fgcolor ".toList ++ text) "clear".toList 6 ≠ 0 := by
    simp [strncmp, NUL]
  have h13 : strncmp ("fgcolor ".toList ++ text) "calc ".toList 5 ≠ 0 := by
    simp [strncmp, NUL]
  have h14 : strncmp ("fgcolor ".toList ++ text) "about".toList 6 ≠ 0 := by
    simp [strncmp, NUL]
  have h15 : strncmp ("fgcolor ".toList ++ text) "version".toList 8 ≠ 0 := by
    simp [strncmp, NUL]
  have h16 : strncmp ("fgcolor ".toList ++ text) "halt".toList 5 ≠ 0 := by
    simp [strncmp, NUL]
  have h17 : strncmp ("fgcolor ".toList ++ text) "reboot".toList 7 ≠ 0 := by
    simp [strncmp, NUL]
  have h18 : strncmp ("fgcolor ".toList ++ text) "bgcolor".toList 8 ≠ 0 := by
    simp [strncmp, NUL]
  have h19 : strncmp ("fgcolor ".toList ++ text) "fgcolor".toList 8 ≠ 0 := by
    simp [strncmp, NUL]
  have h20 : strncmp ("fgcolor ".toList ++ text) "echo".toList 5 ≠ 0 := by
    simp [strncmp, NUL]
  unfold handle_command
  rw [if_neg h0, if_neg h1, if_neg h2, if_neg h3, if_neg h4, if_neg h5, if_neg h6, if_neg h7, if_neg h8, if_neg h9, if_neg h10, if_neg h11, if_neg h12, if_neg h13, if_neg h14, if_neg h15, if_neg h16, if_neg h17, if_neg h18, if_neg h19, if_neg h20]
theorem vga_putc_color (v : Vga) (c : Char) : (vga_putc v c).vga_color = v.vga_color := by
  unfold vga_putc
  simp only
  split_ifs <;> rfl

theorem vga_write_color (v : Vga) (p : List Char) : (vga_write v p).vga_color = v.vga_color := by
  induction p generalizing v with
  | nil => rfl
  | cons c p ih =>
    unfold vga_write
    split_ifs
    · rfl
    · rw [ih, vga_putc_color]

set_option maxRecDepth 100000 in
/-- C13 (code at the failing input): for every text the dispatcher answers the line
`echo <text>` with the unknown-command report and writes nothing else; typed on the fresh store,
`echo hi` is echoed by the line editor as typed and then answered with the report. -/
theorem echo_line_rejected :
    (∀ (s : State) (text : List Char),
      (handle_command s ("echo ".toList ++ text)).1.vga.out =
        s.vga.out ++ "\nUnknown command. Type help for commands.\n".toList) ∧
    (start_loop (fs_init boot) "echo hi\n".toList).vga.out =
      (fs_init boot).vga.out ++
        "echo hi\nUnknown command. Type help for commands.\n\n[ibant]> ".toList := by
  constructor
  · intro s text
    have e : cstr "\nUnknown command. Type help for commands.\n".toList =
        "\nUnknown command. Type help for commands.\n".toList := by simp [cstr, NUL]
    rw [echo_text_unknown, vga_write_out, e]
  · decide

set_option maxRecDepth 100000 in
/-- C14 (code at the failing input): for every text the dispatcher answers the lines
`bgcolor <text>` and `fgcolor <text>` with the unknown-command report and leaves the display
colour as it was; typed on the fresh store, `bgcolor 5` leaves the colour at 14, the
value of the boot image. -/
theorem color_line_rejected :
    (∀ (s : State) (text : List Char),
      (handle_command s ("bgcolor ".toList ++ text)).1.vga.out =
        s.vga.out ++ "\nUnknown command. Type help for commands.\n".toList ∧
      (handle_command s ("bgcolor ".toList ++ text)).1.vga.vga_color = s.vga.vga_color ∧
      (handle_command s ("fgcolor ".toList ++ text)).1.vga.out =
        s.vga.out ++ "\nUnknown command. Type help for commands.\n".toList ∧
      (handle_command s ("fgcolor ".toList ++ text)).1.vga.vga_color = s.vga.vga_color) ∧
    (fs_init boot).vga.vga_color = 14 ∧
    (start_loop (fs_init boot) "bgcolor 5\n".toList).vga.vga_color = 14 ∧
    (start_loop (fs_init boot) "bgcolor 5\n".toList).vga.out =
      (fs_init boot).vga.out ++
        "bgcolor 5\nUnknown command. Type help for commands.\n\n[ibant]> ".toList := by
  refine ⟨fun s text => ?_, by decide, by decide, by decide⟩
  have e : cstr "\nUnknown command. Type help for commands.\n".toList =
      "\nUnknown command. Type help for commands.\n".toList := by simp [cstr, NUL]
  rw [bgcolor_text_unknown, fgcolor_text_unknown]
  exact ⟨by rw [vga_write_out, e], vga_write_color _ _, by rw [vga_write_out, e],
    vga_write_color _ _⟩
/-! ## The calculator -/

theorem digitChar_digit (d : Nat) (h : d < 10) :
    Nat.digitChar d = Char.ofNat (48 + d) ∧ isDigit (Nat.digitChar d) = true ∧
    ((Nat.digitChar d).toNat : Int) - 48 = d := by
  interval_cases d <;> decide

theorem toDigitsCore_append (fuel n : Nat) (ds r : List Char) :
    Nat.toDigitsCore 10 fuel n ds ++ r = Nat.toDigitsCore 10 fuel n (ds ++ r) := by
  induction fuel generalizing n ds with
  | zero => rfl
  | succ fuel ih =>
    simp only [Nat.toDigitsCore]
    split_ifs
    · rfl
    · rw [ih]; rfl

theorem toDigitsCore_fuel (f1 f2 n : Nat) (ds : List Char) (h1 : n < f1) (h2 : n < f2) :
    Nat.toDigitsCore 10 f1 n ds = Nat.toDigitsCore 10 f2 n ds := by
  induction f1 generalizing f2 n ds with
  | zero => omega
  | succ f1 ih =>
    cases f2 with
    | zero => omega
    | succ f2 =>
      simp only [Nat.toDigitsCore]
      split_ifs with h
      · rfl
      · have : n / 10 < n := Nat.div_lt_self (by omega) (by decide)
        exact ih f2 _ _ (by omega) (by omega)

theorem wrap32_id (x : Int) (h1 : -2147483648 ≤ x) (h2 : x < 2147483648) : wrap32 x = x := by
  unfold wrap32
  omega

theorem atoi_loop_nondigit (str : List Char) (res : Int)
    (h : ∀ c, str.head? = some c → isDigit c = false) : atoi_loop str res = res := by
  cases str with
  | nil => rfl
  | cons c str =>
    have := h c rfl
    simp [atoi_loop, this]

theorem atoi_step (res d : Nat) (h : res * 10 + d < 2147483648) :
    wrap32 (wrap32 ((res : Int) * 10) + (d : Int)) = ((res * 10 + d : Nat) : Int) := by
  unfold wrap32
  omega

/-- Reading back a number written in decimal: `atoi` accumulates its value. -/
theorem atoi_loop_toDigitsCore (fuel n : Nat) (ds : List Char) (hn : n < 2147483648)
    (hf : n < fuel) :
    atoi_loop (Nat.toDigitsCore 10 fuel n ds) 0 = atoi_loop ds n := by
  induction fuel generalizing n ds with
  | zero => omega
  | succ fuel ih =>
    obtain ⟨_, hd, hv⟩ := digitChar_digit (n % 10) (Nat.mod_lt _ (by decide))
    simp only [Nat.toDigitsCore]
    split_ifs with h
    · simp only [atoi_loop, hd, if_true, hv]
      have := atoi_step 0 (n % 10) (by omega)
      simp only [Nat.cast_zero] at this
      rw [this]
      have e : 0 * 10 + n % 10 = n := by omega
      rw [e]
    · have hlt : n / 10 < n := Nat.div_lt_self (by omega) (by decide)
      rw [ih (n / 10) _ (by omega) (by omega)]
      simp only [atoi_loop, hd, if_true, hv]
      rw [atoi_step (n / 10) (n % 10) (by omega)]
      have e : n / 10 * 10 + n % 10 = n := by omega
      rw [e]

theorem dropWhile_toDigitsCore (fuel n : Nat) (ds : List Char) :
    (Nat.toDigitsCore 10 fuel n ds).dropWhile isDigit = ds.dropWhile isDigit := by
  induction fuel generalizing n ds with
  | zero => rfl
  | succ fuel ih =>
    obtain ⟨_, hd, _⟩ := digitChar_digit (n % 10) (Nat.mod_lt _ (by decide))
    simp only [Nat.toDigitsCore]
    split_ifs
    · simp [List.dropWhile, hd]
    · rw [ih]
      simp [List.dropWhile, hd]

theorem toDigitsCore_all_digits (fuel n : Nat) (ds : List Char)
    (h : ∀ c, c ∈ ds → isDigit c = true) :
    ∀ c, c ∈ Nat.toDigitsCore 10 fuel n ds → isDigit c = true := by
  induction fuel generalizing n ds with
  | zero => exact h
  | succ fuel ih =>
    obtain ⟨_, hd, _⟩ := digitChar_digit (n % 10) (Nat.mod_lt _ (by decide))
    have h2 : ∀ c, c ∈ Nat.digitChar (n % 10) :: ds → isDigit c = true := by
      intro c hc
      rcases List.mem_cons.mp hc with e | e
      · rw [e]; exact hd
      · exact h c e
    simp only [Nat.toDigitsCore]
    split_ifs
    · exact h2
    · exact ih _ _ h2

theorem toDigitsCore_acc_ne_nil (fuel n : Nat) (ds : List Char) (h : ds ≠ []) :
    Nat.toDigitsCore 10 fuel n ds ≠ [] := by
  induction fuel generalizing n ds with
  | zero => exact h
  | succ fuel ih =>
    simp only [Nat.toDigitsCore]
    split_ifs
    · simp
    · exact ih _ _ (by simp)

theorem toDigitsCore_ne_nil (fuel n : Nat) (ds : List Char) (hf : 0 < fuel) :
    Nat.toDigitsCore 10 fuel n ds ≠ [] := by
  cases fuel with
  | zero => omega
  | succ fuel =>
    simp only [Nat.toDigitsCore]
    split_ifs
    · simp
    · exact toDigitsCore_acc_ne_nil _ _ _ (by simp)

theorem dec_digits (n : Nat) : ∀ c, c ∈ dec n → isDigit c = true :=
  toDigitsCore_all_digits _ _ [] (fun c hc => absurd hc (by simp))

theorem dec_ne_nil (n : Nat) : dec n ≠ [] := toDigitsCore_ne_nil _ _ [] (by omega)

theorem calc_digits_stop (k : Nat) (acc : List Char) : calc_digits k 0 acc = acc := by
  cases k <;> simp [calc_digits]

/-- The digit loop of `calc_command` writes a positive number as `Nat.toDigits` does. -/
theorem calc_digits_nat (k n : Nat) (acc : List Char) (hpos : 0 < n) (hk : n < 10 ^ k) :
    calc_digits k (n : Int) acc = Nat.toDigitsCore 10 (n + 1) n acc := by
  induction k generalizing n acc with
  | zero => simp at hk; omega
  | succ k ih =>
    obtain ⟨hd, _, _⟩ := digitChar_digit (n % 10) (Nat.mod_lt _ (by decide))
    have hgt : (n : Int) > 0 := by omega
    have e1 : (n : Int) / 10 = ((n / 10 : Nat) : Int) := by omega
    have e2 : ((n : Int) % 10).toNat = n % 10 := by omega
    simp only [calc_digits, if_pos hgt, e1, e2, Nat.toDigitsCore, ← hd]
    split_ifs with h
    · rw [h]
      exact calc_digits_stop k _
    · have hlt : n / 10 < n := Nat.div_lt_self hpos (by decide)
      have hk2 : n / 10 < 10 ^ k := by
        rw [Nat.div_lt_iff_lt_mul (by decide)]
        rw [pow_succ] at hk
        exact hk
      rw [ih (n / 10) _ (by omega) hk2]
      exact toDigitsCore_fuel _ _ _ _ (by omega) (by omega)

/-- The text `calc_command` builds for a result in the 32-bit range is its decimal rendering. -/
theorem calc_render_eq (r : Int) (hlo : -2147483648 < r) (hhi : r < 2147483648) :
    calc_render r = render_int r := by
  have h10 : (10 : Nat) ^ 10 = 10000000000 := by norm_num
  unfold calc_render render_int dec Nat.toDigits
  by_cases h0 : r = 0
  · subst h0
    decide
  · by_cases hneg : r < 0
    · obtain ⟨m, rfl⟩ : ∃ m : Nat, r = -(m : Int) := ⟨(-r).toNat, by omega⟩
      have hw : wrap32 (-(-(m : Int))) = (m : Int) := by
        rw [neg_neg]
        exact wrap32_id _ (by omega) (by omega)
      have ht : (-(-(m : Int))).toNat = m := by omega
      simp only [if_neg h0, if_pos hneg, hw, ht]
      rw [calc_digits_nat 10 m [] (by omega) (by rw [h10]; omega)]
    · obtain ⟨m, rfl⟩ : ∃ m : Nat, r = (m : Int) := ⟨r.toNat, by omega⟩
      have ht : ((m : Int)).toNat = m := by omega
      simp only [if_neg h0, if_neg hneg, ht]
      rw [calc_digits_nat 10 m [] (by omega) (by rw [h10]; omega)]

theorem render_int_no_nul (r : Int) : NUL ∉ render_int r := by
  have hn : isDigit NUL = false := by decide
  unfold render_int
  split_ifs
  · intro h
    rcases List.mem_cons.mp h with e | e
    · revert e; decide
    · have := dec_digits _ _ e
      rw [hn] at this
      cases this
  · intro h
    have := dec_digits _ _ h
    rw [hn] at this
    cases this

theorem atoi_dec (n : Nat) (rest : List Char) (hn : n < 2147483648)
    (hrest : ∀ c, rest.head? = some c → isDigit c = false) : atoi (dec n ++ rest) = n := by
  unfold atoi dec Nat.toDigits
  rw [toDigitsCore_append, atoi_loop_toDigitsCore _ _ _ hn (by omega)]
  exact atoi_loop_nondigit _ _ (by simpa using hrest)

theorem dropWhile_dec (n : Nat) (rest : List Char) :
    (dec n ++ rest).dropWhile isDigit = rest.dropWhile isDigit := by
  unfold dec Nat.toDigits
  rw [toDigitsCore_append, dropWhile_toDigitsCore]
  rfl

theorem dropWhile_space_dec (n : Nat) (tail : List Char) :
    (dec n ++ tail).dropWhile (fun c => c == ' ') = dec n ++ tail := by
  have hne := dec_ne_nil n
  have hd := dec_digits n
  cases h : dec n with
  | nil => exact absurd h hne
  | cons c rest =>
    have hc : isDigit c = true := hd c (by rw [h]; simp)
    have : c ≠ ' ' := by
      rintro rfl
      revert hc
      decide
    have hb : (c == ' ') = false := by simpa using this
    simp only [List.cons_append, List.dropWhile, hb, List.append_eq]

/-- What `calc_command` scans on the line `calc a op b` (followed by `tail`, the terminator
and what lies behind it in the buffer): the operator is `op` and the second operand is read
from the text of `b`. -/
theorem calc_command_scan (a b : Nat) (op : Char) (tail : List Char)
    (hop : op = '+' ∨ op = '-' ∨ op = '*' ∨ op = '/') :
    (calc_line a op b ++ tail).drop 5 = dec a ++ ' ' :: op :: ' ' :: (dec b ++ tail) ∧
    charAt ((((calc_line a op b ++ tail).drop 5).dropWhile isDigit).dropWhile
      (fun c => c == ' ')) 0 = op ∧
    ((((((calc_line a op b ++ tail).drop 5).dropWhile isDigit).dropWhile
      (fun c => c == ' ')).drop 1).dropWhile (fun c => c == ' ')) = dec b ++ tail := by
  have hsp : isDigit ' ' = false := by decide
  have hopd : isDigit op = false := by
    rcases hop with e | e | e | e <;> (rw [e]; decide)
  have hops : (op == ' ') = false := by
    rcases hop with e | e | e | e <;> (rw [e]; decide)
  have h5 : (calc_line a op b ++ tail).drop 5 = dec a ++ ' ' :: op :: ' ' :: (dec b ++ tail) := by
    simp [calc_line]
  rw [h5, dropWhile_dec]
  refine ⟨rfl, ?_, ?_⟩
  · simp [List.dropWhile, hsp, hops]
  · simp only [List.dropWhile, hsp, hops, List.drop_succ_cons, List.drop_zero]
    simp only [show ((' ' : Char) == ' ') = true by decide]
    exact dropWhile_space_dec b tail

/-- The first operand of the line `calc a op b` parses as `a`. -/
theorem calc_command_parse (a b : Nat) (op : Char) (tail : List Char) (ha : a < 2147483648)
    (hop : op = '+' ∨ op = '-' ∨ op = '*' ∨ op = '/') :
    atoi ((calc_line a op b ++ tail).drop 5) = a := by
  have hsp : isDigit ' ' = false := by decide
  rw [(calc_command_scan a b op tail hop).1]
  exact atoi_dec a _ ha (by simp [hsp])
theorem calc_write_result (v : Vga) (r : Int) (hlo : -2147483648 < r) (hhi : r < 2147483648) :
    (vga_write (vga_write (vga_write v "= ".toList) (calc_render (wrap32 r))) "\n".toList).out =
      v.out ++ ("= ".toList ++ (render_int r ++ "\n".toList)) := by
  have e1 : cstr "= ".toList = "= ".toList := by simp [cstr, NUL]
  have e2 : cstr "\n".toList = "\n".toList := by simp [cstr, NUL]
  rw [wrap32_id r (by omega) hhi, calc_render_eq r hlo hhi]
  simp only [vga_write_out, e1, e2, cstr_of_no_nul _ (render_int_no_nul r), List.append_assoc]

/-- C11: for `a`, `b` below 2^31 written in decimal and `op` one of `+ - * /` (with `b` not 0
for `/`) whose exact result lies in the signed 32-bit range, `calc_command` on the line
`calc a op b` (ending there, or at a terminator followed by whatever the buffer holds) writes
`= `, the decimal rendering of the exact result (division truncating, a leading `-` when
negative, `0` for zero) and a newline. -/
theorem calc_exact (v : Vga) (a b : Nat) (op : Char) (tail : List Char) (ha : a < 2147483648)
    (hb : b < 2147483648) (hop : op = '+' ∨ op = '-' ∨ op = '*' ∨ op = '/')
    (hdiv : op = '/' → b ≠ 0)
    (hrange : -2147483648 ≤ exact_result a op b ∧ exact_result a op b < 2147483648)
    (htail : tail = [] ∨ tail.head? = some NUL) :
    (calc_command v (calc_line a op b ++ tail)).out =
      v.out ++ ("= ".toList ++ (render_int (exact_result a op b) ++ "\n".toList)) := by
  have h1 := calc_command_parse a b op tail ha hop
  obtain ⟨_, h2, h3⟩ := calc_command_scan a b op tail hop
  have hbv : atoi (dec b ++ tail) = b := by
    apply atoi_dec b tail hb
    intro c hc
    rcases htail with e | e
    · rw [e] at hc; cases hc
    · rw [e] at hc
      cases hc
      decide
  unfold calc_command
  simp only [h1, h2, h3, hbv]
  rcases hop with e | e | e | e
  · subst e
    have hr : exact_result a '+' b = (a : Int) + b := by simp [exact_result]
    rw [hr] at hrange ⊢
    rw [if_pos rfl]
    exact calc_write_result v _ (by omega) hrange.2
  · subst e
    have hr : exact_result a '-' b = (a : Int) - b := by simp [exact_result]
    rw [hr] at hrange ⊢
    rw [if_neg (by decide), if_pos rfl]
    exact calc_write_result v _ (by omega) hrange.2
  · subst e
    have hr : exact_result a '*' b = (a : Int) * b := by simp [exact_result]
    rw [hr] at hrange ⊢
    rw [if_neg (by decide), if_neg (by decide), if_pos rfl]
    have hnn : (0 : Int) ≤ (a : Int) * b := by positivity
    exact calc_write_result v _ (by omega) hrange.2
  · subst e
    have hr : exact_result a '/' b = ((a / b : Nat) : Int) := by simp [exact_result]
    have hb0 : ¬ ((b : Int) = 0) := by
      have := hdiv rfl
      omega
    rw [hr] at hrange ⊢
    rw [if_neg (by decide), if_neg (by decide), if_neg (by decide), if_pos rfl, if_neg hb0,
      ← Int.ofNat_tdiv]
    have hnn : (0 : Int) ≤ ((a / b : Nat) : Int) := Int.ofNat_nonneg _
    exact calc_write_result v ((a / b : Nat) : Int) (by omega) hrange.2

set_option maxRecDepth 100000 in
/-- C11 (witness): `calc 7 + 5` yields 12 and `calc 9 - 20` yields -11. -/
theorem calc_exact_witness :
    calc_line 7 '+' 5 ++ [] = "calc 7 + 5".toList ∧
    calc_line 9 '-' 20 ++ [] = "calc 9 - 20".toList ∧
    (calc_command boot.vga "calc 7 + 5".toList).out = boot.vga.out ++ "= 12\n".toList ∧
    (calc_command boot.vga "calc 9 - 20".toList).out = boot.vga.out ++ "= -11\n".toList :=
  ⟨by decide, by decide,
    calc_exact boot.vga 7 5 '+' [] (by decide) (by decide) (Or.inl rfl) (fun h => by cases h)
      (by decide) (Or.inl rfl),
    calc_exact boot.vga 9 20 '-' [] (by decide) (by decide) (Or.inr (Or.inl rfl))
      (fun h => by cases h) (by decide) (Or.inl rfl)⟩

/-- The dispatcher on a line that begins with `calc `: the display colour is set, the
calculator runs on the whole line, the colour is set again, and the call returns. -/
theorem handle_command_calc (s : State) (rest : List Char) :
    handle_command s ("calc ".toList ++ rest) =
      ({ s with vga := vga_set_color (calc_command (vga_set_color s.vga 10 0)
          ("calc ".toList ++ rest)) 1 0 }, Control.returns) := by
  have h0 : strncmp ("calc ".toList ++ rest) "help".toList 5 ≠ 0 := by
    simp [strncmp, NUL]
  have h1 : strncmp ("calc ".toList ++ rest) "\n".toList 1 ≠ 0 := by
    simp [strncmp, NUL]
  have h2 : strncmp ("calc ".toList ++ rest) "vgatest".toList 8 ≠ 0 := by
    simp [strncmp, NUL]
  have h3 : strncmp ("calc ".toList ++ rest) "edfile ".toList 7 ≠ 0 := by
    simp [strncmp, NUL]
  have h4 : strncmp ("calc ".toList ++ rest) "cd ".toList 3 ≠ 0 := by
    simp [strncmp, NUL]
  have h5 : strncmp ("calc ".toList ++ rest) "ls".toList 2 ≠ 0 := by
    simp [strncmp, NUL]
  have h6 : strncmp ("calc ".toList ++ rest) "mkfile ".toList 7 ≠ 0 := by
    simp [strncmp, NUL]
  have h7 : strncmp ("calc ".toList ++ rest) "mkdir ".toList 6 ≠ 0 := by
    simp [strncmp, NUL]
  have h8 : strncmp ("calc ".toList ++ rest) "rdfile ".toList 7 ≠ 0 := by
    simp [strncmp, NUL]
  have h9 : strncmp ("calc ".toList ++ rest) "dir ~".toList 5 ≠ 0 := by
    simp [strncmp, NUL]
  have h10 : strncmp ("calc ".toList ++ rest) "dir".toList 3 ≠ 0 := by
    simp [strncmp, NUL]
  have h11 : strncmp ("calc ".toList ++ rest) "delfile ".toList 8 ≠ 0 := by
    simp [strncmp, NUL]
  have h12 : strncmp ("calc ".toList ++ rest) "clear".toList 6 ≠ 0 := by
    simp [strncmp, NUL]
  have hc : strncmp ("calc ".toList ++ rest) "calc ".toList 5 = 0 := by
    simp [strncmp, NUL]
  unfold handle_command
  rw [if_neg h0, if_neg h1, if_neg h2, if_neg h3, if_neg h4, if_neg h5, if_neg h6, if_neg h7, if_neg h8, if_neg h9, if_neg h10, if_neg h11, if_neg h12, if_pos hc]

/-- C12: for every non-negative integer `a`, `calc_command` on the line `calc a / 0` writes
the division-by-zero report and nothing else (no `= ` result line), whatever `a` is; the
dispatcher returns from that line, with the node table untouched. -/
theorem calc_division_by_zero (s : State) (a : Nat) (tail : List Char)
    (htail : tail = [] ∨ tail.head? = some NUL) :
    (calc_command s.vga (calc_line a '/' 0 ++ tail)).out =
      s.vga.out ++ "division by zero\n".toList ∧
    (handle_command s (calc_line a '/' 0 ++ tail)).2 = Control.returns ∧
    (handle_command s (calc_line a '/' 0 ++ tail)).1.vga.out =
      s.vga.out ++ "division by zero\n".toList ∧
    (handle_command s (calc_line a '/' 0 ++ tail)).1.nodes = s.nodes := by
  have hout : ∀ v : Vga, (calc_command v (calc_line a '/' 0 ++ tail)).out =
      v.out ++ "division by zero\n".toList := by
    intro v
    obtain ⟨_, h2, h3⟩ := calc_command_scan a 0 '/' tail (Or.inr (Or.inr (Or.inr rfl)))
    have hbv : atoi (dec 0 ++ tail) = 0 := by
      have := atoi_dec 0 tail (by decide) (by
        intro c hc
        rcases htail with e | e
        · rw [e] at hc; cases hc
        · rw [e] at hc
          cases hc
          decide)
      simpa using this
    have e : cstr "division by zero\n".toList = "division by zero\n".toList := by
      simp [cstr, NUL]
    unfold calc_command
    simp only [h2, h3, hbv]
    rw [if_neg (by decide), if_neg (by decide), if_neg (by decide), if_pos trivial,
      if_pos trivial, vga_write_out, e]
  have hline : calc_line a '/' 0 ++ tail = "calc ".toList ++ (dec a ++ ' ' :: '/' :: ' ' ::
      dec 0 ++ tail) := by
    simp [calc_line]
  refine ⟨hout s.vga, ?_, ?_, ?_⟩
  · rw [hline, handle_command_calc]
  · rw [hline, handle_command_calc, ← hline]
    exact hout (vga_set_color s.vga 10 0)
  · rw [hline, handle_command_calc]

set_option maxRecDepth 100000 in
/-- C12 (witness): `calc 6 / 0`. -/
theorem calc_division_by_zero_witness :
    calc_line 6 '/' 0 ++ [] = "calc 6 / 0".toList ∧
    (calc_command (fs_init boot).vga "calc 6 / 0".toList).out =
      (fs_init boot).vga.out ++ "division by zero\n".toList ∧
    (handle_command (fs_init boot) "calc 6 / 0".toList).2 = Control.returns :=
  ⟨by decide, (calc_division_by_zero (fs_init boot) 6 [] (Or.inl rfl)).1,
    (calc_division_by_zero (fs_init boot) 6 [] (Or.inl rfl)).2.1⟩
/-! ## Unrecognised lines -/

/-- A successful `strncmp` against a NUL-free text: the compared part of the text begins the
string. -/
theorem strncmp_zero_starts (p q : List Char) (n : Nat) (hq : NUL ∉ q)
    (h : strncmp p q n = 0) : q.take n <+: cstr p := by
  induction n generalizing p q with
  | zero => simp
  | succ n ih =>
    cases q with
    | nil => simp
    | cons d q =>
      have hd : d ≠ NUL := fun e => hq (by simp [e])
      have hq2 : NUL ∉ q := fun e => hq (by simp [e])
      cases p with
      | nil =>
        simp only [strncmp, charAt_nil, charAt_cons_zero] at h
        rw [if_pos (Or.inr (Or.inl trivial))] at h
        exact absurd ((char_sub_eq_zero NUL d).mp h).symm hd
      | cons a p =>
        simp only [strncmp, charAt_cons_zero] at h
        by_cases hc : a ≠ d ∨ a = NUL ∨ d = NUL
        · rw [if_pos hc] at h
          have had := (char_sub_eq_zero a d).mp h
          rcases hc with e | e | e
          · exact absurd had e
          · exact absurd (had ▸ e) hd
          · exact absurd e hd
        · rw [if_neg hc] at h
          have hc2 : a = d ∧ a ≠ NUL := by
            constructor
            · by_contra e; exact hc (Or.inl e)
            · intro e; exact hc (Or.inr (Or.inl e))
          have := ih p q hq2 (by simpa using h)
          rw [cstr_cons, if_neg hc2.2, hc2.1, List.take_succ_cons]
          exact List.prefix_cons_inj d |>.mpr this

/-- C15: a command line without newline that begins with none of the verbs of the command
grammar makes `handle_command` write the unknown-command report and return; the node table,
the current directory, the input mode, the edit target and the arena offset are unchanged. -/
theorem unknown_command (s : State) (cmd : List Char) (hnl : '\n' ∉ cstr cmd)
    (hverb : ∀ v, v ∈ verbs → ¬ v <+: cstr cmd) :
    handle_command s cmd =
      ({ s with vga := vga_write s.vga "\nUnknown command. Type help for commands.\n".toList },
        Control.returns) ∧
    (handle_command s cmd).1.vga.out =
      s.vga.out ++ "\nUnknown command. Type help for commands.\n".toList ∧
    (handle_command s cmd).1.nodes = s.nodes ∧
    (handle_command s cmd).1.fs_cwd = s.fs_cwd ∧
    (handle_command s cmd).1.fs_root = s.fs_root ∧
    (handle_command s cmd).1.fs_edit_mode = s.fs_edit_mode ∧
    (handle_command s cmd).1.fs_edit_file = s.fs_edit_file ∧
    (handle_command s cmd).1.heap_pos = s.heap_pos := by
  have h0 : strncmp cmd "help".toList 5 ≠ 0 := by
    intro h
    have hp := strncmp_zero_starts cmd "help".toList 5 (by decide) h
    exact hverb "help".toList (by decide) (List.IsPrefix.trans (by decide) hp)
  have h1 : strncmp cmd "\n".toList 1 ≠ 0 := by
    intro h
    have hp := strncmp_zero_starts cmd "\n".toList 1 (by decide) h
    exact hnl (hp.subset (by decide))
  have h2 : strncmp cmd "vgatest".toList 8 ≠ 0 := by
    intro h
    have hp := strncmp_zero_starts cmd "vgatest".toList 8 (by decide) h
    exact hverb "vgatest".toList (by decide) (List.IsPrefix.trans (by decide) hp)
  have h3 : strncmp cmd "edfile ".toList 7 ≠ 0 := by
    intro h
    have hp := strncmp_zero_starts cmd "edfile ".toList 7 (by decide) h
    exact hverb "edfile".toList (by decide) (List.IsPrefix.trans (by decide) hp)
  have h4 : strncmp cmd "cd ".toList 3 ≠ 0 := by
    intro h
    have hp := strncmp_zero_starts cmd "cd ".toList 3 (by decide) h
    exact hverb "cd".toList (by decide) (List.IsPrefix.trans (by decide) hp)
  have h5 : strncmp cmd "ls".toList 2 ≠ 0 := by
    intro h
    have hp := strncmp_zero_starts cmd "ls".toList 2 (by decide) h
    exact hverb "ls".toList (by decide) (List.IsPrefix.trans (by decide) hp)
  have h6 : strncmp cmd "mkfile ".toList 7 ≠ 0 := by
    intro h
    have hp := strncmp_zero_starts cmd "mkfile ".toList 7 (by decide) h
    exact hverb "mkfile".toList (by decide) (List.IsPrefix.trans (by decide) hp)
  have h7 : strncmp cmd "mkdir ".toList 6 ≠ 0 := by
    intro h
    have hp := strncmp_zero_starts cmd "mkdir ".toList 6 (by decide) h
    exact hverb "mkdir".toList (by decide) (List.IsPrefix.trans (by decide) hp)
  have h8 : strncmp cmd "rdfile ".toList 7 ≠ 0 := by
    intro h
    have hp := strncmp_zero_starts cmd "rdfile ".toList 7 (by decide) h
    exact hverb "rdfile".toList (by decide) (List.IsPrefix.trans (by decide) hp)
  have h9 : strncmp cmd "dir ~".toList 5 ≠ 0 := by
    intro h
    have hp := strncmp_zero_starts cmd "dir ~".toList 5 (by decide) h
    exact hverb "dir".toList (by decide) (List.IsPrefix.trans (by decide) hp)
  have h10 : strncmp cmd "dir".toList 3 ≠ 0 := by
    intro h
    have hp := strncmp_zero_starts cmd "dir".toList 3 (by decide) h
    exact hverb "dir".toList (by decide) (List.IsPrefix.trans (by decide) hp)
  have h11 : strncmp cmd "delfile ".toList 8 ≠ 0 := by
    intro h
    have hp := strncmp_zero_starts cmd "delfile ".toList 8 (by decide) h
    exact hverb "delfile".toList (by decide) (List.IsPrefix.trans (by decide) hp)
  have h12 : strncmp cmd "clear".toList 6 ≠ 0 := by
    intro h
    have hp := strncmp_zero_starts cmd "clear".toList 6 (by decide) h
    exact hverb "clear".toList (by decide) (List.IsPrefix.trans (by decide) hp)
  have h13 : strncmp cmd "calc ".toList 5 ≠ 0 := by
    intro h
    have hp := strncmp_zero_starts cmd "calc ".toList 5 (by decide) h
    exact hverb "calc".toList (by decide) (List.IsPrefix.trans (by decide) hp)
  have h14 : strncmp cmd "about".toList 6 ≠ 0 := by
    intro h
    have hp := strncmp_zero_starts cmd "about".toList 6 (by decide) h
    exact hverb "about".toList (by decide) (List.IsPrefix.trans (by decide) hp)
  have h15 : strncmp cmd "version".toList 8 ≠ 0 := by
    intro h
    have hp := strncmp_zero_starts cmd "version".toList 8 (by decide) h
    exact hverb "version".toList (by decide) (List.IsPrefix.trans (by decide) hp)
  have h16 : strncmp cmd "halt".toList 5 ≠ 0 := by
    intro h
    have hp := strncmp_zero_starts cmd "halt".toList 5 (by decide) h
    exact hverb "halt".toList (by decide) (List.IsPrefix.trans (by decide) hp)
  have h17 : strncmp cmd "reboot".toList 7 ≠ 0 := by
    intro h
    have hp := strncmp_zero_starts cmd "reboot".toList 7 (by decide) h
    exact hverb "reboot".toList (by decide) (List.IsPrefix.trans (by decide) hp)
  have h18 : strncmp cmd "bgcolor".toList 8 ≠ 0 := by
    intro h
    have hp := strncmp_zero_starts cmd "bgcolor".toList 8 (by decide) h
    exact hverb "bgcolor".toList (by decide) (List.IsPrefix.trans (by decide) hp)
  have h19 : strncmp cmd "fgcolor".toList 8 ≠ 0 := by
    intro h
    have hp := strncmp_zero_starts cmd "fgcolor".toList 8 (by decide) h
    exact hverb "fgcolor".toList (by decide) (List.IsPrefix.trans (by decide) hp)
  have h20 : strncmp cmd "echo".toList 5 ≠ 0 := by
    intro h
    have hp := strncmp_zero_starts cmd "echo".toList 5 (by decide) h
    exact hverb "echo".toList (by decide) (List.IsPrefix.trans (by decide) hp)
  have hcmd : handle_command s cmd =
      ({ s with vga := vga_write s.vga "\nUnknown command. Type help for commands.\n".toList },
        Control.returns) := by
    unfold handle_command
    rw [if_neg h0, if_neg h1, if_neg h2, if_neg h3, if_neg h4, if_neg h5, if_neg h6, if_neg h7, if_neg h8, if_neg h9, if_neg h10, if_neg h11, if_neg h12, if_neg h13, if_neg h14, if_neg h15, if_neg h16, if_neg h17, if_neg h18, if_neg h19, if_neg h20]
  have e : cstr "\nUnknown command. Type help for commands.\n".toList =
      "\nUnknown command. Type help for commands.\n".toList := by simp [cstr, NUL]
  rw [hcmd]
  exact ⟨rfl, by rw [vga_write_out, e], rfl, rfl, rfl, rfl, rfl, rfl⟩

set_option maxRecDepth 100000 in
/-- C15 (witness): the line `hello` on the fresh store. -/
theorem unknown_command_witness :
    '\n' ∉ cstr "hello".toList ∧ (∀ v, v ∈ verbs → ¬ v <+: cstr "hello".toList) ∧
    (handle_command (fs_init boot) "hello".toList).1.vga.out =
      (fs_init boot).vga.out ++ "\nUnknown command. Type help for commands.\n".toList ∧
    (handle_command (fs_init boot) "hello".toList).1.nodes = (fs_init boot).nodes :=
  ⟨by decide, by decide,
    (unknown_command (fs_init boot) "hello".toList (by decide) (by decide)).2.1,
    (unknown_command (fs_init boot) "hello".toList (by decide) (by decide)).2.2.1⟩
/-! ## What the dispatcher leaves alone -/

theorem fold_vga (f : State → Nat → State)
    (hf : ∀ st i, ∃ w, f st i = { st with vga := w }) (l : List Nat) (s : State) :
    ∃ w, l.foldl f s = { s with vga := w } := by
  induction l generalizing s with
  | nil => exact ⟨s.vga, rfl⟩
  | cons i l ih =>
    obtain ⟨w, hw⟩ := hf s i
    obtain ⟨w2, hw2⟩ := ih (f s i)
    refine ⟨w2, ?_⟩
    rw [List.foldl_cons, hw2, hw]

theorem fs_ls_vga (s : State) : ∃ w, fs_ls s = { s with vga := w } := by
  unfold fs_ls
  exact fold_vga _ (fun st i => ⟨_, rfl⟩) _ s

theorem fs_dir_from_vga (s : State) (dir : Option Nat) :
    ∃ w, fs_dir_from s dir = { s with vga := w } := by
  unfold fs_dir_from
  apply fold_vga
  intro st i
  simp only
  split_ifs
  · exact ⟨_, rfl⟩
  · exact ⟨st.vga, rfl⟩

theorem cstr_terminated (p q : List Char) : cstr (p ++ NUL :: q) = cstr p := by
  induction p with
  | nil => simp [cstr_cons, cstr]
  | cons c p ih =>
    rw [List.cons_append, cstr_cons, cstr_cons, ih]

theorem array_bytes_update (buf : Nat → Char) (n : Nat) :
    array_bytes (Function.update buf n NUL) (n + 1) = array_bytes buf n ++ [NUL] := by
  unfold array_bytes
  rw [List.range_succ, List.map_append]
  congr 1
  · apply List.map_congr_left
    intro k hk
    exact Function.update_noteq (Nat.ne_of_lt (List.mem_range.mp hk)) _ _
  · simp

theorem arena_no_wrap (a n : Nat) (h : a + n ≤ sizeof_heap) : (a + n) % 4294967296 = a + n :=
  Nat.mod_eq_of_lt (Nat.lt_of_le_of_lt h (by decide))

/-- C19 (amended): committing the edit buffer inside the arena.  In file-edit mode with edit
target `a`, edit position `L` and `L + 1` bytes left in the arena, TAB advances the arena
offset by exactly `L + 1`, sets the size of `a` to `L` and its content buffer to the `L`
buffered bytes followed by NUL, whatever content `a` had before, and writes no other node.
After it `fs_rdfile` of a name whose first file is `a` shows the string of the buffered bytes
(only these, also when `a` had content from an earlier edit), `fs_rdfile` of a name whose
first file is another node shows what it showed before, and `fs_edfile_start` on a listed
file restarts the edit position at 0.  The region written is the `L + 1` bytes from the old
offset on, all inside the arena and above every byte handed out before, and no write leaves
the arena. -/
theorem commit_replaces (s : State) (a : Nat) (hmode : s.fs_edit_mode ≠ 0)
    (hfile : s.fs_edit_file = some a)
    (hroom : s.heap_pos + (s.fs_edit_pos + 1) ≤ sizeof_heap) :
    (read_input_char s '\t').1.heap_pos = s.heap_pos + (s.fs_edit_pos + 1) ∧
    ((read_input_char s '\t').1.nodes a).size = s.fs_edit_pos ∧
    ((read_input_char s '\t').1.nodes a).data =
      some (array_bytes s.fs_edit_buffer s.fs_edit_pos ++ [NUL]) ∧
    (∀ b, b ≠ a → (read_input_char s '\t').1.nodes b = s.nodes b) ∧
    (∀ name i, first_file_at s name i →
      first_file_at (read_input_char s '\t').1 name i ∧
      (fs_edfile_start (read_input_char s '\t').1 name).fs_edit_pos = 0 ∧
      ((deref s s.fs_cwd).children i = some a →
        (fs_rdfile (read_input_char s '\t').1 name).vga.out =
          (read_input_char s '\t').1.vga.out ++
            (cstr (array_bytes s.fs_edit_buffer s.fs_edit_pos) ++ "\n".toList)) ∧
      ((deref s s.fs_cwd).children i ≠ some a →
        (fs_rdfile (read_input_char s '\t').1 name).vga.out =
          (read_input_char s '\t').1.vga.out ++ (content (child s i) ++ "\n".toList))) ∧
    (kmalloc s (s.fs_edit_pos + 1)).1 = s.heap_pos ∧
    (∀ k, region s.heap_pos (s.fs_edit_pos + 1) k → s.heap_pos ≤ k ∧ k < sizeof_heap) ∧
    (read_input_char s '\t').1.overrun = s.overrun := by
  have hc := read_edit_commit s a hmode hfile
  rw [arena_no_wrap _ _ hroom, array_bytes_update, past_heap_false _ _ hroom,
    Bool.or_false] at hc
  have hn : (read_input_char s '\t').1.nodes = Function.update s.nodes a
      { s.nodes a with
        data := some (array_bytes s.fs_edit_buffer s.fs_edit_pos ++ [NUL])
        size := s.fs_edit_pos } := by rw [hc]
  have hcwd : (read_input_char s '\t').1.fs_cwd = s.fs_cwd := by rw [hc]
  have hsame : ∀ p, (deref (read_input_char s '\t').1 p).is_dir = (deref s p).is_dir ∧
      (deref (read_input_char s '\t').1 p).name = (deref s p).name ∧
      (deref (read_input_char s '\t').1 p).children = (deref s p).children ∧
      (deref (read_input_char s '\t').1 p).child_count = (deref s p).child_count := by
    intro p
    cases p with
    | none => exact ⟨rfl, rfl, rfl, rfl⟩
    | some b =>
      simp only [deref_some, hn]
      by_cases hb : b = a
      · subst hb
        simp only [Function.update_same, and_self]
      · simp only [Function.update_noteq hb, and_self]
  refine ⟨by rw [hc], by rw [hn, Function.update_same], by rw [hn, Function.update_same],
    fun b hb => by rw [hn, Function.update_noteq hb], ?_, rfl,
    fun k hk => ⟨hk.1, Nat.lt_of_lt_of_le hk.2 hroom⟩, by rw [hc]⟩
  intro name i hi
  have hi2 : first_file_at (read_input_char s '\t').1 name i :=
    (first_file_at_congr s _ name hcwd hsame i).mpr hi
  have hch : (deref (read_input_char s '\t').1 (read_input_char s '\t').1.fs_cwd).children i =
      (deref s s.fs_cwd).children i := by rw [hcwd, (hsame s.fs_cwd).2.2.1]
  refine ⟨hi2, by rw [fs_edfile_start_found _ name i hi2], ?_, ?_⟩
  · intro ha
    rw [(fs_rdfile_found _ name i hi2).1]
    unfold child
    rw [hch, ha]
    simp only [deref_some, hn, Function.update_same, content, cstr_terminated]
  · intro ha
    rw [(fs_rdfile_found _ name i hi2).1]
    unfold child
    rw [hch]
    cases hp : (deref s s.fs_cwd).children i with
    | none => rfl
    | some b =>
      have hb : b ≠ a := fun e => ha (by rw [hp, e])
      simp only [deref_some, hn, Function.update_noteq hb]

set_option maxRecDepth 100000 in
/-- C19 (witness): the second commit to the file `f` of the sample store, which held `ab` from
the first edit, with `c` in the edit buffer. -/
theorem commit_replaces_witness :
    reedit_store.fs_edit_mode ≠ 0 ∧ reedit_store.fs_edit_file = some 360 ∧
    reedit_store.heap_pos + (reedit_store.fs_edit_pos + 1) ≤ sizeof_heap ∧
    content (reedit_store.nodes 360) = "ab".toList ∧
    first_file_at reedit_store "f".toList 1 ∧
    ((read_input_char reedit_store '\t').1.nodes 360).size = reedit_store.fs_edit_pos ∧
    (fs_rdfile (read_input_char reedit_store '\t').1 "f".toList).vga.out =
      (read_input_char reedit_store '\t').1.vga.out ++
        (cstr (array_bytes reedit_store.fs_edit_buffer reedit_store.fs_edit_pos) ++
          "\n".toList) ∧
    cstr (array_bytes reedit_store.fs_edit_buffer reedit_store.fs_edit_pos) = "c".toList ∧
    (read_input_char reedit_store '\t').1.overrun = reedit_store.overrun :=
  ⟨by decide, by decide, by decide, by decide, by decide,
    (commit_replaces reedit_store 360 (by decide) (by decide) (by decide)).2.1,
    ((commit_replaces reedit_store 360 (by decide) (by decide) (by decide)).2.2.2.2.1
      "f".toList 1 (by decide)).2.2.1 (by decide),
    by decide,
    (commit_replaces reedit_store 360 (by decide) (by decide) (by decide)).2.2.2.2.2.2.2⟩

set_option maxRecDepth 100000 in
/-- C19 (counterexample): the second edit of `f` with the arena offset at 65535.  The
editor is in file-edit mode on the node at 360 with one character buffered; the commit copies
two bytes to the offsets 65535 and 65536, and the second one is not a byte of the arena. -/
theorem commit_past_arena :
    nearly_full_edit.fs_edit_mode ≠ 0 ∧ nearly_full_edit.fs_edit_file = some 360 ∧
    nearly_full_edit.fs_edit_pos = 1 ∧ nearly_full_edit.heap_pos = 65535 ∧
    sizeof_heap = 65536 ∧ nearly_full_edit.overrun = false ∧
    (read_input_char nearly_full_edit '\t').1.overrun = true :=
  ⟨by decide, by decide, by decide, by decide, by decide, by decide, by decide⟩

/-! ## What the operations do to the arena -/

theorem store_arena (s : State) (p : Option Nat) (nd : fs_node) :
    (store s p nd).heap_pos = s.heap_pos ∧ (store s p nd).overrun = s.overrun := by
  cases p <;> exact ⟨rfl, rfl⟩

theorem fs_cd_arena (s : State) (path : List Char) :
    (fs_cd s path).heap_pos = s.heap_pos ∧ (fs_cd s path).overrun = s.overrun := by
  rw [fs_cd_eq]
  cases fs_cd_walk s ((cd_body path).length + 1) (cd_start s path) (cd_body path) <;>
    exact ⟨rfl, rfl⟩

theorem fs_delfile_arena (s : State) (name : List Char) :
    (fs_delfile s name).heap_pos = s.heap_pos ∧ (fs_delfile s name).overrun = s.overrun := by
  unfold fs_delfile
  cases find_child s s.fs_cwd (is_file_named name) with
  | none => exact ⟨rfl, rfl⟩
  | some i =>
    show (store (store s _ _) _ _).heap_pos = s.heap_pos ∧
      (store (store s _ _) _ _).overrun = s.overrun
    rw [(store_arena _ _ _).1, (store_arena _ _ _).1, (store_arena _ _ _).2,
      (store_arena _ _ _).2]
    exact ⟨rfl, rfl⟩

theorem fs_edfile_start_arena (s : State) (name : List Char) :
    (fs_edfile_start s name).heap_pos = s.heap_pos ∧
    (fs_edfile_start s name).overrun = s.overrun := by
  unfold fs_edfile_start
  cases find_child s s.fs_cwd (is_file_named name) <;> exact ⟨rfl, rfl⟩

/-- The commit character in file-edit mode when the edit target is the null pointer. -/
theorem read_edit_commit_null (s : State) (hmode : s.fs_edit_mode ≠ 0)
    (hfile : s.fs_edit_file = none) :
    (read_input_char s '\t').1 =
      { s with
        fs_edit_buffer := Function.update s.fs_edit_buffer s.fs_edit_pos NUL
        heap_pos := (s.heap_pos + (s.fs_edit_pos + 1)) % 4294967296
        overrun := s.overrun || past_heap s.heap_pos (s.fs_edit_pos + 1)
        fs_edit_mode := 0
        fs_edit_file := none
        vga := vga_write (vga_write s.vga "\n-- SAVED --\n".toList) "[ibant]> ".toList } := by
  unfold read_input_char
  rw [if_pos hmode]
  simp [kmalloc, store, hfile]

/-! ## Tree well-formedness -/

/-- A step that keeps the root, the current directory and the tree fields of every node, and
does not lower the arena offset, keeps the invariant. -/
theorem inv_tree_congr (s t : State) (h : Inv s) (hroot : t.fs_root = s.fs_root)
    (hcwd : t.fs_cwd = s.fs_cwd) (hge : s.heap_pos ≤ t.heap_pos)
    (hle : t.heap_pos ≤ sizeof_heap)
    (hn : ∀ b, (t.nodes b).parent = (s.nodes b).parent ∧
      (t.nodes b).children = (s.nodes b).children ∧
      (t.nodes b).child_count = (s.nodes b).child_count) : Inv t := by
  constructor
  · exact hle
  · obtain ⟨r, h1, h2, h3⟩ := h.root
    exact ⟨r, by rw [hroot, h1], Nat.lt_of_lt_of_le h2 hge, by rw [(hn r).1, h3]⟩
  · intro c hc
    rw [hcwd] at hc
    exact Nat.lt_of_lt_of_le (h.cwd c hc) hge
  · intro a p hp
    rw [(hn a).1] at hp
    exact Nat.lt_of_lt_of_le (h.parent a p hp) hge
  · intro d i hi
    rw [(hn d).2.2] at hi
    obtain ⟨c, h1, h2, h3⟩ := h.child d i hi
    exact ⟨c, by rw [(hn d).2.1, h1], Nat.lt_of_lt_of_le h2 hge, by rw [(hn c).1, h3]⟩
  · intro d i j hi hj he
    rw [(hn d).2.2] at hi hj
    rw [(hn d).2.1] at he
    exact h.distinct d i j hi hj he
  · intro d
    rw [(hn d).2.2]
    exact h.count d
  · intro a ha
    rw [(hn a).1] at ha
    rw [hroot]
    exact h.self a ha

/-- A step that writes only the display keeps the invariant. -/
theorem inv_vga (s : State) (v : Vga) (h : Inv s) : Inv { s with vga := v } :=
  inv_tree_congr s _ h rfl rfl (Nat.le_refl _) h.heap (fun _ => ⟨rfl, rfl, rfl⟩)

/-- The invariant after a fresh node `nd` is placed at the arena offset and appended to the
children of the current directory `c`. -/
theorem inv_add_child (s t : State) (c : Nat) (nd : fs_node) (h : Inv s)
    (hc : s.fs_cwd = some c) (hroom : (s.nodes c).child_count < MAX_CHILDREN)
    (hfit : s.heap_pos + sizeof_fs_node ≤ sizeof_heap)
    (hp : nd.parent = some c) (hcnt : nd.child_count = 0)
    (hroot : t.fs_root = s.fs_root) (hcwd : t.fs_cwd = s.fs_cwd)
    (hheap : t.heap_pos = s.heap_pos + sizeof_fs_node)
    (hnodes : t.nodes = Function.update (Function.update s.nodes s.heap_pos nd) c
      (with_child (s.nodes c) s.heap_pos)) : Inv t := by
  have hcn : c < s.heap_pos := h.cwd c hc
  have hne : s.heap_pos ≠ c := Nat.ne_of_gt hcn
  have hlt : s.heap_pos < t.heap_pos := by rw [hheap]; unfold sizeof_fs_node; omega
  -- the tree fields of every node after the step
  have hc' : t.nodes c = with_child (s.nodes c) s.heap_pos := by
    rw [hnodes, Function.update_same]
  have hn' : t.nodes s.heap_pos = nd := by
    rw [hnodes, Function.update_noteq hne, Function.update_same]
  have ho' : ∀ b, b ≠ c → b ≠ s.heap_pos → t.nodes b = s.nodes b := by
    intro b h1 h2
    rw [hnodes, Function.update_noteq h1, Function.update_noteq h2]
  have hpar : ∀ b, b ≠ s.heap_pos → (t.nodes b).parent = (s.nodes b).parent := by
    intro b hb
    by_cases hbc : b = c
    · rw [hbc, hc']; rfl
    · rw [ho' b hbc hb]
  constructor
  · rw [hheap]; exact hfit
  · obtain ⟨r, h1, h2, h3⟩ := h.root
    exact ⟨r, by rw [hroot, h1], Nat.lt_trans h2 hlt,
      by rw [hpar r (Nat.ne_of_lt h2), h3]⟩
  · intro x hx
    rw [hcwd] at hx
    exact Nat.lt_trans (h.cwd x hx) hlt
  · intro a p hap
    by_cases ha : a = s.heap_pos
    · rw [ha, hn', hp] at hap
      cases hap
      exact Nat.lt_trans hcn hlt
    · rw [hpar a ha] at hap
      exact Nat.lt_trans (h.parent a p hap) hlt
  · intro d i hi
    by_cases hd : d = c
    · subst hd
      rw [hc'] at hi ⊢
      simp only [with_child] at hi ⊢
      by_cases hi2 : i = (s.nodes d).child_count
      · refine ⟨s.heap_pos, by rw [hi2, Function.update_same], hlt, by rw [hn', hp]⟩
      · obtain ⟨x, h1, h2, h3⟩ := h.child d i (by omega)
        exact ⟨x, by rw [Function.update_noteq hi2, h1], Nat.lt_trans h2 hlt,
          by rw [hpar x (Nat.ne_of_lt h2), h3]⟩
    · by_cases hd2 : d = s.heap_pos
      · rw [hd2, hn', hcnt] at hi
        exact absurd hi (Nat.not_lt_zero _)
      · rw [ho' d hd hd2] at hi ⊢
        obtain ⟨x, h1, h2, h3⟩ := h.child d i hi
        exact ⟨x, h1, Nat.lt_trans h2 hlt, by rw [hpar x (Nat.ne_of_lt h2), h3]⟩
  · intro d i j hi hj he
    by_cases hd : d = c
    · subst hd
      rw [hc'] at hi hj he
      simp only [with_child] at hi hj he
      by_cases hi2 : i = (s.nodes d).child_count
      · by_cases hj2 : j = (s.nodes d).child_count
        · rw [hi2, hj2]
        · obtain ⟨x, h1, h2, _⟩ := h.child d j (by omega)
          rw [hi2, Function.update_same, Function.update_noteq hj2, h1] at he
          cases he
          exact absurd h2 (Nat.lt_irrefl _)
      · by_cases hj2 : j = (s.nodes d).child_count
        · obtain ⟨x, h1, h2, _⟩ := h.child d i (by omega)
          rw [hj2, Function.update_same, Function.update_noteq hi2, h1] at he
          cases he
          exact absurd h2 (Nat.lt_irrefl _)
        · rw [Function.update_noteq hi2, Function.update_noteq hj2] at he
          exact h.distinct d i j (by omega) (by omega) he
    · by_cases hd2 : d = s.heap_pos
      · rw [hd2, hn', hcnt] at hi
        exact absurd hi (Nat.not_lt_zero _)
      · rw [ho' d hd hd2] at hi hj he
        exact h.distinct d i j hi hj he
  · intro d
    by_cases hd : d = c
    · rw [hd, hc']
      exact hroom
    · by_cases hd2 : d = s.heap_pos
      · rw [hd2, hn', hcnt]
        exact Nat.zero_le _
      · rw [ho' d hd hd2]
        exact h.count d
  · intro a ha
    by_cases ha2 : a = s.heap_pos
    · rw [ha2, hn', hp] at ha
      cases ha
      exact absurd rfl hne
    · rw [hpar a ha2] at ha
      rw [hroot]
      exact h.self a ha
/-- The invariant after a fresh node without parent is placed at the arena offset and listed
nowhere (what `fs_mkdir` and `fs_mkfile` do when there is no current directory). -/
theorem inv_add_orphan (s t : State) (nd : fs_node) (h : Inv s)
    (hfit : s.heap_pos + sizeof_fs_node ≤ sizeof_heap)
    (hp : nd.parent = none) (hcnt : nd.child_count = 0)
    (hroot : t.fs_root = s.fs_root) (hcwd : t.fs_cwd = s.fs_cwd)
    (hheap : t.heap_pos = s.heap_pos + sizeof_fs_node)
    (hnodes : t.nodes = Function.update s.nodes s.heap_pos nd) : Inv t := by
  have hlt : s.heap_pos < t.heap_pos := by rw [hheap]; unfold sizeof_fs_node; omega
  have hn' : t.nodes s.heap_pos = nd := by rw [hnodes, Function.update_same]
  have ho' : ∀ b, b ≠ s.heap_pos → t.nodes b = s.nodes b := by
    intro b h1
    rw [hnodes, Function.update_noteq h1]
  constructor
  · rw [hheap]; exact hfit
  · obtain ⟨r, h1, h2, h3⟩ := h.root
    exact ⟨r, by rw [hroot, h1], Nat.lt_trans h2 hlt, by rw [ho' r (Nat.ne_of_lt h2), h3]⟩
  · intro x hx
    rw [hcwd] at hx
    exact Nat.lt_trans (h.cwd x hx) hlt
  · intro a p hap
    by_cases ha : a = s.heap_pos
    · rw [ha, hn', hp] at hap
      cases hap
    · rw [ho' a ha] at hap
      exact Nat.lt_trans (h.parent a p hap) hlt
  · intro d i hi
    by_cases hd2 : d = s.heap_pos
    · rw [hd2, hn', hcnt] at hi
      exact absurd hi (Nat.not_lt_zero _)
    · rw [ho' d hd2] at hi ⊢
      obtain ⟨x, h1, h2, h3⟩ := h.child d i hi
      exact ⟨x, h1, Nat.lt_trans h2 hlt, by rw [ho' x (Nat.ne_of_lt h2), h3]⟩
  · intro d i j hi hj he
    by_cases hd2 : d = s.heap_pos
    · rw [hd2, hn', hcnt] at hi
      exact absurd hi (Nat.not_lt_zero _)
    · rw [ho' d hd2] at hi hj he
      exact h.distinct d i j hi hj he
  · intro d
    by_cases hd2 : d = s.heap_pos
    · rw [hd2, hn', hcnt]
      exact Nat.zero_le _
    · rw [ho' d hd2]
      exact h.count d
  · intro a ha
    by_cases ha2 : a = s.heap_pos
    · rw [ha2, hn', hp] at ha
      cases ha
    · rw [ho' a ha2] at ha
      rw [hroot]
      exact h.self a ha

/-- The invariant after the `i`-th listed child of the current directory `c` is taken out of
its children by the shift of `fs_delfile`. -/
theorem inv_remove_child (s t : State) (c i : Nat) (h : Inv s)
    (hi : i < (s.nodes c).child_count)
    (hroot : t.fs_root = s.fs_root) (hcwd : t.fs_cwd = s.fs_cwd)
    (hheap : t.heap_pos = s.heap_pos)
    (hnodes : t.nodes = Function.update s.nodes c
      { s.nodes c with
        children := shift_children (s.nodes c).children i (s.nodes c).child_count
        child_count := (s.nodes c).child_count - 1 }) : Inv t := by
  have hc' : t.nodes c = { s.nodes c with
      children := shift_children (s.nodes c).children i (s.nodes c).child_count
      child_count := (s.nodes c).child_count - 1 } := by
    rw [hnodes, Function.update_same]
  have ho' : ∀ b, b ≠ c → t.nodes b = s.nodes b := by
    intro b h1
    rw [hnodes, Function.update_noteq h1]
  have hpar : ∀ b, (t.nodes b).parent = (s.nodes b).parent := by
    intro b
    by_cases hb : b = c
    · rw [hb, hc']
    · rw [ho' b hb]
  constructor
  · rw [hheap]; exact h.heap
  · obtain ⟨r, h1, h2, h3⟩ := h.root
    exact ⟨r, by rw [hroot, h1], by rw [hheap]; exact h2, by rw [hpar r, h3]⟩
  · intro x hx
    rw [hcwd] at hx
    rw [hheap]
    exact h.cwd x hx
  · intro a p hap
    rw [hpar a] at hap
    rw [hheap]
    exact h.parent a p hap
  · intro d k hk
    rw [hheap]
    by_cases hd : d = c
    · subst hd
      rw [hc'] at hk ⊢
      simp only at hk ⊢
      rw [shift_children_apply _ _ _ _ hi]
      by_cases hik : i ≤ k ∧ k < (s.nodes d).child_count - 1
      · rw [if_pos hik]
        obtain ⟨x, h1, h2, h3⟩ := h.child d (k + 1) (by omega)
        exact ⟨x, h1, h2, by rw [hpar x, h3]⟩
      · rw [if_neg hik]
        obtain ⟨x, h1, h2, h3⟩ := h.child d k (by omega)
        exact ⟨x, h1, h2, by rw [hpar x, h3]⟩
    · rw [ho' d hd] at hk ⊢
      obtain ⟨x, h1, h2, h3⟩ := h.child d k hk
      exact ⟨x, h1, h2, by rw [hpar x, h3]⟩
  · intro d k l hk hl he
    by_cases hd : d = c
    · subst hd
      rw [hc'] at hk hl he
      simp only at hk hl he
      rw [shift_children_apply _ _ _ _ hi, shift_children_apply _ _ _ _ hi] at he
      by_cases hik : i ≤ k ∧ k < (s.nodes d).child_count - 1
      · rw [if_pos hik] at he
        by_cases hil : i ≤ l ∧ l < (s.nodes d).child_count - 1
        · rw [if_pos hil] at he
          have := h.distinct d (k + 1) (l + 1) (by omega) (by omega) he
          omega
        · rw [if_neg hil] at he
          have := h.distinct d (k + 1) l (by omega) (by omega) he
          omega
      · rw [if_neg hik] at he
        by_cases hil : i ≤ l ∧ l < (s.nodes d).child_count - 1
        · rw [if_pos hil] at he
          have := h.distinct d k (l + 1) (by omega) (by omega) he
          omega
        · rw [if_neg hil] at he
          exact h.distinct d k l (by omega) (by omega) he
    · rw [ho' d hd] at hk hl he
      exact h.distinct d k l hk hl he
  · intro d
    by_cases hd : d = c
    · rw [hd, hc']
      exact Nat.le_trans (Nat.sub_le _ _) (h.count c)
    · rw [ho' d hd]
      exact h.count d
  · intro a ha
    rw [hpar a] at ha
    rw [hroot]
    exact h.self a ha

/-- The segment loop of `fs_cd`, started at a pointer below the arena offset, ends at one. -/
theorem walk_below (s : State) (h : Inv s) (fuel : Nat) (cur : Option Nat) (path : List Char)
    (hcur : ∀ a, cur = some a → a < s.heap_pos) (c : Option Nat)
    (hw : fs_cd_walk s fuel cur path = Walk.reached c) : ∀ a, c = some a → a < s.heap_pos := by
  induction fuel generalizing cur path with
  | zero => simp [fs_cd_walk] at hw
  | succ fuel ih =>
    unfold fs_cd_walk at hw
    by_cases h1 : charAt path 0 = NUL
    · rw [if_pos h1] at hw
      cases hw
      exact hcur
    · rw [if_neg h1] at hw
      by_cases h2 : strncmp path "..".toList 2 = 0
      · rw [if_pos h2] at hw
        refine ih _ _ ?_ hw
        intro a ha
        cases cur with
        | none => simp [deref, fs_node_zero] at ha
        | some b => exact h.parent b a ha
      · rw [if_neg h2] at hw
        cases hf : find_child s cur (is_dir_named (fs_cd_name path 0).1) with
        | none => rw [hf] at hw; cases hw
        | some j =>
          rw [hf] at hw
          refine ih _ _ ?_ hw
          intro a ha
          have hj := ((find_dir_some s cur _ j).mp hf).1.1
          cases cur with
          | none => simp [deref, fs_node_zero] at hj
          | some b =>
            obtain ⟨x, h1, h2, _⟩ := h.child b j hj
            simp only [deref_some] at ha
            rw [h1] at ha
            cases ha
            exact h2

theorem inv_fs_cd (s : State) (path : List Char) (h : Inv s) : Inv (fs_cd s path) := by
  rw [fs_cd_eq]
  cases hw : fs_cd_walk s ((cd_body path).length + 1) (cd_start s path) (cd_body path) with
  | missing => exact inv_vga s _ h
  | fuel_out => exact h
  | reached c =>
    have hstart : ∀ a, cd_start s path = some a → a < s.heap_pos := by
      intro a ha
      unfold cd_start at ha
      split_ifs at ha
      · obtain ⟨r, h1, h2, _⟩ := h.root
        rw [h1] at ha
        cases ha
        exact h2
      · exact h.cwd a ha
    have hc := walk_below s h _ _ _ hstart c hw
    exact ⟨h.heap, h.root, hc, h.parent, h.child, h.distinct, h.count, h.self⟩

theorem fs_mkdir_none (s : State) (name : List Char) (hc : s.fs_cwd = none) :
    fs_mkdir s name =
      { s with
        heap_pos := (s.heap_pos + sizeof_fs_node) % 4294967296
        overrun := s.overrun || past_heap s.heap_pos sizeof_fs_node
        nodes := Function.update s.nodes s.heap_pos { created name 1 with parent := none } } := by
  have h1 : ¬ (deref s s.fs_cwd).child_count ≥ MAX_CHILDREN := by
    simp [hc, deref, fs_node_zero, MAX_CHILDREN]
  unfold fs_mkdir
  rw [if_neg h1]
  simp [fs_create_node_fst, fs_create_node_snd, store, hc]

theorem fs_mkfile_none (s : State) (name : List Char) (hc : s.fs_cwd = none) :
    fs_mkfile s name =
      { s with
        heap_pos := (s.heap_pos + sizeof_fs_node) % 4294967296
        overrun := s.overrun || past_heap s.heap_pos sizeof_fs_node
        nodes := Function.update s.nodes s.heap_pos { created name 0 with parent := none }
        vga := vga_write (vga_write (vga_write s.vga "\nmade file: ".toList) name) "\n".toList } := by
  have h1 : ¬ (deref s s.fs_cwd).child_count ≥ MAX_CHILDREN := by
    simp [hc, deref, fs_node_zero, MAX_CHILDREN]
  unfold fs_mkfile
  rw [if_neg h1]
  simp [fs_create_node_fst, fs_create_node_snd, store, hc]

theorem inv_fs_mkdir (s : State) (name : List Char) (h : Inv s)
    (hclean : (fs_mkdir s name).overrun = false) : Inv (fs_mkdir s name) := by
  by_cases hroom : (deref s s.fs_cwd).child_count < MAX_CHILDREN
  · cases hc : s.fs_cwd with
    | none =>
      rw [fs_mkdir_none s name hc] at hclean ⊢
      have hfit := (fits_of_no_overrun s.overrun s.heap_pos sizeof_fs_node hclean).2
      exact inv_add_orphan s _ _ h hfit rfl rfl rfl rfl (arena_no_wrap _ _ hfit) rfl
    | some c =>
      rw [hc] at hroom
      rw [fs_mkdir_room s name c hc hroom (Nat.ne_of_gt (h.cwd c hc))] at hclean ⊢
      have hfit := (fits_of_no_overrun s.overrun s.heap_pos sizeof_fs_node hclean).2
      exact inv_add_child s _ c _ h hc hroom hfit rfl rfl rfl rfl (arena_no_wrap _ _ hfit) rfl
  · unfold fs_mkdir
    rw [if_pos (Nat.le_of_not_lt hroom)]
    exact inv_vga s _ h

theorem inv_fs_mkfile (s : State) (name : List Char) (h : Inv s)
    (hclean : (fs_mkfile s name).overrun = false) : Inv (fs_mkfile s name) := by
  by_cases hroom : (deref s s.fs_cwd).child_count < MAX_CHILDREN
  · cases hc : s.fs_cwd with
    | none =>
      rw [fs_mkfile_none s name hc] at hclean ⊢
      have hfit := (fits_of_no_overrun s.overrun s.heap_pos sizeof_fs_node hclean).2
      exact inv_add_orphan s _ _ h hfit rfl rfl rfl rfl (arena_no_wrap _ _ hfit) rfl
    | some c =>
      rw [hc] at hroom
      rw [fs_mkfile_room s name c hc hroom (Nat.ne_of_gt (h.cwd c hc))] at hclean ⊢
      have hfit := (fits_of_no_overrun s.overrun s.heap_pos sizeof_fs_node hclean).2
      exact inv_add_child s _ c _ h hc hroom hfit rfl rfl rfl rfl (arena_no_wrap _ _ hfit) rfl
  · unfold fs_mkfile
    rw [if_pos (Nat.le_of_not_lt hroom)]
    exact inv_vga s _ h

theorem inv_fs_delfile (s : State) (name : List Char) (h : Inv s) : Inv (fs_delfile s name) := by
  by_cases hf : ∃ j, file_at s name j
  · obtain ⟨i, hi⟩ := first_file_exists s name hf
    obtain ⟨c, hc⟩ := cwd_some_of_child s i hi.1.1
    rw [fs_delfile_found s name i c hi hc]
    have hic : i < (s.nodes c).child_count := by
      have := hi.1.1
      rw [hc] at this
      exact this
    exact inv_remove_child s _ c i h hic rfl rfl rfl rfl
  · rw [fs_delfile_missing s name (fun j hj => hf ⟨j, hj⟩)]
    exact inv_vga s _ h

theorem inv_fs_edfile_start (s : State) (name : List Char) (h : Inv s) :
    Inv (fs_edfile_start s name) := by
  unfold fs_edfile_start
  cases find_child s s.fs_cwd (is_file_named name) with
  | none => exact inv_vga s _ h
  | some i =>
    exact inv_tree_congr s _ h rfl rfl (Nat.le_refl _) h.heap (fun _ => ⟨rfl, rfl, rfl⟩)
/-- The invariant of a store that holds the root alone, at offset 0. -/
theorem inv_root_only (t : State) (nd : fs_node) (hheap : t.heap_pos = sizeof_fs_node)
    (hroot : t.fs_root = some 0) (hcwd : t.fs_cwd = some 0)
    (hnodes : t.nodes = Function.update (fun _ => fs_node_zero) 0 nd)
    (hp : nd.parent = some 0) (hcnt : nd.child_count = 0) : Inv t := by
  have h0 : t.nodes 0 = nd := by rw [hnodes, Function.update_same]
  have hz : ∀ b, b ≠ 0 → t.nodes b = fs_node_zero := by
    intro b hb
    rw [hnodes, Function.update_noteq hb]
  have hc0 : ∀ d, (t.nodes d).child_count = 0 := by
    intro d
    by_cases hd : d = 0
    · rw [hd, h0, hcnt]
    · rw [hz d hd]
      rfl
  have hpar : ∀ a p, (t.nodes a).parent = some p → a = 0 ∧ p = 0 := by
    intro a p hap
    by_cases ha : a = 0
    · rw [ha, h0, hp] at hap
      cases hap
      exact ⟨ha, rfl⟩
    · rw [hz a ha] at hap
      cases hap
  constructor
  · rw [hheap]
    decide
  · exact ⟨0, hroot, by rw [hheap]; decide, by rw [h0, hp]⟩
  · intro c hc
    rw [hcwd] at hc
    cases hc
    rw [hheap]
    decide
  · intro a p hap
    rw [(hpar a p hap).2, hheap]
    decide
  · intro d i hi
    rw [hc0 d] at hi
    exact absurd hi (Nat.not_lt_zero _)
  · intro d i j hi
    rw [hc0 d] at hi
    exact absurd hi (Nat.not_lt_zero _)
  · intro d
    rw [hc0 d]
    exact Nat.zero_le _
  · intro a ha
    rw [(hpar a a ha).1, hroot]

theorem inv_fs_init (v : Vga) : Inv (fs_init { boot with vga := v }) := by
  rw [fs_init_eq]
  exact inv_root_only _ { created "~".toList 1 with parent := some 0 } rfl rfl rfl rfl rfl rfl

/-- A key in file-edit mode that writes nothing past the arena keeps the invariant: TAB stores
a content buffer in the edit target, every other key writes only the edit buffer, the edit
position and the display. -/
theorem inv_read_edit (s : State) (c : Char) (h : Inv s) (hmode : s.fs_edit_mode ≠ 0)
    (hclean : (read_input_char s c).1.overrun = false) :
    Inv (read_input_char s c).1 := by
  by_cases htab : c = '\t'
  · subst htab
    cases hf : s.fs_edit_file with
    | some a =>
      rw [read_edit_commit s a hmode hf] at hclean ⊢
      have hfit := (fits_of_no_overrun s.overrun s.heap_pos (s.fs_edit_pos + 1) hclean).2
      have hw := arena_no_wrap _ _ hfit
      refine inv_tree_congr s _ h rfl rfl ?_ ?_ ?_
      · show s.heap_pos ≤ (s.heap_pos + (s.fs_edit_pos + 1)) % 4294967296
        rw [hw]
        exact Nat.le_add_right _ _
      · show (s.heap_pos + (s.fs_edit_pos + 1)) % 4294967296 ≤ sizeof_heap
        rw [hw]
        exact hfit
      · intro b
        show (Function.update s.nodes a _ b).parent = _ ∧
          (Function.update s.nodes a _ b).children = _ ∧
          (Function.update s.nodes a _ b).child_count = _
        by_cases hb : b = a
        · subst hb
          rw [Function.update_same]
          exact ⟨rfl, rfl, rfl⟩
        · rw [Function.update_noteq hb]
          exact ⟨rfl, rfl, rfl⟩
    | none =>
      have e := read_edit_commit_null s hmode hf
      rw [e] at hclean ⊢
      have hfit := (fits_of_no_overrun s.overrun s.heap_pos (s.fs_edit_pos + 1) hclean).2
      have hw := arena_no_wrap _ _ hfit
      refine inv_tree_congr s _ h rfl rfl ?_ ?_ (fun _ => ⟨rfl, rfl, rfl⟩)
      · show s.heap_pos ≤ (s.heap_pos + (s.fs_edit_pos + 1)) % 4294967296
        rw [hw]
        exact Nat.le_add_right _ _
      · show (s.heap_pos + (s.fs_edit_pos + 1)) % 4294967296 ≤ sizeof_heap
        rw [hw]
        exact hfit
  · unfold read_input_char
    rw [if_pos hmode, if_neg htab]
    by_cases hbs : c = '\x08'
    · rw [if_pos hbs]
      by_cases hp : s.fs_edit_pos > 0
      · rw [if_pos hp]
        exact inv_tree_congr s _ h rfl rfl (Nat.le_refl _) h.heap (fun _ => ⟨rfl, rfl, rfl⟩)
      · rw [if_neg hp]
        exact h
    · rw [if_neg hbs]
      by_cases hp : s.fs_edit_pos < sizeof_fs_edit_buffer - 1
      · rw [if_pos hp]
        exact inv_tree_congr s _ h rfl rfl (Nat.le_refl _) h.heap (fun _ => ⟨rfl, rfl, rfl⟩)
      · rw [if_neg hp]
        exact h

theorem reachable_inv (s : State) (h : Reachable s) : Inv s := by
  induction h with
  | init v => exact inv_fs_init v
  | mkdir s name _ hclean ih => exact inv_fs_mkdir s name ih hclean
  | mkfile s name _ hclean ih => exact inv_fs_mkfile s name ih hclean
  | cd s path _ ih => exact inv_fs_cd s path ih
  | delfile s name _ ih => exact inv_fs_delfile s name ih
  | edfile s name _ ih => exact inv_fs_edfile_start s name ih
  | key s c _ hmode hclean ih => exact inv_read_edit s c ih hmode hclean

theorem reachable_clean (s : State) (h : Reachable s) : s.overrun = false := by
  induction h with
  | init v =>
    rw [fs_init_eq]
    show (false || past_heap 0 sizeof_fs_node) = false
    decide
  | mkdir s name _ hclean _ => exact hclean
  | mkfile s name _ hclean _ => exact hclean
  | cd s path _ ih => rw [(fs_cd_arena s path).2, ih]
  | delfile s name _ ih => rw [(fs_delfile_arena s name).2, ih]
  | edfile s name _ ih => rw [(fs_edfile_start_arena s name).2, ih]
  | key s c _ _ hclean _ => exact hclean

theorem inv_well_formed (s : State) (h : Inv s) : WellFormed s := by
  refine ⟨?_, h.distinct, ?_, h.count, ?_⟩
  · intro d i hi
    obtain ⟨c, h1, _, h3⟩ := h.child d i hi
    exact ⟨c, h1, h3⟩
  · intro d e i j hi hj he
    obtain ⟨x, h1, _, h3⟩ := h.child d i hi
    obtain ⟨y, h4, _, h6⟩ := h.child e j hj
    rw [h1, h4] at he
    cases he
    rw [h3] at h6
    cases h6
    rfl
  · obtain ⟨r, h1, _, h3⟩ := h.root
    refine ⟨r, h1, h3, fun a ha => ?_⟩
    have := h.self a ha
    rw [h1] at this
    cases this
    rfl

/-- C20 (amended): tree well-formedness is an invariant inside the arena.  In every state
reached from `fs_init` at startup through `fs_mkdir`, `fs_mkfile`, `fs_cd`, `fs_delfile`,
`fs_edfile_start` and the keys of file-edit mode (the commit on TAB among them) without a
write past the end of the arena, for every node `d` (so for every directory reachable from
the root) and every index `i < d.child_count` the entry `children[i]` is a node whose parent
is `d`; the listed children of `d` are pairwise distinct and no node is listed under two
directories; `child_count <= 32`; the root is its own parent and the only node that is; and
the arena offset is at most the size of the arena. -/
theorem tree_well_formed (s : State) (h : Reachable s) :
    WellFormed s ∧ s.overrun = false ∧ s.heap_pos ≤ sizeof_heap :=
  ⟨inv_well_formed s (reachable_inv s h), reachable_clean s h, (reachable_inv s h).heap⟩

set_option maxRecDepth 100000 in
/-- C20 (witness): the sample store, built by `fs_init`, `fs_mkdir` and `fs_mkfile`, after
its file is deleted. -/
theorem tree_well_formed_witness :
    Reachable (fs_delfile sample_store "f".toList) ∧
    WellFormed (fs_delfile sample_store "f".toList) :=
  ⟨Reachable.delfile _ _ (Reachable.mkfile _ _
      (Reachable.mkdir _ _ (Reachable.init boot.vga) (by decide)) (by decide)),
    (tree_well_formed (fs_delfile sample_store "f".toList)
      (Reachable.delfile _ _ (Reachable.mkfile _ _
        (Reachable.mkdir _ _ (Reachable.init boot.vga) (by decide))
        (by decide)))).1⟩

/-! ## The allocator and `fs_create_node` -/

theorem strncpy_bytes_eq (src : List Char) (n : Nat) :
    strncpy_bytes src n =
      (cstr src).take n ++ List.replicate (n - min (cstr src).length n) NUL := by
  induction n generalizing src with
  | zero => simp [strncpy_bytes]
  | succ n ih =>
    cases src with
    | nil => simp [strncpy_bytes, cstr]
    | cons c src =>
      by_cases hc : c = NUL
      · simp [strncpy_bytes, hc, cstr_cons]
      · have e : min (cstr src).length n + 1 = min ((cstr src).length + 1) (n + 1) := by omega
        simp only [strncpy_bytes, charAt_cons_zero, ne_eq, hc, not_false_eq_true, if_true,
          List.drop_succ_cons, List.drop_zero, cstr_cons, if_false, List.take_succ_cons,
          List.cons_append, List.length_cons, ih src]
        rw [← e, Nat.add_sub_add_right]

theorem created_name (name : List Char) (k : Int) :
    (created name k).name =
      (cstr name).take 31 ++ List.replicate (32 - min (cstr name).length 31) NUL := by
  have h : List.drop (MAX_NAME_LEN - 1) fs_node_zero.name = [NUL] := by
    simp [fs_node_zero, MAX_NAME_LEN]
  have e : 32 - min (cstr name).length 31 = (31 - min (cstr name).length 31) + 1 := by omega
  show strncpy fs_node_zero.name name (MAX_NAME_LEN - 1) = _
  unfold strncpy
  rw [h, strncpy_bytes_eq, e, List.replicate_succ', List.append_assoc]
  rfl

/-- C22 (amended): `fs_create_node(name, kind)` when the node fits into the arena (arena
offset plus node size at most 64 KiB).  It returns the offset the arena held before the
call; the node there has a name field of 32 bytes that holds the first `min(len(name), 31)`
characters of the string `name` followed by NUL bytes, `is_dir = kind`, a null parent, no
children (`child_count = 0`, every entry of `children` null), null data and size 0; the
arena offset is advanced by exactly the node size (180 bytes on the i386 target); every byte
of the node lies inside the arena; no node at another offset is changed, no other global is
written and no write leaves the arena. -/
theorem create_node_fresh (s : State) (name : List Char) (kind : Int)
    (hfit : s.heap_pos + sizeof_fs_node ≤ sizeof_heap) :
    (fs_create_node s name kind).1 = s.heap_pos ∧
    ((fs_create_node s name kind).2.nodes s.heap_pos).name =
      (cstr name).take 31 ++ List.replicate (32 - min (cstr name).length 31) NUL ∧
    ((fs_create_node s name kind).2.nodes s.heap_pos).name.length = 32 ∧
    ((fs_create_node s name kind).2.nodes s.heap_pos).is_dir = kind ∧
    ((fs_create_node s name kind).2.nodes s.heap_pos).parent = none ∧
    ((fs_create_node s name kind).2.nodes s.heap_pos).child_count = 0 ∧
    (∀ i, ((fs_create_node s name kind).2.nodes s.heap_pos).children i = none) ∧
    ((fs_create_node s name kind).2.nodes s.heap_pos).data = none ∧
    ((fs_create_node s name kind).2.nodes s.heap_pos).size = 0 ∧
    (fs_create_node s name kind).2.heap_pos = s.heap_pos + sizeof_fs_node ∧
    (∀ k, region s.heap_pos sizeof_fs_node k → k < sizeof_heap) ∧
    (∀ b, b ≠ s.heap_pos → (fs_create_node s name kind).2.nodes b = s.nodes b) ∧
    (fs_create_node s name kind).2.overrun = s.overrun ∧
    (fs_create_node s name kind).2 =
      { s with heap_pos := s.heap_pos + sizeof_fs_node
               nodes := (fs_create_node s name kind).2.nodes } := by
  have hs := fs_create_node_snd s name kind
  rw [arena_no_wrap _ _ hfit, past_heap_false _ _ hfit, Bool.or_false] at hs
  have hn : (fs_create_node s name kind).2.nodes =
      Function.update s.nodes s.heap_pos (created name kind) := by
    rw [hs]
  have hlen : ((cstr name).take 31 ++
      List.replicate (32 - min (cstr name).length 31) NUL).length = 32 := by
    rw [List.length_append, List.length_take, List.length_replicate]
    omega
  refine ⟨rfl, ?_, ?_, ?_, ?_, ?_, ?_, ?_, ?_, ?_, ?_, ?_, ?_, ?_⟩
  · rw [hn, Function.update_same, created_name]
  · rw [hn, Function.update_same, created_name, hlen]
  · rw [hn, Function.update_same]
    rfl
  · rw [hn, Function.update_same]
    rfl
  · rw [hn, Function.update_same]
    rfl
  · intro i
    rw [hn, Function.update_same]
    rfl
  · rw [hn, Function.update_same]
    rfl
  · rw [hn, Function.update_same]
    rfl
  · rw [hs]
  · exact fun k hk => Nat.lt_of_lt_of_le hk.2 hfit
  · intro b hb
    rw [hn, Function.update_noteq hb]
  · rw [hs]
  · rw [hs]

set_option maxRecDepth 100000 in
/-- C22 (witness): a node created in the sample store with a name of 40 characters: the arena
offset goes from 540 to 720 and the name field holds 31 of them and one NUL. -/
theorem create_node_fresh_witness :
    sample_store.heap_pos + sizeof_fs_node ≤ sizeof_heap ∧
    (fs_create_node sample_store (List.replicate 40 'x') 0).2.heap_pos =
      sample_store.heap_pos + sizeof_fs_node ∧
    sample_store.heap_pos = 540 ∧
    ((fs_create_node sample_store (List.replicate 40 'x') 0).2.nodes sample_store.heap_pos).name =
      (cstr (List.replicate 40 'x')).take 31 ++
        List.replicate (32 - min (cstr (List.replicate 40 'x')).length 31) NUL ∧
    (cstr (List.replicate 40 'x')).take 31 ++
        List.replicate (32 - min (cstr (List.replicate 40 'x')).length 31) NUL =
      List.replicate 31 'x' ++ [NUL] :=
  ⟨by decide,
    (create_node_fresh sample_store (List.replicate 40 'x') 0 (by decide)).2.2.2.2.2.2.2.2.2.1,
    by decide,
    (create_node_fresh sample_store (List.replicate 40 'x') 0 (by decide)).2.1,
    by decide⟩

set_option maxRecDepth 100000 in
/-- C22 (counterexample): with the arena offset at 65520 the node `fs_create_node` hands out
spans the offsets 65520 to 65699, of which only the first sixteen are bytes of the arena:
`memset` and `strncpy` write past its end. -/
theorem create_node_past_arena :
    no_room_store.heap_pos = 65520 ∧ sizeof_heap = 65536 ∧ sizeof_fs_node = 180 ∧
    no_room_store.overrun = false ∧
    (fs_create_node no_room_store "d".toList 1).1 = 65520 ∧
    region (fs_create_node no_room_store "d".toList 1).1 sizeof_fs_node 65536 ∧
    (fs_create_node no_room_store "d".toList 1).2.overrun = true :=
  ⟨by decide, by decide, by decide, by decide, by decide, ⟨by decide, by decide⟩, by decide⟩

/-! ## The dispatcher as one tree operation between writes to the display -/

theorem same_but_vga_refl (s : State) : SameButVga s s := ⟨s.vga, rfl⟩

theorem same_but_vga_set (s : State) (v : Vga) : SameButVga s { s with vga := v } := ⟨v, rfl⟩

theorem same_but_vga_trans {s t u : State} (h1 : SameButVga s t) (h2 : SameButVga t u) :
    SameButVga s u := by
  obtain ⟨v, rfl⟩ := h1
  obtain ⟨w, rfl⟩ := h2
  exact ⟨w, rfl⟩

theorem fs_rdfile_vga (s : State) (name : List Char) : SameButVga s (fs_rdfile s name) := by
  unfold fs_rdfile
  cases find_child s s.fs_cwd (is_file_named name) with
  | none => exact ⟨_, rfl⟩
  | some i => exact ⟨_, rfl⟩

/-- Every dispatcher command is one tree operation, run between writes to the display. -/
theorem handle_command_op (s : State) (cmd : List Char) :
    ∃ op s1, SameButVga s s1 ∧ SameButVga (Op.run s1 op) (handle_command s cmd).1 := by
  unfold handle_command
  by_cases h0 : strncmp cmd "help".toList 5 = 0
  · rw [if_pos h0]
    exact ⟨Op.skip, s, same_but_vga_refl s, same_but_vga_set s _⟩
  rw [if_neg h0]
  by_cases h1 : strncmp cmd "\n".toList 1 = 0
  · rw [if_pos h1]
    exact ⟨Op.skip, s, same_but_vga_refl s, same_but_vga_set s _⟩
  rw [if_neg h1]
  by_cases h2 : strncmp cmd "vgatest".toList 8 = 0
  · rw [if_pos h2]
    exact ⟨Op.skip, s, same_but_vga_refl s, same_but_vga_set s _⟩
  rw [if_neg h2]
  by_cases h3 : strncmp cmd "edfile ".toList 7 = 0
  · rw [if_pos h3]
    exact ⟨Op.edfile (cmd.drop 7), { s with vga := vga_set_color s.vga 1 7 }, same_but_vga_set s _,
      same_but_vga_set _ _⟩
  rw [if_neg h3]
  by_cases h4 : strncmp cmd "cd ".toList 3 = 0
  · rw [if_pos h4]
    exact ⟨Op.cd (cmd.drop 3), { s with vga := vga_set_color s.vga 14 7 }, same_but_vga_set s _,
      same_but_vga_set _ _⟩
  rw [if_neg h4]
  by_cases h5 : strncmp cmd "ls".toList 2 = 0
  · rw [if_pos h5]
    obtain ⟨w, hw⟩ := fs_ls_vga { s with vga := vga_set_color s.vga 14 7 }
    exact ⟨Op.skip, { s with vga := vga_set_color s.vga 14 7 }, same_but_vga_set s _,
      same_but_vga_trans ⟨w, hw⟩ (same_but_vga_set _ _)⟩
  rw [if_neg h5]
  by_cases h6 : strncmp cmd "mkfile ".toList 7 = 0
  · rw [if_pos h6]
    exact ⟨Op.mkfile (cmd.drop 7), { s with vga := vga_set_color s.vga 14 7 }, same_but_vga_set s _,
      same_but_vga_set _ _⟩
  rw [if_neg h6]
  by_cases h7 : strncmp cmd "mkdir ".toList 6 = 0
  · rw [if_pos h7]
    exact ⟨Op.mkdir (cmd.drop 6), { s with vga := vga_set_color s.vga 14 7 }, same_but_vga_set s _,
      same_but_vga_set _ _⟩
  rw [if_neg h7]
  by_cases h8 : strncmp cmd "rdfile ".toList 7 = 0
  · rw [if_pos h8]
    exact ⟨Op.skip, { s with vga := vga_set_color s.vga 14 7 }, same_but_vga_set s _,
      same_but_vga_trans (fs_rdfile_vga _ _) (same_but_vga_set _ _)⟩
  rw [if_neg h8]
  by_cases h9 : strncmp cmd "dir ~".toList 5 = 0
  · rw [if_pos h9]
    obtain ⟨w, hw⟩ := fs_dir_from_vga { s with vga := vga_set_color s.vga 14 7 } s.fs_root
    exact ⟨Op.skip, { s with vga := vga_set_color s.vga 14 7 }, same_but_vga_set s _,
      same_but_vga_trans ⟨w, hw⟩ (same_but_vga_set _ _)⟩
  rw [if_neg h9]
  by_cases h10 : strncmp cmd "dir".toList 3 = 0
  · rw [if_pos h10]
    obtain ⟨w, hw⟩ := fs_dir_from_vga s s.fs_cwd
    exact ⟨Op.skip, s, same_but_vga_refl s, ⟨w, hw⟩⟩
  rw [if_neg h10]
  by_cases h11 : strncmp cmd "delfile ".toList 8 = 0
  · rw [if_pos h11]
    exact ⟨Op.delfile (cmd.drop 8), s, same_but_vga_refl s, same_but_vga_refl _⟩
  rw [if_neg h11]
  by_cases h12 : strncmp cmd "clear".toList 6 = 0
  · rw [if_pos h12]
    exact ⟨Op.skip, s, same_but_vga_refl s, same_but_vga_set s _⟩
  rw [if_neg h12]
  by_cases h13 : strncmp cmd "calc ".toList 5 = 0
  · rw [if_pos h13]
    exact ⟨Op.skip, s, same_but_vga_refl s, same_but_vga_set s _⟩
  rw [if_neg h13]
  by_cases h14 : strncmp cmd "about".toList 6 = 0
  · rw [if_pos h14]
    exact ⟨Op.skip, s, same_but_vga_refl s, same_but_vga_set s _⟩
  rw [if_neg h14]
  by_cases h15 : strncmp cmd "version".toList 8 = 0
  · rw [if_pos h15]
    exact ⟨Op.skip, s, same_but_vga_refl s, same_but_vga_set s _⟩
  rw [if_neg h15]
  by_cases h16 : strncmp cmd "halt".toList 5 = 0
  · rw [if_pos h16]
    exact ⟨Op.skip, s, same_but_vga_refl s, same_but_vga_refl s⟩
  rw [if_neg h16]
  by_cases h17 : strncmp cmd "reboot".toList 7 = 0
  · rw [if_pos h17]
    exact ⟨Op.skip, s, same_but_vga_refl s, same_but_vga_refl s⟩
  rw [if_neg h17]
  by_cases h18 : strncmp cmd "bgcolor".toList 8 = 0
  · rw [if_pos h18]
    by_cases hb : atoi (cmd.drop 9) ≥ 0 ∧ atoi (cmd.drop 9) ≤ 15
    · simp only [if_pos hb]
      exact ⟨Op.skip, s, same_but_vga_refl s, same_but_vga_set s _⟩
    · simp only [if_neg hb]
      exact ⟨Op.skip, s, same_but_vga_refl s, same_but_vga_set s _⟩
  rw [if_neg h18]
  by_cases h19 : strncmp cmd "fgcolor".toList 8 = 0
  · rw [if_pos h19]
    by_cases hb : atoi (cmd.drop 9) ≥ 0 ∧ atoi (cmd.drop 9) ≤ 15
    · simp only [if_pos hb]
      exact ⟨Op.skip, s, same_but_vga_refl s, same_but_vga_set s _⟩
    · simp only [if_neg hb]
      exact ⟨Op.skip, s, same_but_vga_refl s, same_but_vga_set s _⟩
  rw [if_neg h19]
  by_cases h20 : strncmp cmd "echo".toList 5 = 0
  · rw [if_pos h20]
    exact ⟨Op.skip, s, same_but_vga_refl s, same_but_vga_set s _⟩
  rw [if_neg h20]
  exact ⟨Op.skip, s, same_but_vga_refl s, same_but_vga_set s _⟩

/-! ## The arena offset -/

theorem same_but_vga_arena {s t : State} (h : SameButVga s t) :
    t.heap_pos = s.heap_pos ∧ t.overrun = s.overrun := by
  obtain ⟨v, rfl⟩ := h
  exact ⟨rfl, rfl⟩

theorem fs_mkdir_arena (s : State) (name : List Char) :
    ((fs_mkdir s name).heap_pos = s.heap_pos ∧ (fs_mkdir s name).overrun = s.overrun) ∨
    ((fs_mkdir s name).heap_pos = (s.heap_pos + sizeof_fs_node) % 4294967296 ∧
      (fs_mkdir s name).overrun = (s.overrun || past_heap s.heap_pos sizeof_fs_node)) := by
  unfold fs_mkdir
  split_ifs
  · exact Or.inl ⟨rfl, rfl⟩
  · right
    show (store (store _ _ _) _ _).heap_pos = _ ∧ (store (store _ _ _) _ _).overrun = _
    rw [(store_arena _ _ _).1, (store_arena _ _ _).1, (store_arena _ _ _).2,
      (store_arena _ _ _).2, fs_create_node_snd]
    exact ⟨rfl, rfl⟩

theorem fs_mkfile_arena (s : State) (name : List Char) :
    ((fs_mkfile s name).heap_pos = s.heap_pos ∧ (fs_mkfile s name).overrun = s.overrun) ∨
    ((fs_mkfile s name).heap_pos = (s.heap_pos + sizeof_fs_node) % 4294967296 ∧
      (fs_mkfile s name).overrun = (s.overrun || past_heap s.heap_pos sizeof_fs_node)) := by
  unfold fs_mkfile
  split_ifs
  · exact Or.inl ⟨rfl, rfl⟩
  · right
    show (store (store _ _ _) _ _).heap_pos = _ ∧ (store (store _ _ _) _ _).overrun = _
    rw [(store_arena _ _ _).1, (store_arena _ _ _).1, (store_arena _ _ _).2,
      (store_arena _ _ _).2, fs_create_node_snd]
    exact ⟨rfl, rfl⟩

theorem op_arena (s : State) (op : Op) :
    ((Op.run s op).heap_pos = s.heap_pos ∧ (Op.run s op).overrun = s.overrun) ∨
    ((Op.run s op).heap_pos = (s.heap_pos + sizeof_fs_node) % 4294967296 ∧
      (Op.run s op).overrun = (s.overrun || past_heap s.heap_pos sizeof_fs_node)) := by
  cases op with
  | skip => exact Or.inl ⟨rfl, rfl⟩
  | cd path => exact Or.inl (fs_cd_arena s path)
  | mkfile name => exact fs_mkfile_arena s name
  | mkdir name => exact fs_mkdir_arena s name
  | delfile name => exact Or.inl (fs_delfile_arena s name)
  | edfile name => exact Or.inl (fs_edfile_start_arena s name)

/-- A dispatcher command leaves the arena alone or creates one node. -/
theorem handle_command_arena (s : State) (cmd : List Char) :
    ((handle_command s cmd).1.heap_pos = s.heap_pos ∧
      (handle_command s cmd).1.overrun = s.overrun) ∨
    ((handle_command s cmd).1.heap_pos = (s.heap_pos + sizeof_fs_node) % 4294967296 ∧
      (handle_command s cmd).1.overrun = (s.overrun || past_heap s.heap_pos sizeof_fs_node)) := by
  obtain ⟨op, s1, h1, h2⟩ := handle_command_op s cmd
  rw [(same_but_vga_arena h2).1, (same_but_vga_arena h2).2, ← (same_but_vga_arena h1).1,
    ← (same_but_vga_arena h1).2]
  exact op_arena s1 op

/-- A key leaves the arena alone, creates one node, or writes the content buffer of a
commit. -/
theorem read_input_char_arena (s : State) (c : Char) :
    ((read_input_char s c).1.heap_pos = s.heap_pos ∧
      (read_input_char s c).1.overrun = s.overrun) ∨
    ((read_input_char s c).1.heap_pos = (s.heap_pos + sizeof_fs_node) % 4294967296 ∧
      (read_input_char s c).1.overrun = (s.overrun || past_heap s.heap_pos sizeof_fs_node)) ∨
    ((read_input_char s c).1.heap_pos = (s.heap_pos + (s.fs_edit_pos + 1)) % 4294967296 ∧
      (read_input_char s c).1.overrun =
        (s.overrun || past_heap s.heap_pos (s.fs_edit_pos + 1))) := by
  by_cases hmode : s.fs_edit_mode = 0
  · by_cases hnl : c = '\n'
    · subst hnl
      have hh := handle_command_arena
        { s with input_buffer := Function.update s.input_buffer s.input_pos NUL } (command_line s)
      revert hh
      unfold read_input_char command_line
      rw [if_neg (by simpa using hmode), if_pos rfl]
      simp only []
      generalize handle_command _ _ = r
      obtain ⟨s2, ctl⟩ := r
      intro hh
      cases ctl
      · exact hh.elim Or.inl (fun h => Or.inr (Or.inl h))
      · exact hh.elim Or.inl (fun h => Or.inr (Or.inl h))
      · exact hh.elim Or.inl (fun h => Or.inr (Or.inl h))
    · left
      unfold read_input_char
      rw [if_neg (by simpa using hmode), if_neg hnl]
      split_ifs <;> exact ⟨rfl, rfl⟩
  · by_cases htab : c = '\t'
    · subst htab
      right
      right
      cases hf : s.fs_edit_file with
      | some a =>
        rw [read_edit_commit s a hmode hf]
        exact ⟨rfl, rfl⟩
      | none =>
        rw [read_edit_commit_null s hmode hf]
        exact ⟨rfl, rfl⟩
    · left
      unfold read_input_char
      rw [if_pos hmode, if_neg htab]
      split_ifs <;> exact ⟨rfl, rfl⟩

theorem start_prologue_arena (s : State) :
    (start_prologue s).heap_pos = (s.heap_pos + sizeof_fs_node) % 4294967296 ∧
    (start_prologue s).overrun = (s.overrun || past_heap s.heap_pos sizeof_fs_node) := by
  obtain ⟨v1, v2, e⟩ : ∃ v1 v2, start_prologue s =
      { fs_init { s with vga := v1 } with vga := v2 } := ⟨_, _, rfl⟩
  rw [e, fs_init_eq]
  exact ⟨rfl, rfl⟩

/-- A step that handed out `n` bytes and wrote them inside the arena did not lower the arena
offset. -/
theorem bump_inside (a b n : Nat) (flag over : Bool) (hb : b = (a + n) % 4294967296)
    (ho : over = (flag || past_heap a n)) (hclean : over = false) : a ≤ b := by
  rw [ho] at hclean
  rw [hb, arena_no_wrap _ _ (fits_of_no_overrun flag a n hclean).2]
  exact Nat.le_add_right _ _

/-- C23 (amended): `kmalloc(size)` returns the arena offset held before the call and sets the
offset to the old offset plus `size` modulo 2^32, whatever the offset and the size are (there
is no check against the 64 KiB of the arena), and writes nothing else.  Hence, without
wrap-around, the region of a second call starts exactly `size` bytes after the region of the
first and the two regions share no byte, and the offset is not decreased by `kmalloc`; and
it is not decreased by a dispatcher command, by a key passed to `read_input_char` or by the
prologue of `_start` when no write has left the arena after them. -/
theorem kmalloc_bump (s : State) (size : Nat) :
    (kmalloc s size).1 = s.heap_pos ∧
    (kmalloc s size).2 = { s with heap_pos := (s.heap_pos + size) % 4294967296 } ∧
    (∀ size2, s.heap_pos + size < 4294967296 →
      (kmalloc (kmalloc s size).2 size2).1 = (kmalloc s size).1 + size ∧
      ∀ k, ¬ (region (kmalloc s size).1 size k ∧
        region (kmalloc (kmalloc s size).2 size2).1 size2 k)) ∧
    (s.heap_pos + size < 4294967296 → s.heap_pos ≤ (kmalloc s size).2.heap_pos) ∧
    (∀ cmd, (handle_command s cmd).1.overrun = false →
      s.heap_pos ≤ (handle_command s cmd).1.heap_pos) ∧
    (∀ c, (read_input_char s c).1.overrun = false →
      s.heap_pos ≤ (read_input_char s c).1.heap_pos) ∧
    ((start_prologue s).overrun = false → s.heap_pos ≤ (start_prologue s).heap_pos) := by
  refine ⟨rfl, rfl, ?_, ?_, ?_, ?_, ?_⟩
  · intro size2 hw
    have e : (kmalloc (kmalloc s size).2 size2).1 = s.heap_pos + size := by
      show (s.heap_pos + size) % 4294967296 = _
      exact Nat.mod_eq_of_lt hw
    refine ⟨e, fun k hk => ?_⟩
    rw [e] at hk
    have h1 : k < s.heap_pos + size := hk.1.2
    have h2 : s.heap_pos + size ≤ k := hk.2.1
    omega
  · intro hw
    show s.heap_pos ≤ (s.heap_pos + size) % 4294967296
    rw [Nat.mod_eq_of_lt hw]
    exact Nat.le_add_right _ _
  · intro cmd hclean
    rcases handle_command_arena s cmd with h | h
    · rw [h.1]
    · exact bump_inside _ _ _ _ _ h.1 h.2 hclean
  · intro c hclean
    rcases read_input_char_arena s c with h | h | h
    · rw [h.1]
    · exact bump_inside _ _ _ _ _ h.1 h.2 hclean
    · exact bump_inside _ _ _ _ _ h.1 h.2 hclean
  · intro hclean
    exact bump_inside _ _ _ _ _ (start_prologue_arena s).1 (start_prologue_arena s).2 hclean

set_option maxRecDepth 100000 in
/-- C23 (witness): two allocations of 100 and 50 bytes at offset 65500, past the end of the
arena, and the command `mkdir d` on the sample store. -/
theorem kmalloc_bump_witness :
    (kmalloc { boot with heap_pos := 65500 } 100).1 = 65500 ∧
    (kmalloc { boot with heap_pos := 65500 } 100).2.heap_pos = 65600 ∧
    (kmalloc (kmalloc { boot with heap_pos := 65500 } 100).2 50).1 =
      (kmalloc { boot with heap_pos := 65500 } 100).1 + 100 ∧
    (handle_command sample_store "mkdir d".toList).1.overrun = false ∧
    sample_store.heap_pos ≤ (handle_command sample_store "mkdir d".toList).1.heap_pos ∧
    (handle_command sample_store "mkdir d".toList).1.heap_pos = sample_store.heap_pos + 180 :=
  ⟨(kmalloc_bump { boot with heap_pos := 65500 } 100).1, by decide,
    ((kmalloc_bump { boot with heap_pos := 65500 } 100).2.2.1 50 (by decide)).1,
    by decide,
    (kmalloc_bump sample_store 0).2.2.2.2.1 "mkdir d".toList (by decide),
    by decide⟩

set_option maxRecDepth 100000 in
/-- C23 (counterexample): in the sample store, whose arena offset is 540, a `kmalloc` of
2^32 - 1 bytes wraps around and leaves the offset at 539; and with the offset at 65520 the
command `mkdir y` creates a node of 180 bytes where 16 are left: the writes of
`fs_create_node` leave the arena, so that what the command leaves in the globals behind it,
the offset among them, is not defined by the program. -/
theorem offset_lowered :
    sample_store.heap_pos = 540 ∧
    (kmalloc sample_store 4294967295).2.heap_pos = 539 ∧
    no_room_store.heap_pos = 65520 ∧ no_room_store.overrun = false ∧
    (handle_command no_room_store "mkdir y".toList).1.overrun = true :=
  ⟨by decide, by decide, by decide, by decide, by decide⟩

/-! ## Creating a directory and entering it -/

theorem skip_slash_terminated (post : List Char) (h : post = [] ∨ post.head? = some NUL) :
    charAt (skip_slash post) 0 = NUL := by
  cases post with
  | nil => rfl
  | cons c r =>
    rcases h with h | h
    · cases h
    · simp only [List.head?_cons, Option.some.injEq] at h
      subst h
      have hn : ¬ charAt (NUL :: r) 0 = '/' := by
        rw [charAt_cons_zero]
        decide
      unfold skip_slash
      rw [if_neg hn, charAt_cons_zero]

/-- The search of `fs_cd` for a name no sub-directory of the current directory `d` had, after
`fs_mkdir` created it: the entry found holds the new node. -/
theorem find_created_dir (s : State) (d : Nat) (name : List Char)
    (hcwd : s.fs_cwd = some d) (hd : d < s.heap_pos)
    (hroom : (s.nodes d).child_count < MAX_CHILDREN)
    (hlen : (cstr name).length ≤ 31)
    (hnew : ∀ j, ¬ dir_at s (some d) name j) :
    ∃ j, find_child (fs_mkdir s name) (some d) (is_dir_named (cstr name)) = some j ∧
      ((fs_mkdir s name).nodes d).children j = some s.heap_pos := by
  have hnd : s.heap_pos ≠ d := Nat.ne_of_gt hd
  have hs1 := fs_mkdir_room s name d hcwd (by unfold MAX_CHILDREN at hroom; exact hroom) hnd
  have h1d : (fs_mkdir s name).nodes d = with_child (s.nodes d) s.heap_pos := by
    rw [hs1]
    exact Function.update_same _ _ _
  have h1n : (fs_mkdir s name).nodes s.heap_pos = { created name 1 with parent := some d } := by
    rw [hs1]
    show Function.update _ d _ s.heap_pos = _
    rw [Function.update_noteq hnd, Function.update_same]
  have h1o : ∀ b, b ≠ d → b ≠ s.heap_pos → (fs_mkdir s name).nodes b = s.nodes b := by
    intro b hb1 hb2
    rw [hs1]
    show Function.update _ d _ b = _
    rw [Function.update_noteq hb1, Function.update_noteq hb2]
  have hlast : dir_at (fs_mkdir s name) (some d) (cstr name) (s.nodes d).child_count := by
    unfold dir_at
    simp only [deref_some, h1d, with_child, Function.update_same, h1n]
    refine ⟨Nat.lt_succ_self _, Int.one_ne_zero, ?_⟩
    show cstr (created name 1).name = _
    rw [cstr_idem]
    show cstr (strncpy fs_node_zero.name name (MAX_NAME_LEN - 1)) = _
    rw [cstr_name_of_created, List.take_of_length_le hlen]
  cases hf : find_child (fs_mkdir s name) (some d) (is_dir_named (cstr name)) with
  | none => exact absurd hlast ((find_dir_none _ _ _).mp hf _)
  | some j =>
    refine ⟨j, rfl, ?_⟩
    obtain ⟨⟨hj1, hj2, hj3⟩, _⟩ := (find_dir_some _ _ _ j).mp hf
    simp only [deref_some, h1d, with_child] at hj1 hj2 hj3
    rw [h1d]
    simp only [with_child]
    by_cases hjc : j = (s.nodes d).child_count
    · rw [hjc, Function.update_same]
    · rw [Function.update_noteq hjc] at hj2 hj3 ⊢
      cases hp : (s.nodes d).children j with
      | none =>
        rw [hp] at hj2
        exact absurd rfl hj2
      | some c =>
        by_cases hcn : c = s.heap_pos
        · rw [hcn]
        · exfalso
          rw [hp] at hj2 hj3
          simp only [deref_some] at hj2 hj3
          have hsame : ((fs_mkdir s name).nodes c).is_dir = (s.nodes c).is_dir ∧
              ((fs_mkdir s name).nodes c).name = (s.nodes c).name := by
            by_cases hcd : c = d
            · rw [hcd, h1d]
              exact ⟨rfl, rfl⟩
            · rw [h1o c hcd hcn]
              exact ⟨rfl, rfl⟩
          rw [hsame.1] at hj2
          rw [hsame.2, cstr_idem] at hj3
          apply hnew j
          unfold dir_at
          simp only [deref_some, hp]
          exact ⟨by omega, hj2, hj3⟩

/-- What `fs_mkdir(name)` followed by `fs_cd(name)` and `fs_cd("..")` does in the model, with
the footprint of the new node in the arena. -/
theorem mkdir_then_cd (s : State) (d : Nat) (name : List Char)
    (hcwd : s.fs_cwd = some d) (hd : d < s.heap_pos)
    (hroom : (s.nodes d).child_count < MAX_CHILDREN)
    (hne : cstr name ≠ []) (hlen : (cstr name).length ≤ 31) (hslash : '/' ∉ cstr name)
    (hdots : ¬ "..".toList <+: cstr name) (htilde : ¬ "~".toList <+: cstr name)
    (hnew : ∀ j, ¬ dir_at s (some d) name j) :
    (fs_create_node s name 1).1 = s.heap_pos ∧
    (fs_cd (fs_mkdir s name) name).fs_cwd = some s.heap_pos ∧
    ((fs_cd (fs_mkdir s name) name).nodes s.heap_pos).is_dir = 1 ∧
    cstr ((fs_cd (fs_mkdir s name) name).nodes s.heap_pos).name = cstr name ∧
    ((fs_cd (fs_mkdir s name) name).nodes s.heap_pos).child_count = 0 ∧
    ((fs_cd (fs_mkdir s name) name).nodes s.heap_pos).parent = some d ∧
    ((fs_cd (fs_mkdir s name) name).nodes d).child_count = (s.nodes d).child_count + 1 ∧
    ((fs_cd (fs_mkdir s name) name).nodes d).children (s.nodes d).child_count =
      some s.heap_pos ∧
    (fs_cd (fs_cd (fs_mkdir s name) name) "..".toList).fs_cwd = some d ∧
    (fs_cd (fs_mkdir s name) name).heap_pos = (s.heap_pos + sizeof_fs_node) % 4294967296 ∧
    (fs_cd (fs_mkdir s name) name).overrun =
      (s.overrun || past_heap s.heap_pos sizeof_fs_node) := by
  have hnd : s.heap_pos ≠ d := Nat.ne_of_gt hd
  have hs1 := fs_mkdir_room s name d hcwd (by unfold MAX_CHILDREN at hroom; exact hroom) hnd
  have h1cwd : (fs_mkdir s name).fs_cwd = some d := by rw [hs1]; exact hcwd
  have h1d : (fs_mkdir s name).nodes d = with_child (s.nodes d) s.heap_pos := by
    rw [hs1]
    exact Function.update_same _ _ _
  have h1n : (fs_mkdir s name).nodes s.heap_pos = { created name 1 with parent := some d } := by
    rw [hs1]
    show Function.update _ d _ s.heap_pos = _
    rw [Function.update_noteq hnd, Function.update_same]
  -- the path is the name, then nothing or the terminator
  obtain ⟨post, hsplit, hpost⟩ := cstr_append_rest name
  have hname : fs_cd_name name 0 = (cstr name, post) := by
    have h := fs_cd_name_exact (cstr name) post 0
      (fun c hc => ⟨fun e => cstr_no_nul name (e ▸ hc), fun e => hslash (e ▸ hc)⟩)
      (by omega) (hpost.elim Or.inl (fun h => Or.inr (Or.inr h)))
    rw [← hsplit] at h
    exact h
  have htl : strncmp name "~".toList 1 ≠ 0 := by
    intro h
    obtain ⟨q, hq⟩ := (strncmp_tilde name).mp h
    apply htilde
    rw [hq, cstr_cons, if_neg (by decide)]
    exact ⟨cstr q, rfl⟩
  have hdd : strncmp name "..".toList 2 ≠ 0 := by
    intro h
    obtain ⟨q, hq⟩ := (strncmp_dotdot name).mp h
    apply hdots
    rw [hq, cstr_cons, if_neg (by decide), cstr_cons, if_neg (by decide)]
    exact ⟨cstr q, rfl⟩
  have hc0 : charAt name 0 ≠ NUL := by
    cases name with
    | nil => exact absurd rfl hne
    | cons c r =>
      rw [charAt_cons_zero]
      intro e
      rw [cstr_cons, if_pos e] at hne
      exact hne rfl
  obtain ⟨m, hm⟩ : ∃ m, name.length = m + 1 := by
    cases name with
    | nil => exact absurd rfl hne
    | cons c r => exact ⟨r.length, rfl⟩
  obtain ⟨j, hj, hjn⟩ := find_created_dir s d name hcwd hd hroom hlen hnew
  have hwalk : fs_cd_walk (fs_mkdir s name) (name.length + 1) (some d) name =
      Walk.reached (some s.heap_pos) := by
    rw [walk_step_found _ _ _ _ j hc0 hdd (by rw [hname]; exact hj), hname, deref_some, hjn, hm,
      walk_end _ _ _ _ (skip_slash_terminated post hpost)]
  have hs2 : fs_cd (fs_mkdir s name) name =
      { fs_mkdir s name with fs_cwd := some s.heap_pos } := by
    have hstart : cd_start (fs_mkdir s name) name = some d := by
      unfold cd_start
      rw [if_neg htl, h1cwd]
    have hbody : cd_body name = name := by
      unfold cd_body
      rw [if_neg htl]
    rw [fs_cd_eq, hbody, hstart, hwalk]
  have h2n : (fs_cd (fs_mkdir s name) name).nodes = (fs_mkdir s name).nodes := by rw [hs2]
  have h2c : (fs_cd (fs_mkdir s name) name).fs_cwd = some s.heap_pos := by rw [hs2]
  refine ⟨rfl, h2c, ?_, ?_, ?_, ?_, ?_, ?_, ?_, ?_, ?_⟩
  · rw [h2n, h1n]
    rfl
  · rw [h2n, h1n]
    show cstr (strncpy fs_node_zero.name name (MAX_NAME_LEN - 1)) = _
    rw [cstr_name_of_created, List.take_of_length_le hlen]
  · rw [h2n, h1n]
    rfl
  · rw [h2n, h1n]
  · rw [h2n, h1d]
    rfl
  · rw [h2n, h1d]
    exact Function.update_same _ _ _
  · rw [fs_cd_dotdot]
    show (deref _ (fs_cd (fs_mkdir s name) name).fs_cwd).parent = some d
    rw [h2c, deref_some, h2n, h1n]
  · rw [hs2]
    show (fs_mkdir s name).heap_pos = _
    rw [hs1]
  · rw [hs2]
    show (fs_mkdir s name).overrun = _
    rw [hs1]

/-- C24 (amended): create-then-enter round trip inside the arena.  For a state whose current
directory `d` is a node below the arena offset with fewer than 32 children, in which a node
still fits into the arena, and a name (a C string) that is non-empty, at most 31 characters
long, without `/`, not beginning with `..` or `~` and not the name of a sub-directory listed
in `d`: after `fs_mkdir(name)` and `fs_cd(name)` the current directory is the node `fs_mkdir`
created, a directory named `name` with no children whose parent is `d` and which `d` lists
last; a following `fs_cd("..")` makes `d` the current directory again; the arena offset has
advanced by the node size and no write has left the arena. -/
theorem mkdir_cd_round_trip (s : State) (d : Nat) (name : List Char)
    (hcwd : s.fs_cwd = some d) (hd : d < s.heap_pos)
    (hfit : s.heap_pos + sizeof_fs_node ≤ sizeof_heap)
    (hroom : (s.nodes d).child_count < MAX_CHILDREN)
    (hne : cstr name ≠ []) (hlen : (cstr name).length ≤ 31) (hslash : '/' ∉ cstr name)
    (hdots : ¬ "..".toList <+: cstr name) (htilde : ¬ "~".toList <+: cstr name)
    (hnew : ∀ j, ¬ dir_at s (some d) name j) :
    (fs_create_node s name 1).1 = s.heap_pos ∧
    (fs_cd (fs_mkdir s name) name).fs_cwd = some s.heap_pos ∧
    ((fs_cd (fs_mkdir s name) name).nodes s.heap_pos).is_dir = 1 ∧
    cstr ((fs_cd (fs_mkdir s name) name).nodes s.heap_pos).name = cstr name ∧
    ((fs_cd (fs_mkdir s name) name).nodes s.heap_pos).child_count = 0 ∧
    ((fs_cd (fs_mkdir s name) name).nodes s.heap_pos).parent = some d ∧
    ((fs_cd (fs_mkdir s name) name).nodes d).child_count = (s.nodes d).child_count + 1 ∧
    ((fs_cd (fs_mkdir s name) name).nodes d).children (s.nodes d).child_count =
      some s.heap_pos ∧
    (fs_cd (fs_cd (fs_mkdir s name) name) "..".toList).fs_cwd = some d ∧
    (fs_cd (fs_mkdir s name) name).heap_pos = s.heap_pos + sizeof_fs_node ∧
    (fs_cd (fs_mkdir s name) name).overrun = s.overrun ∧
    (fs_cd (fs_cd (fs_mkdir s name) name) "..".toList).overrun = s.overrun := by
  obtain ⟨h1, h2, h3, h4, h5, h6, h7, h8, h9, h10, h11⟩ :=
    mkdir_then_cd s d name hcwd hd hroom hne hlen hslash hdots htilde hnew
  rw [arena_no_wrap _ _ hfit] at h10
  rw [past_heap_false _ _ hfit, Bool.or_false] at h11
  exact ⟨h1, h2, h3, h4, h5, h6, h7, h8, h9, h10, h11, by rw [(fs_cd_arena _ _).2, h11]⟩

set_option maxRecDepth 100000 in
/-- C24 (witness): the name `e` in the sample store, whose root lists the directory `d` and
the file `f`. -/
theorem mkdir_cd_round_trip_witness :
    sample_store.fs_cwd = some 0 ∧ 0 < sample_store.heap_pos ∧
    sample_store.heap_pos + sizeof_fs_node ≤ sizeof_heap ∧
    (sample_store.nodes 0).child_count < MAX_CHILDREN ∧
    cstr "e".toList ≠ [] ∧ (cstr "e".toList).length ≤ 31 ∧ '/' ∉ cstr "e".toList ∧
    ¬ "..".toList <+: cstr "e".toList ∧ ¬ "~".toList <+: cstr "e".toList ∧
    (∀ j, ¬ dir_at sample_store (some 0) "e".toList j) ∧
    (fs_cd (fs_mkdir sample_store "e".toList) "e".toList).fs_cwd = some sample_store.heap_pos ∧
    (fs_cd (fs_cd (fs_mkdir sample_store "e".toList) "e".toList) "..".toList).fs_cwd = some 0 :=
  ⟨by decide, by decide, by decide, by decide, by decide, by decide, by decide, by decide,
    by decide,
    by
      intro j hj
      have h2 : j < 2 := hj.1
      have hall : ∀ k, k < 2 → ¬ dir_at sample_store (some 0) "e".toList k := by decide
      exact hall j h2 hj,
    (mkdir_cd_round_trip sample_store 0 "e".toList (by decide) (by decide) (by decide)
      (by decide) (by decide) (by decide) (by decide) (by decide) (by decide)
      (by
        intro j hj
        have h2 : j < 2 := hj.1
        have hall : ∀ k, k < 2 → ¬ dir_at sample_store (some 0) "e".toList k := by decide
        exact hall j h2 hj)).2.1,
    (mkdir_cd_round_trip sample_store 0 "e".toList (by decide) (by decide) (by decide)
      (by decide) (by decide) (by decide) (by decide) (by decide) (by decide)
      (by
        intro j hj
        have h2 : j < 2 := hj.1
        have hall : ∀ k, k < 2 → ¬ dir_at sample_store (some 0) "e".toList k := by decide
        exact hall j h2 hj)).2.2.2.2.2.2.2.2.1⟩

set_option maxRecDepth 100000 in
/-- C24 (counterexample): two states whose current directory has fewer than 32 children and
lists no sub-directory `e`.  In the first the arena offset is 65520: the node `fs_mkdir`
creates does not fit into the arena and its writes leave it.  In the second the current
directory is the node at the arena offset itself: `fs_mkdir` builds the new node over it, and
after `fs_cd` the current directory is a node that lists one child, itself. -/
theorem round_trip_needs_room :
    (no_room_store.fs_cwd = some 0 ∧ (no_room_store.nodes 0).child_count = 2 ∧
      (∀ j, j < 2 → ¬ dir_at no_room_store (some 0) "e".toList j) ∧
      no_room_store.heap_pos = 65520 ∧ no_room_store.overrun = false ∧
      (fs_mkdir no_room_store "e".toList).overrun = true) ∧
    (unallocated_cwd_store.fs_cwd = some 0 ∧ unallocated_cwd_store.heap_pos = 0 ∧
      (unallocated_cwd_store.nodes 0).child_count = 0 ∧
      (fs_cd (fs_mkdir unallocated_cwd_store "e".toList) "e".toList).fs_cwd = some 0 ∧
      ((fs_cd (fs_mkdir unallocated_cwd_store "e".toList) "e".toList).nodes 0).child_count = 1 ∧
      ((fs_cd (fs_mkdir unallocated_cwd_store "e".toList) "e".toList).nodes 0).children 0 =
        some 0) :=
  ⟨⟨by decide, by decide, by decide, by decide, by decide, by decide⟩,
    ⟨by decide, by decide, by decide, by decide, by decide, by decide⟩⟩

/-! ## Filling the arena -/

theorem chain_name :
    cstr "a".toList ≠ [] ∧ (cstr "a".toList).length ≤ 31 ∧ '/' ∉ cstr "a".toList ∧
    ¬ "..".toList <+: cstr "a".toList ∧ ¬ "~".toList <+: cstr "a".toList := by
  decide

/-- One round `fs_mkdir("a")`, `fs_cd("a")` in a current directory without children: the new
node becomes the current directory, and the round is inside the arena when the node fits. -/
theorem chain_round (s : State) (d : Nat) (hcwd : s.fs_cwd = some d) (hd : d < s.heap_pos)
    (hcount : (s.nodes d).child_count = 0) :
    (fs_cd (fs_mkdir s "a".toList) "a".toList).fs_cwd = some s.heap_pos ∧
    ((fs_cd (fs_mkdir s "a".toList) "a".toList).nodes s.heap_pos).child_count = 0 ∧
    (fs_cd (fs_mkdir s "a".toList) "a".toList).heap_pos =
      (s.heap_pos + sizeof_fs_node) % 4294967296 ∧
    (fs_cd (fs_mkdir s "a".toList) "a".toList).overrun =
      (s.overrun || past_heap s.heap_pos sizeof_fs_node) := by
  have hnew : ∀ j, ¬ dir_at s (some d) "a".toList j := by
    intro j hj
    have := hj.1
    rw [deref_some, hcount] at this
    exact Nat.not_lt_zero _ this
  obtain ⟨_, h2, _, _, h5, _, _, _, _, h10, h11⟩ :=
    mkdir_then_cd s d "a".toList hcwd hd (by rw [hcount]; decide) chain_name.1 chain_name.2.1
      chain_name.2.2.1 chain_name.2.2.2.1 chain_name.2.2.2.2 hnew
  exact ⟨h2, h5, h10, h11⟩

theorem chain_fits (n : Nat) (hn : n + 1 ≤ 363) :
    180 * (n + 1) + sizeof_fs_node ≤ sizeof_heap := by
  unfold sizeof_fs_node sizeof_heap
  omega

set_option maxRecDepth 100000 in
/-- The chain of `n` nested directories, for `n` up to 363: it is reached inside the arena,
the arena offset is `180 * (n + 1)` and the current directory is the innermost node, without
children. -/
theorem deep_chain_fields (n : Nat) (hn : n ≤ 363) :
    Reachable (deep_chain n) ∧ (deep_chain n).heap_pos = 180 * (n + 1) ∧
    (deep_chain n).fs_cwd = some (180 * n) ∧
    ((deep_chain n).nodes (180 * n)).child_count = 0 ∧ (deep_chain n).overrun = false := by
  induction n with
  | zero => exact ⟨Reachable.init boot.vga, by decide, by decide, by decide, by decide⟩
  | succ n ih =>
    obtain ⟨hr, hh, hc, hk, ho⟩ := ih (Nat.le_of_succ_le hn)
    obtain ⟨h1, h2, h3, h4⟩ := chain_round (deep_chain n) (180 * n) hc (by rw [hh]; omega) hk
    have hfit := chain_fits n hn
    rw [hh] at h1 h2 h3 h4
    rw [arena_no_wrap _ _ hfit] at h3
    rw [ho, past_heap_false _ _ hfit] at h4
    have hmk : (fs_mkdir (deep_chain n) "a".toList).overrun = false := by
      rw [← (fs_cd_arena (fs_mkdir (deep_chain n) "a".toList) "a".toList).2]
      exact h4
    refine ⟨Reachable.cd _ _ (Reachable.mkdir _ _ hr hmk), ?_, h1, h2, h4⟩
    show (fs_cd (fs_mkdir (deep_chain n) "a".toList) "a".toList).heap_pos = _
    rw [h3]
    unfold sizeof_fs_node
    omega

/-- In a directory with room `fs_mkdir` flags the region of its node. -/
theorem fs_mkdir_overrun (s : State) (name : List Char) (c : Nat) (hc : s.fs_cwd = some c)
    (hroom : (s.nodes c).child_count < 32) (hne : s.heap_pos ≠ c) :
    (fs_mkdir s name).overrun = (s.overrun || past_heap s.heap_pos sizeof_fs_node) := by
  rw [fs_mkdir_room s name c hc hroom hne]

/-- C20 (counterexample): the chain of 363 nested directories is reached from `fs_init` by
`fs_mkdir` and `fs_cd` inside the arena and leaves the arena offset at 65520 = 364 * 180,
the current directory having no children; the next `fs_mkdir` creates its node at the offsets
65520 to 65699, past the 65536 bytes of the arena. -/
theorem tree_run_past_arena :
    Reachable (deep_chain 363) ∧ (deep_chain 363).heap_pos = 65520 ∧
    sizeof_heap = 65536 ∧ (deep_chain 363).overrun = false ∧
    (fs_mkdir (deep_chain 363) "a".toList).overrun = true := by
  obtain ⟨hr, hh, hc, hk, ho⟩ := deep_chain_fields 363 (Nat.le_refl _)
  refine ⟨hr, hh, rfl, ho, ?_⟩
  have hroom : ((deep_chain 363).nodes (180 * 363)).child_count < 32 := by
    rw [hk]
    decide
  rw [fs_mkdir_overrun (deep_chain 363) "a".toList (180 * 363) hc hroom (by rw [hh]; decide),
    hh, ho]
  decide

/-! ### The same chain, typed at the prompt -/

theorem find_child_vga (s : State) (v : Vga) (dir : Option Nat) (p : fs_node → Bool) :
    find_child { s with vga := v } dir p = find_child s dir p := by
  unfold find_child
  simp only [deref_vga]

theorem fs_cd_walk_vga (s : State) (v : Vga) (fuel : Nat) (cur : Option Nat)
    (path : List Char) :
    fs_cd_walk { s with vga := v } fuel cur path = fs_cd_walk s fuel cur path := by
  induction fuel generalizing cur path with
  | zero => rfl
  | succ fuel ih =>
    rw [fs_cd_walk, fs_cd_walk]
    simp only [find_child_vga, deref_vga, ih]

/-- The display does not matter to `fs_cd`. -/
theorem fs_cd_vga (s : State) (v : Vga) (path : List Char) :
    SameButVga (fs_cd s path) (fs_cd { s with vga := v } path) := by
  have e : cd_start { s with vga := v } path = cd_start s path := rfl
  rw [fs_cd_eq s, fs_cd_eq { s with vga := v }, e, fs_cd_walk_vga s v]
  cases fs_cd_walk s ((cd_body path).length + 1) (cd_start s path) (cd_body path) with
  | reached c => exact ⟨v, rfl⟩
  | missing => exact ⟨_, rfl⟩
  | fuel_out => exact ⟨v, rfl⟩

/-- The `mkdir` branch of the dispatcher. -/
theorem handle_command_mkdir (s : State) (name : List Char) :
    SameButVga (fs_mkdir { s with vga := vga_set_color s.vga 14 7 } name)
      (handle_command s ("mkdir ".toList ++ name)).1 := by
  have h1 : strncmp ("mkdir ".toList ++ name) "help".toList 5 ≠ 0 := by simp [strncmp, NUL]
  have h2 : strncmp ("mkdir ".toList ++ name) "\n".toList 1 ≠ 0 := by simp [strncmp, NUL]
  have h3 : strncmp ("mkdir ".toList ++ name) "vgatest".toList 8 ≠ 0 := by simp [strncmp, NUL]
  have h4 : strncmp ("mkdir ".toList ++ name) "edfile ".toList 7 ≠ 0 := by simp [strncmp, NUL]
  have h5 : strncmp ("mkdir ".toList ++ name) "cd ".toList 3 ≠ 0 := by simp [strncmp, NUL]
  have h6 : strncmp ("mkdir ".toList ++ name) "ls".toList 2 ≠ 0 := by simp [strncmp, NUL]
  have h7 : strncmp ("mkdir ".toList ++ name) "mkfile ".toList 7 ≠ 0 := by simp [strncmp, NUL]
  have h8 : strncmp ("mkdir ".toList ++ name) "mkdir ".toList 6 = 0 := by simp [strncmp, NUL]
  have h9 : ("mkdir ".toList ++ name).drop 6 = name := by simp
  unfold handle_command
  rw [if_neg h1, if_neg h2, if_neg h3, if_neg h4, if_neg h5, if_neg h6, if_neg h7, if_pos h8, h9]
  exact ⟨_, rfl⟩

/-- The `cd` branch of the dispatcher. -/
theorem handle_command_cd (s : State) (path : List Char) :
    SameButVga (fs_cd { s with vga := vga_set_color s.vga 14 7 } path)
      (handle_command s ("cd ".toList ++ path)).1 := by
  have h1 : strncmp ("cd ".toList ++ path) "help".toList 5 ≠ 0 := by simp [strncmp, NUL]
  have h2 : strncmp ("cd ".toList ++ path) "\n".toList 1 ≠ 0 := by simp [strncmp, NUL]
  have h3 : strncmp ("cd ".toList ++ path) "vgatest".toList 8 ≠ 0 := by simp [strncmp, NUL]
  have h4 : strncmp ("cd ".toList ++ path) "edfile ".toList 7 ≠ 0 := by simp [strncmp, NUL]
  have h5 : strncmp ("cd ".toList ++ path) "cd ".toList 3 = 0 := by simp [strncmp, NUL]
  have h9 : ("cd ".toList ++ path).drop 3 = path := by simp
  unfold handle_command
  rw [if_neg h1, if_neg h2, if_neg h3, if_neg h4, if_pos h5, h9]
  exact ⟨_, rfl⟩

/-- The commands `mkdir a`, `cd a` come down to `fs_mkdir("a")`, `fs_cd("a")` between writes
to the display. -/
theorem typed_round (s : State) :
    SameButVga (fs_mkdir { s with vga := vga_set_color s.vga 14 7 } "a".toList)
      (handle_command s "mkdir a".toList).1 ∧
    SameButVga
      (fs_cd (fs_mkdir { s with vga := vga_set_color s.vga 14 7 } "a".toList) "a".toList)
      (handle_command (handle_command s "mkdir a".toList).1 "cd a".toList).1 := by
  have hm := handle_command_mkdir s "a".toList
  have hc := handle_command_cd (handle_command s "mkdir a".toList).1 "a".toList
  refine ⟨hm, ?_⟩
  have e1 : "cd a".toList = "cd ".toList ++ "a".toList := by decide
  have e2 : "mkdir a".toList = "mkdir ".toList ++ "a".toList := by decide
  rw [e1, e2]
  rw [e2] at hc
  obtain ⟨w, hw⟩ := hm
  rw [hw] at hc ⊢
  exact same_but_vga_trans (fs_cd_vga _ _ _) hc

set_option maxRecDepth 100000 in
/-- The chain of `n` nested directories typed at the prompt, for `n` up to 363: it is a run
inside the arena, the arena offset is `180 * (n + 1)` and the current directory is the
innermost node, without children. -/
theorem typed_chain_fields (n : Nat) (hn : n ≤ 363) :
    Dispatched (typed_chain n) ∧ (typed_chain n).heap_pos = 180 * (n + 1) ∧
    (typed_chain n).fs_cwd = some (180 * n) ∧
    ((typed_chain n).nodes (180 * n)).child_count = 0 ∧ (typed_chain n).overrun = false := by
  induction n with
  | zero => exact ⟨Dispatched.init boot.vga, by decide, by decide, by decide, by decide⟩
  | succ n ih =>
    obtain ⟨hr, hh, hc, hk, ho⟩ := ih (Nat.le_of_succ_le hn)
    obtain ⟨h1, h2, h3, h4⟩ :=
      chain_round { typed_chain n with vga := vga_set_color (typed_chain n).vga 14 7 } (180 * n)
        hc (by show 180 * n < (typed_chain n).heap_pos; rw [hh]; omega) hk
    have hfit := chain_fits n hn
    obtain ⟨⟨w1, e1⟩, ⟨w2, e2⟩⟩ := typed_round (typed_chain n)
    have e3 : typed_chain (n + 1) =
        (handle_command (handle_command (typed_chain n) "mkdir a".toList).1 "cd a".toList).1 :=
      rfl
    have hfin : (typed_chain (n + 1)).overrun = false := by
      rw [e3, e2]
      show (fs_cd (fs_mkdir _ "a".toList) "a".toList).overrun = false
      rw [h4]
      show ((typed_chain n).overrun || past_heap (typed_chain n).heap_pos sizeof_fs_node) = false
      rw [ho, hh, past_heap_false _ _ hfit]
      rfl
    have hmid : (handle_command (typed_chain n) "mkdir a".toList).1.overrun = false := by
      rw [e1]
      show (fs_mkdir _ "a".toList).overrun = false
      rw [← (fs_cd_arena (fs_mkdir _ "a".toList) "a".toList).2, h4]
      show ((typed_chain n).overrun || past_heap (typed_chain n).heap_pos sizeof_fs_node) = false
      rw [ho, hh, past_heap_false _ _ hfit]
      rfl
    refine ⟨?_, ?_, ?_, ?_, hfin⟩
    · rw [e3] at hfin ⊢
      exact Dispatched.command _ _ (Dispatched.command _ _ hr hmid) hfin
    · rw [e3, e2]
      show (fs_cd (fs_mkdir _ "a".toList) "a".toList).heap_pos = _
      rw [h3]
      show ((typed_chain n).heap_pos + sizeof_fs_node) % 4294967296 = _
      rw [hh, arena_no_wrap _ _ hfit]
      unfold sizeof_fs_node
      omega
    · rw [e3, e2]
      show (fs_cd (fs_mkdir _ "a".toList) "a".toList).fs_cwd = _
      rw [h1]
      show some (typed_chain n).heap_pos = _
      rw [hh]
    · rw [e3, e2]
      show ((fs_cd (fs_mkdir _ "a".toList) "a".toList).nodes (180 * (n + 1))).child_count = 0
      have e4 : 180 * (n + 1) = (typed_chain n).heap_pos := hh.symm
      rw [e4]
      exact h2

/-- In a directory with room the command `mkdir a` flags the region of its node. -/
theorem typed_mkdir_overrun (s : State) (c : Nat) (hc : s.fs_cwd = some c)
    (hroom : (s.nodes c).child_count < 32) (hne : s.heap_pos ≠ c) :
    (handle_command s "mkdir a".toList).1.overrun =
      (s.overrun || past_heap s.heap_pos sizeof_fs_node) := by
  rw [(same_but_vga_arena (typed_round s).1).2]
  exact fs_mkdir_overrun { s with vga := vga_set_color s.vga 14 7 } "a".toList c hc hroom hne

/-- C21 (counterexample): the commands `mkdir a`, `cd a` dispatched 363 times on the fresh
store are a run inside the arena that leaves the arena offset at 65520 = 364 * 180; the next
command `mkdir a` creates its node at the offsets 65520 to 65699, past the 65536 bytes of the
arena. -/
theorem commands_run_past_arena :
    Dispatched (typed_chain 363) ∧ (typed_chain 363).heap_pos = 65520 ∧
    sizeof_heap = 65536 ∧ (typed_chain 363).overrun = false ∧
    (handle_command (typed_chain 363) "mkdir a".toList).1.overrun = true := by
  obtain ⟨hr, hh, hc, hk, ho⟩ := typed_chain_fields 363 (Nat.le_refl _)
  refine ⟨hr, hh, rfl, ho, ?_⟩
  have hroom : ((typed_chain 363).nodes (180 * 363)).child_count < 32 := by
    rw [hk]
    decide
  rw [typed_mkdir_overrun (typed_chain 363) (180 * 363) hc hroom (by rw [hh]; decide), hh, ho]
  decide

/-! ## The current directory is a directory of the tree -/

theorem intree_below (s : State) (h : DirInv s) (a : Nat) (ha : InTree s a) :
    a < s.heap_pos := by
  induction ha with
  | root r hr =>
    obtain ⟨r2, h1, h2, _⟩ := h.root
    rw [h1] at hr
    cases hr
    exact h2
  | child d i c _ hi hc _ =>
    obtain ⟨x, h1, h2, _⟩ := h.child d i hi
    rw [h1] at hc
    cases hc
    exact h2

/-- A node that lists a child is a directory. -/
theorem dir_of_child (s : State) (h : DirInv s) (d i : Nat)
    (hi : i < (s.nodes d).child_count) : (s.nodes d).is_dir ≠ 0 := by
  intro h0
  rw [h.file d h0] at hi
  exact Nat.not_lt_zero _ hi

/-- The parent of a node of the tree is a directory of the tree. -/
theorem intree_parent (s : State) (h : DirInv s) (a : Nat) (ha : InTree s a) :
    ∃ p, (s.nodes a).parent = some p ∧ (s.nodes p).is_dir ≠ 0 ∧ InTree s p := by
  cases ha with
  | root r hr =>
    obtain ⟨r2, h1, _, h3, h4⟩ := h.root
    rw [h1] at hr
    cases hr
    exact ⟨a, h4, h3, InTree.root a h1⟩
  | child d i c hd hi hc =>
    obtain ⟨x, h1, _, h3⟩ := h.child d i hi
    rw [h1] at hc
    cases hc
    exact ⟨d, h3, dir_of_child s h d i hi, hd⟩

/-- Reachability from the root carries over to a state with the same root whose nodes list at
least the same directories at the same places. -/
theorem intree_mono (s t : State) (hroot : t.fs_root = s.fs_root)
    (hlist : ∀ d i c, InTree s d → i < (s.nodes d).child_count →
      (s.nodes d).children i = some c → (s.nodes c).is_dir ≠ 0 →
      ∃ j, j < (t.nodes d).child_count ∧ (t.nodes d).children j = some c)
    (hleaf : ∀ d i, i < (s.nodes d).child_count → (s.nodes d).is_dir ≠ 0)
    (a : Nat) (ha : InTree s a) (hdir : (s.nodes a).is_dir ≠ 0) : InTree t a := by
  induction ha with
  | root r hr => exact InTree.root r (by rw [hroot, hr])
  | child d i c hd hi hc ih =>
    obtain ⟨j, hj1, hj2⟩ := hlist d i c hd hi hc hdir
    exact InTree.child d j c (ih (hleaf d i hi)) hj1 hj2

/-- A step that keeps the root, the current directory and the tree fields of every node, and
does not lower the arena offset, keeps the invariant. -/
theorem dirinv_congr (s t : State) (h : DirInv s) (hroot : t.fs_root = s.fs_root)
    (hcwd : t.fs_cwd = s.fs_cwd) (hge : s.heap_pos ≤ t.heap_pos)
    (hn : ∀ b, (t.nodes b).is_dir = (s.nodes b).is_dir ∧
      (t.nodes b).parent = (s.nodes b).parent ∧
      (t.nodes b).children = (s.nodes b).children ∧
      (t.nodes b).child_count = (s.nodes b).child_count) : DirInv t := by
  have hmono : ∀ a, InTree s a → (s.nodes a).is_dir ≠ 0 → InTree t a :=
    intree_mono s t hroot
      (fun d i c _ hi hc _ => ⟨i, by rw [(hn d).2.2.2]; exact hi, by rw [(hn d).2.2.1]; exact hc⟩)
      (fun d i hi => dir_of_child s h d i hi)
  constructor
  · obtain ⟨r, h1, h2, h3, h4⟩ := h.root
    exact ⟨r, by rw [hroot, h1], Nat.lt_of_lt_of_le h2 hge, by rw [(hn r).1]; exact h3,
      by rw [(hn r).2.1, h4]⟩
  · obtain ⟨c, h1, h2, h3⟩ := h.cwd
    exact ⟨c, by rw [hcwd, h1], by rw [(hn c).1]; exact h2, hmono c h3 h2⟩
  · intro d i hi
    rw [(hn d).2.2.2] at hi
    obtain ⟨c, h1, h2, h3⟩ := h.child d i hi
    exact ⟨c, by rw [(hn d).2.2.1, h1], Nat.lt_of_lt_of_le h2 hge, by rw [(hn c).2.1, h3]⟩
  · intro a ha
    rw [(hn a).1] at ha
    rw [(hn a).2.2.2]
    exact h.file a ha

theorem dirinv_same_but_vga {s t : State} (hv : SameButVga s t) (h : DirInv s) : DirInv t := by
  obtain ⟨v, rfl⟩ := hv
  exact dirinv_congr s _ h rfl rfl (Nat.le_refl _) (fun _ => ⟨rfl, rfl, rfl, rfl⟩)

/-- The invariant after a fresh node `nd` is placed at the arena offset and appended to the
children of the current directory `c`. -/
theorem dirinv_add_child (s t : State) (c : Nat) (nd : fs_node) (h : DirInv s)
    (hc : s.fs_cwd = some c) (hp : nd.parent = some c) (hcnt : nd.child_count = 0)
    (hroot : t.fs_root = s.fs_root) (hcwd : t.fs_cwd = s.fs_cwd)
    (hlt : s.heap_pos < t.heap_pos)
    (hnodes : t.nodes = Function.update (Function.update s.nodes s.heap_pos nd) c
      (with_child (s.nodes c) s.heap_pos)) : DirInv t := by
  obtain ⟨c2, hc2, hcdir, hctree⟩ := h.cwd
  rw [hc] at hc2
  cases hc2
  have hcn : c < s.heap_pos := intree_below s h c hctree
  have hne : s.heap_pos ≠ c := Nat.ne_of_gt hcn
  have hc' : t.nodes c = with_child (s.nodes c) s.heap_pos := by
    rw [hnodes, Function.update_same]
  have hn' : t.nodes s.heap_pos = nd := by
    rw [hnodes, Function.update_noteq hne, Function.update_same]
  have ho' : ∀ b, b ≠ c → b ≠ s.heap_pos → t.nodes b = s.nodes b := by
    intro b h1 h2
    rw [hnodes, Function.update_noteq h1, Function.update_noteq h2]
  have hold : ∀ b, b ≠ s.heap_pos → (t.nodes b).parent = (s.nodes b).parent ∧
      (t.nodes b).is_dir = (s.nodes b).is_dir := by
    intro b hb
    by_cases hbc : b = c
    · rw [hbc, hc']
      exact ⟨rfl, rfl⟩
    · rw [ho' b hbc hb]
      exact ⟨rfl, rfl⟩
  have hmono : ∀ a, InTree s a → (s.nodes a).is_dir ≠ 0 → InTree t a := by
    apply intree_mono s t hroot
    · intro d i x hd hi hx _
      have hdn : d ≠ s.heap_pos := Nat.ne_of_lt (intree_below s h d hd)
      by_cases hdc : d = c
      · subst hdc
        refine ⟨i, ?_, ?_⟩
        · rw [hc']
          exact Nat.lt_succ_of_lt hi
        · rw [hc']
          show Function.update _ _ _ i = _
          rw [Function.update_noteq (Nat.ne_of_lt hi), hx]
      · exact ⟨i, by rw [ho' d hdc hdn]; exact hi, by rw [ho' d hdc hdn]; exact hx⟩
    · exact fun d i hi => dir_of_child s h d i hi
  constructor
  · obtain ⟨r, h1, h2, h3, h4⟩ := h.root
    exact ⟨r, by rw [hroot, h1], Nat.lt_trans h2 hlt,
      by rw [(hold r (Nat.ne_of_lt h2)).2]; exact h3,
      by rw [(hold r (Nat.ne_of_lt h2)).1, h4]⟩
  · exact ⟨c, by rw [hcwd, hc], by rw [(hold c (Ne.symm hne)).2]; exact hcdir,
      hmono c hctree hcdir⟩
  · intro d i hi
    by_cases hd : d = c
    · subst hd
      rw [hc'] at hi ⊢
      simp only [with_child] at hi ⊢
      by_cases hi2 : i = (s.nodes d).child_count
      · refine ⟨s.heap_pos, by rw [hi2, Function.update_same], hlt, by rw [hn', hp]⟩
      · obtain ⟨x, h1, h2, h3⟩ := h.child d i (by omega)
        exact ⟨x, by rw [Function.update_noteq hi2, h1], Nat.lt_trans h2 hlt,
          by rw [(hold x (Nat.ne_of_lt h2)).1, h3]⟩
    · by_cases hd2 : d = s.heap_pos
      · rw [hd2, hn', hcnt] at hi
        exact absurd hi (Nat.not_lt_zero _)
      · rw [ho' d hd hd2] at hi ⊢
        obtain ⟨x, h1, h2, h3⟩ := h.child d i hi
        exact ⟨x, h1, Nat.lt_trans h2 hlt, by rw [(hold x (Nat.ne_of_lt h2)).1, h3]⟩
  · intro a ha
    by_cases ha2 : a = s.heap_pos
    · rw [ha2, hn', hcnt]
    · rw [(hold a ha2).2] at ha
      by_cases hac : a = c
      · rw [hac] at ha
        exact absurd ha hcdir
      · rw [ho' a hac ha2]
        exact h.file a ha

/-- The invariant after the `i`-th listed child of the current directory `c`, a file, is taken
out of its children by the shift of `fs_delfile`. -/
theorem dirinv_remove_child (s t : State) (c i : Nat) (h : DirInv s)
    (hc : s.fs_cwd = some c) (hi : i < (s.nodes c).child_count)
    (hfile : ∀ x, (s.nodes c).children i = some x → (s.nodes x).is_dir = 0)
    (hroot : t.fs_root = s.fs_root) (hcwd : t.fs_cwd = s.fs_cwd)
    (hheap : t.heap_pos = s.heap_pos)
    (hnodes : t.nodes = Function.update s.nodes c
      { s.nodes c with
        children := shift_children (s.nodes c).children i (s.nodes c).child_count
        child_count := (s.nodes c).child_count - 1 }) : DirInv t := by
  have hc' : t.nodes c = { s.nodes c with
      children := shift_children (s.nodes c).children i (s.nodes c).child_count
      child_count := (s.nodes c).child_count - 1 } := by
    rw [hnodes, Function.update_same]
  have ho' : ∀ b, b ≠ c → t.nodes b = s.nodes b := by
    intro b h1
    rw [hnodes, Function.update_noteq h1]
  have hold : ∀ b, (t.nodes b).parent = (s.nodes b).parent ∧
      (t.nodes b).is_dir = (s.nodes b).is_dir := by
    intro b
    by_cases hb : b = c
    · rw [hb, hc']
      exact ⟨rfl, rfl⟩
    · rw [ho' b hb]
      exact ⟨rfl, rfl⟩
  have hmono : ∀ a, InTree s a → (s.nodes a).is_dir ≠ 0 → InTree t a := by
    apply intree_mono s t hroot
    · intro d k x _ hk hx hxdir
      by_cases hdc : d = c
      · subst hdc
        have hki : k ≠ i := by
          intro e
          rw [e] at hx
          exact hxdir (hfile x hx)
        rw [hc']
        simp only
        by_cases hlt : k < i
        · refine ⟨k, by omega, ?_⟩
          rw [shift_children_apply _ _ _ _ hi, if_neg (by omega), hx]
        · refine ⟨k - 1, by omega, ?_⟩
          rw [shift_children_apply _ _ _ _ hi, if_pos (by omega)]
          have e : k - 1 + 1 = k := by omega
          rw [e, hx]
      · exact ⟨k, by rw [ho' d hdc]; exact hk, by rw [ho' d hdc]; exact hx⟩
    · exact fun d k hk => dir_of_child s h d k hk
  constructor
  · obtain ⟨r, h1, h2, h3, h4⟩ := h.root
    exact ⟨r, by rw [hroot, h1], by rw [hheap]; exact h2, by rw [(hold r).2]; exact h3,
      by rw [(hold r).1, h4]⟩
  · obtain ⟨c2, h1, h2, h3⟩ := h.cwd
    exact ⟨c2, by rw [hcwd, h1], by rw [(hold c2).2]; exact h2, hmono c2 h3 h2⟩
  · intro d k hk
    rw [hheap]
    by_cases hd : d = c
    · subst hd
      rw [hc'] at hk ⊢
      simp only at hk ⊢
      rw [shift_children_apply _ _ _ _ hi]
      by_cases hik : i ≤ k ∧ k < (s.nodes d).child_count - 1
      · rw [if_pos hik]
        obtain ⟨x, h1, h2, h3⟩ := h.child d (k + 1) (by omega)
        exact ⟨x, h1, h2, by rw [(hold x).1, h3]⟩
      · rw [if_neg hik]
        obtain ⟨x, h1, h2, h3⟩ := h.child d k (by omega)
        exact ⟨x, h1, h2, by rw [(hold x).1, h3]⟩
    · rw [ho' d hd] at hk ⊢
      obtain ⟨x, h1, h2, h3⟩ := h.child d k hk
      exact ⟨x, h1, h2, by rw [(hold x).1, h3]⟩
  · intro a ha
    rw [(hold a).2] at ha
    by_cases hac : a = c
    · rw [hac, hc']
      show (s.nodes c).child_count - 1 = 0
      rw [hac] at ha
      rw [h.file c ha]
    · rw [ho' a hac]
      exact h.file a ha
/-- The segment loop of `fs_cd`, started at a directory of the tree, ends at one: a step moves
to the parent or to a listed child with `is_dir` set. -/
theorem walk_dir (s : State) (h : DirInv s) (fuel : Nat) (cur : Option Nat) (path : List Char)
    (hcur : ∃ a, cur = some a ∧ (s.nodes a).is_dir ≠ 0 ∧ InTree s a) (c : Option Nat)
    (hw : fs_cd_walk s fuel cur path = Walk.reached c) :
    ∃ a, c = some a ∧ (s.nodes a).is_dir ≠ 0 ∧ InTree s a := by
  induction fuel generalizing cur path with
  | zero => simp [fs_cd_walk] at hw
  | succ fuel ih =>
    obtain ⟨a, rfl, hadir, hatree⟩ := hcur
    unfold fs_cd_walk at hw
    by_cases h1 : charAt path 0 = NUL
    · rw [if_pos h1] at hw
      cases hw
      exact ⟨a, rfl, hadir, hatree⟩
    · rw [if_neg h1] at hw
      by_cases h2 : strncmp path "..".toList 2 = 0
      · rw [if_pos h2] at hw
        obtain ⟨p, hp1, hp2, hp3⟩ := intree_parent s h a hatree
        exact ih _ _ ⟨p, by rw [deref_some, hp1], hp2, hp3⟩ hw
      · rw [if_neg h2] at hw
        cases hf : find_child s (some a) (is_dir_named (fs_cd_name path 0).1) with
        | none => rw [hf] at hw; cases hw
        | some j =>
          rw [hf] at hw
          obtain ⟨hj1, hj2, _⟩ := ((find_dir_some s (some a) _ j).mp hf).1
          simp only [deref_some] at hj1 hj2
          obtain ⟨x, hx1, _, _⟩ := h.child a j hj1
          rw [hx1, deref_some] at hj2
          exact ih _ _ ⟨x, by rw [deref_some, hx1], hj2, InTree.child a j x hatree hj1 hx1⟩ hw

theorem dirinv_fs_cd (s : State) (path : List Char) (h : DirInv s) : DirInv (fs_cd s path) := by
  rw [fs_cd_eq]
  cases hw : fs_cd_walk s ((cd_body path).length + 1) (cd_start s path) (cd_body path) with
  | missing => exact dirinv_same_but_vga ⟨_, rfl⟩ h
  | fuel_out => exact h
  | reached c =>
    have hstart : ∃ a, cd_start s path = some a ∧ (s.nodes a).is_dir ≠ 0 ∧ InTree s a := by
      unfold cd_start
      split_ifs
      · obtain ⟨r, h1, _, h3, _⟩ := h.root
        exact ⟨r, h1, h3, InTree.root r h1⟩
      · exact h.cwd
    obtain ⟨a, rfl, hadir, hatree⟩ := walk_dir s h _ _ _ hstart c hw
    show DirInv { s with fs_cwd := some a }
    refine ⟨h.root, ⟨a, rfl, hadir, ?_⟩, h.child, h.file⟩
    exact intree_mono s { s with fs_cwd := some a } rfl (fun d i x _ hi hx _ => ⟨i, hi, hx⟩)
      (fun d i hi => dir_of_child s h d i hi) a hatree hadir

theorem bump_ne (a : Nat) : (a + sizeof_fs_node) % 4294967296 ≠ a := by
  unfold sizeof_fs_node
  omega

theorem dirinv_fs_mkdir (s : State) (name : List Char) (h : DirInv s)
    (hge : s.heap_pos ≤ (fs_mkdir s name).heap_pos) : DirInv (fs_mkdir s name) := by
  obtain ⟨c, hc, _, hctree⟩ := h.cwd
  by_cases hroom : (deref s s.fs_cwd).child_count < MAX_CHILDREN
  · rw [hc] at hroom
    have e := fs_mkdir_room s name c hc hroom (Nat.ne_of_gt (intree_below s h c hctree))
    rw [e] at hge ⊢
    exact dirinv_add_child s _ c _ h hc rfl rfl rfl rfl
      (Nat.lt_of_le_of_ne hge (Ne.symm (bump_ne _))) rfl
  · unfold fs_mkdir
    rw [if_pos (Nat.le_of_not_lt hroom)]
    exact dirinv_same_but_vga ⟨_, rfl⟩ h

theorem dirinv_fs_mkfile (s : State) (name : List Char) (h : DirInv s)
    (hge : s.heap_pos ≤ (fs_mkfile s name).heap_pos) : DirInv (fs_mkfile s name) := by
  obtain ⟨c, hc, _, hctree⟩ := h.cwd
  by_cases hroom : (deref s s.fs_cwd).child_count < MAX_CHILDREN
  · rw [hc] at hroom
    have e := fs_mkfile_room s name c hc hroom (Nat.ne_of_gt (intree_below s h c hctree))
    rw [e] at hge ⊢
    exact dirinv_add_child s _ c _ h hc rfl rfl rfl rfl
      (Nat.lt_of_le_of_ne hge (Ne.symm (bump_ne _))) rfl
  · unfold fs_mkfile
    rw [if_pos (Nat.le_of_not_lt hroom)]
    exact dirinv_same_but_vga ⟨_, rfl⟩ h

theorem dirinv_fs_delfile (s : State) (name : List Char) (h : DirInv s) :
    DirInv (fs_delfile s name) := by
  by_cases hf : ∃ j, file_at s name j
  · obtain ⟨i, hi⟩ := first_file_exists s name hf
    obtain ⟨c, hc⟩ := cwd_some_of_child s i hi.1.1
    rw [fs_delfile_found s name i c hi hc]
    have hic : i < (s.nodes c).child_count := by
      have := hi.1.1
      rw [hc] at this
      exact this
    have hfile : ∀ x, (s.nodes c).children i = some x → (s.nodes x).is_dir = 0 := by
      intro x hx
      have := hi.1.2.1
      unfold child at this
      rw [hc, deref_some, hx, deref_some] at this
      exact this
    exact dirinv_remove_child s _ c i h hc hic hfile rfl rfl rfl rfl
  · rw [fs_delfile_missing s name (fun j hj => hf ⟨j, hj⟩)]
    exact dirinv_same_but_vga ⟨_, rfl⟩ h

theorem dirinv_fs_edfile_start (s : State) (name : List Char) (h : DirInv s) :
    DirInv (fs_edfile_start s name) := by
  unfold fs_edfile_start
  cases find_child s s.fs_cwd (is_file_named name) with
  | none => exact dirinv_same_but_vga ⟨_, rfl⟩ h
  | some i =>
    exact dirinv_congr s _ h rfl rfl (Nat.le_refl _) (fun _ => ⟨rfl, rfl, rfl, rfl⟩)

theorem dirinv_op (s : State) (op : Op) (h : DirInv s)
    (hge : s.heap_pos ≤ (Op.run s op).heap_pos) : DirInv (Op.run s op) := by
  cases op with
  | skip => exact h
  | cd path => exact dirinv_fs_cd s path h
  | mkfile name => exact dirinv_fs_mkfile s name h hge
  | mkdir name => exact dirinv_fs_mkdir s name h hge
  | delfile name => exact dirinv_fs_delfile s name h
  | edfile name => exact dirinv_fs_edfile_start s name h

/-- A dispatcher command that does not wrap the arena offset keeps the invariant. -/
theorem dirinv_handle_command (s : State) (cmd : List Char) (h : DirInv s)
    (hge : s.heap_pos ≤ (handle_command s cmd).1.heap_pos) :
    DirInv (handle_command s cmd).1 := by
  obtain ⟨op, s1, h1, h2⟩ := handle_command_op s cmd
  rw [(same_but_vga_arena h2).1, ← (same_but_vga_arena h1).1] at hge
  exact dirinv_same_but_vga h2 (dirinv_op s1 op (dirinv_same_but_vga h1 h) hge)

/-- A key that does not wrap the arena offset keeps the invariant. -/
theorem dirinv_read_input_char (s : State) (c : Char) (h : DirInv s)
    (hge : s.heap_pos ≤ (read_input_char s c).1.heap_pos) :
    DirInv (read_input_char s c).1 := by
  by_cases hmode : s.fs_edit_mode = 0
  · by_cases hnl : c = '\n'
    · subst hnl
      have h1 : DirInv { s with input_buffer := Function.update s.input_buffer s.input_pos NUL } :=
        dirinv_congr s _ h rfl rfl (Nat.le_refl _) (fun _ => ⟨rfl, rfl, rfl, rfl⟩)
      have hk := dirinv_handle_command _ (command_line s) h1
      revert hk hge
      unfold read_input_char command_line
      rw [if_neg (by simpa using hmode), if_pos rfl]
      simp only []
      generalize handle_command _ _ = r
      obtain ⟨s2, ctl⟩ := r
      intro hge hk
      cases ctl
      · exact dirinv_congr s2 _ (hk hge) rfl rfl (Nat.le_refl _) (fun _ => ⟨rfl, rfl, rfl, rfl⟩)
      · exact hk hge
      · exact hk hge
    · unfold read_input_char
      rw [if_neg (by simpa using hmode), if_neg hnl]
      split_ifs
      · exact dirinv_congr s _ h rfl rfl (Nat.le_refl _) (fun _ => ⟨rfl, rfl, rfl, rfl⟩)
      · exact h
      · exact dirinv_congr s _ h rfl rfl (Nat.le_refl _) (fun _ => ⟨rfl, rfl, rfl, rfl⟩)
      · exact h
  · by_cases htab : c = '\t'
    · subst htab
      cases hf : s.fs_edit_file with
      | some a =>
        rw [read_edit_commit s a hmode hf] at hge ⊢
        refine dirinv_congr s _ h rfl rfl hge ?_
        intro b
        show (Function.update s.nodes a _ b).is_dir = _ ∧
          (Function.update s.nodes a _ b).parent = _ ∧
          (Function.update s.nodes a _ b).children = _ ∧
          (Function.update s.nodes a _ b).child_count = _
        by_cases hb : b = a
        · subst hb
          rw [Function.update_same]
          exact ⟨rfl, rfl, rfl, rfl⟩
        · rw [Function.update_noteq hb]
          exact ⟨rfl, rfl, rfl, rfl⟩
      | none =>
        have e : (read_input_char s '\t').1 =
            { s with
              fs_edit_buffer := Function.update s.fs_edit_buffer s.fs_edit_pos NUL
              heap_pos := (s.heap_pos + (s.fs_edit_pos + 1)) % 4294967296
              overrun := s.overrun || past_heap s.heap_pos (s.fs_edit_pos + 1)
              fs_edit_mode := 0
              fs_edit_file := none
              vga := vga_write (vga_write s.vga "\n-- SAVED --\n".toList) "[ibant]> ".toList } := by
          unfold read_input_char
          rw [if_pos hmode]
          simp [kmalloc, store, hf]
        rw [e] at hge ⊢
        exact dirinv_congr s _ h rfl rfl hge (fun _ => ⟨rfl, rfl, rfl, rfl⟩)
    · unfold read_input_char
      rw [if_pos hmode, if_neg htab]
      split_ifs
      · exact dirinv_congr s _ h rfl rfl (Nat.le_refl _) (fun _ => ⟨rfl, rfl, rfl, rfl⟩)
      · exact h
      · exact dirinv_congr s _ h rfl rfl (Nat.le_refl _) (fun _ => ⟨rfl, rfl, rfl, rfl⟩)
      · exact h

/-- The invariant after `fs_init` placed a new root at the arena offset, in a state whose
listed children are allocated nodes. -/
theorem dirinv_new_root (s t : State) (nd : fs_node)
    (hchild : ∀ d i, i < (s.nodes d).child_count →
      ∃ c, (s.nodes d).children i = some c ∧ c < s.heap_pos ∧ (s.nodes c).parent = some d)
    (hfile : ∀ a, (s.nodes a).is_dir = 0 → (s.nodes a).child_count = 0)
    (hdir : nd.is_dir ≠ 0) (hpar : nd.parent = some s.heap_pos) (hcnt : nd.child_count = 0)
    (hroot : t.fs_root = some s.heap_pos) (hcwd : t.fs_cwd = some s.heap_pos)
    (hlt : s.heap_pos < t.heap_pos)
    (hnodes : t.nodes = Function.update s.nodes s.heap_pos nd) : DirInv t := by
  have hn' : t.nodes s.heap_pos = nd := by rw [hnodes, Function.update_same]
  have ho' : ∀ b, b ≠ s.heap_pos → t.nodes b = s.nodes b := by
    intro b hb
    rw [hnodes, Function.update_noteq hb]
  constructor
  · exact ⟨s.heap_pos, hroot, hlt, by rw [hn']; exact hdir, by rw [hn', hpar]⟩
  · exact ⟨s.heap_pos, hcwd, by rw [hn']; exact hdir, InTree.root _ hroot⟩
  · intro d i hi
    by_cases hd : d = s.heap_pos
    · rw [hd, hn', hcnt] at hi
      exact absurd hi (Nat.not_lt_zero _)
    · rw [ho' d hd] at hi ⊢
      obtain ⟨x, h1, h2, h3⟩ := hchild d i hi
      exact ⟨x, h1, Nat.lt_trans h2 hlt, by rw [ho' x (Nat.ne_of_lt h2), h3]⟩
  · intro a ha
    by_cases had : a = s.heap_pos
    · rw [had, hn', hcnt]
    · rw [ho' a had] at ha ⊢
      exact hfile a ha

theorem dirinv_fs_init (s : State)
    (hchild : ∀ d i, i < (s.nodes d).child_count →
      ∃ c, (s.nodes d).children i = some c ∧ c < s.heap_pos ∧ (s.nodes c).parent = some d)
    (hfile : ∀ a, (s.nodes a).is_dir = 0 → (s.nodes a).child_count = 0)
    (hge : s.heap_pos ≤ (fs_init s).heap_pos) : DirInv (fs_init s) := by
  rw [fs_init_eq] at hge ⊢
  exact dirinv_new_root s _ { created "~".toList 1 with parent := some s.heap_pos } hchild hfile
    Int.one_ne_zero rfl rfl rfl rfl (Nat.lt_of_le_of_ne hge (Ne.symm (bump_ne _))) rfl

/-- A dispatcher command whose writes stay inside the arena does not lower the arena offset
and leaves it inside the arena. -/
theorem command_inside (s : State) (cmd : List Char) (ha : s.heap_pos ≤ sizeof_heap)
    (hclean : (handle_command s cmd).1.overrun = false) :
    s.heap_pos ≤ (handle_command s cmd).1.heap_pos ∧
    (handle_command s cmd).1.heap_pos ≤ sizeof_heap := by
  rcases handle_command_arena s cmd with h | h
  · rw [h.1]
    exact ⟨Nat.le_refl _, ha⟩
  · rw [h.2] at hclean
    rw [h.1, arena_no_wrap _ _ (fits_of_no_overrun _ _ _ hclean).2]
    exact ⟨Nat.le_add_right _ _, (fits_of_no_overrun _ _ _ hclean).2⟩

/-- A key whose writes stay inside the arena does not lower the arena offset and leaves it
inside the arena. -/
theorem key_inside (s : State) (c : Char) (ha : s.heap_pos ≤ sizeof_heap)
    (hclean : (read_input_char s c).1.overrun = false) :
    s.heap_pos ≤ (read_input_char s c).1.heap_pos ∧
    (read_input_char s c).1.heap_pos ≤ sizeof_heap := by
  rcases read_input_char_arena s c with h | h | h
  · rw [h.1]
    exact ⟨Nat.le_refl _, ha⟩
  · rw [h.2] at hclean
    rw [h.1, arena_no_wrap _ _ (fits_of_no_overrun _ _ _ hclean).2]
    exact ⟨Nat.le_add_right _ _, (fits_of_no_overrun _ _ _ hclean).2⟩
  · rw [h.2] at hclean
    rw [h.1, arena_no_wrap _ _ (fits_of_no_overrun _ _ _ hclean).2]
    exact ⟨Nat.le_add_right _ _, (fits_of_no_overrun _ _ _ hclean).2⟩

/-- An `fs_init` whose root node lies inside the arena does not lower the arena offset and
leaves it inside the arena. -/
theorem init_inside (s : State) (hclean : (fs_init s).overrun = false) :
    s.heap_pos ≤ (fs_init s).heap_pos ∧ (fs_init s).heap_pos ≤ sizeof_heap := by
  rw [fs_init_eq] at hclean ⊢
  have hfit := (fits_of_no_overrun s.overrun s.heap_pos sizeof_fs_node hclean).2
  show s.heap_pos ≤ (s.heap_pos + sizeof_fs_node) % 4294967296 ∧
    (s.heap_pos + sizeof_fs_node) % 4294967296 ≤ sizeof_heap
  rw [arena_no_wrap _ _ hfit]
  exact ⟨Nat.le_add_right _ _, hfit⟩

/-- No write of a run has left the arena, and the arena offset is inside the arena. -/
theorem dispatched_clean (s : State) (h : Dispatched s) :
    s.overrun = false ∧ s.heap_pos ≤ sizeof_heap := by
  induction h with
  | init v =>
    rw [fs_init_eq]
    exact ⟨rfl, by
      show (0 + sizeof_fs_node) % 4294967296 ≤ sizeof_heap
      decide⟩
  | display s v _ ih => exact ih
  | command s cmd _ hg ih => exact ⟨hg, (command_inside s cmd ih.2 hg).2⟩
  | key s c _ hg ih => exact ⟨hg, (key_inside s c ih.2 hg).2⟩
  | restart s _ hg _ => exact ⟨hg, (init_inside s hg).2⟩

theorem dispatched_inv (s : State) (h : Dispatched s) : DirInv s := by
  induction h with
  | init v =>
    apply dirinv_fs_init
    · intro d i hi
      exact absurd hi (Nat.not_lt_zero _)
    · intro a _
      rfl
    · exact Nat.zero_le _
  | display s v _ ih => exact dirinv_same_but_vga ⟨v, rfl⟩ ih
  | command s cmd hs hg ih =>
    exact dirinv_handle_command s cmd ih (command_inside s cmd (dispatched_clean s hs).2 hg).1
  | key s c hs hg ih =>
    exact dirinv_read_input_char s c ih (key_inside s c (dispatched_clean s hs).2 hg).1
  | restart s _ hg ih => exact dirinv_fs_init s ih.child ih.file (init_inside s hg).1

/-- C21 (amended): in every state of a run that starts with `fs_init` and goes on by dispatcher
commands (and by keys, writes to the display and the `fs_init` of a restart) in which no
allocation has run past the 64 KiB arena, the current directory is a node with `is_dir` set
that is reachable from the root through listed children, `fs_cd` on any path leaves it such a
node (its walk only moves to a parent or to a listed child with `is_dir` set), a node with
`is_dir = 0` lists no children, and the arena offset is at most 64 KiB. -/
theorem cwd_is_directory (s : State) (h : Dispatched s) :
    (∃ c, s.fs_cwd = some c ∧ (s.nodes c).is_dir ≠ 0 ∧ InTree s c) ∧
    (∀ path, ∃ c, (fs_cd s path).fs_cwd = some c ∧ ((fs_cd s path).nodes c).is_dir ≠ 0 ∧
      InTree (fs_cd s path) c) ∧
    (∀ a, (s.nodes a).is_dir = 0 → (s.nodes a).child_count = 0) ∧
    s.overrun = false ∧ s.heap_pos ≤ sizeof_heap :=
  ⟨(dispatched_inv s h).cwd, fun path => (dirinv_fs_cd s path (dispatched_inv s h)).cwd,
    (dispatched_inv s h).file, dispatched_clean s h⟩

set_option maxRecDepth 100000 in
/-- C21 (witness): after `mkdir d` and `cd d` on the fresh store the current directory is the
node at offset 180, the directory `d`. -/
theorem cwd_is_directory_witness :
    Dispatched entered_store ∧ entered_store.fs_cwd = some 180 ∧
    (∃ c, entered_store.fs_cwd = some c ∧ (entered_store.nodes c).is_dir ≠ 0 ∧
      InTree entered_store c) :=
  ⟨Dispatched.command _ "cd d".toList
      (Dispatched.command _ "mkdir d".toList (Dispatched.init boot.vga) (by decide))
      (by decide),
    by decide,
    (cwd_is_directory entered_store
      (Dispatched.command _ "cd d".toList
        (Dispatched.command _ "mkdir d".toList (Dispatched.init boot.vga) (by decide))
        (by decide))).1⟩



end Ibantos
